import Mathlib

/-!
# EraEngine blast destruction: chunk connectivity graph

A shallow embedding of `src/src/px/blast/px_blast_destructions.h`, of
`computeIntegralTerm` from `src/src/px/core/px_extensions.h` and of the grid loop
of the `px_cloth_system` constructor from
`src/src/px/features/cloth/px_clothing_factory.h`.

* Entity handles (`entity_handle`, a 32-bit id) and joint pointers
  (`px_fixed_joint*`) are natural numbers.
* The scene registry is a record of component tables, one per component type,
  each a function from entity handle to an optional component.
* `std::unordered_set` that the code iterates is a list (insertion order is the
  iteration order, `emplace` keeps it duplicate free); `std::unordered_map` is an
  association list with unique keys.  The unfreeze queue, which the code only
  tests and inserts into, is a `Finset`.
* A `chunk_node*` is represented by the handle of the entity that owns the
  component.
* Unchecked dereferences (`getComponent` of an absent component, a null
  `chunk_node*`, indexing past a vector) make the operation return `none`.
-/

namespace physics

/-! ## Containers -/

/-- The handle of a scene entity (`entity_handle`). -/
abbrev entity_handle := Nat

/-- The address of a `px_fixed_joint`. -/
abbrev joint_ptr := Nat

/-- The `std::unordered_set::emplace`: inserts unless already present. -/
def set_emplace (s : List Nat) (x : Nat) : List Nat :=
  if x ∈ s then s else s ++ [x]

/-- The `std::unordered_set::erase` by value. -/
def set_erase (s : List Nat) (x : Nat) : List Nat :=
  s.filter (fun y => y != x)

/-- The `std::unordered_map::contains`. -/
def map_contains {β : Type} (m : List (Nat × β)) (k : Nat) : Bool :=
  (m.lookup k).isSome

/-- The `std::unordered_map::emplace`: no effect when the key is present. -/
def map_emplace {β : Type} (m : List (Nat × β)) (k : Nat) (v : β) : List (Nat × β) :=
  if map_contains m k then m else m ++ [(k, v)]

/-- The `std::unordered_map::erase` by key. -/
def map_erase {β : Type} (m : List (Nat × β)) (k : Nat) : List (Nat × β) :=
  m.filter (fun p => p.1 != k)

/-- The `manager.joints[chunk].push_back(joint)` of `connectTouchingChunks`. -/
def joints_push (joints : List (entity_handle × List joint_ptr)) (chunk : entity_handle)
    (joint : joint_ptr) : List (entity_handle × List joint_ptr) :=
  match joints with
  | [] => []
  | p :: rest =>
    if p.1 == chunk then (p.1, p.2 ++ [joint]) :: rest else p :: joints_push rest chunk joint

/-! ## Data model -/

/-- A three-component vector (`vec3`, `PxVec3`), over exact rationals in place
of `float`. -/
structure vec3 where
  x : ℚ := 0
  y : ℚ := 0
  z : ℚ := 0
deriving DecidableEq, Repr

/-- A two-component vector (`vec2`, `PxVec2`). -/
structure vec2 where
  x : ℚ := 0
  y : ℚ := 0
deriving DecidableEq, Repr

/-- A rotation (`quat`). -/
structure quat where
  x : ℚ := 0
  y : ℚ := 0
  z : ℚ := 0
  w : ℚ := 1
deriving DecidableEq, Repr

/-- A transform (`trs`, `transform_component`). -/
structure trs where
  position : vec3 := {}
  rotation : quat := {}
  scale : vec3 := { x := 1, y := 1, z := 1 }
deriving DecidableEq, Repr

/-- The `trs::identity`. -/
def trs.identity : trs := {}

/-- An axis-aligned box given by its corners (`mesh->aabb`). -/
structure bounding_box where
  minCorner : vec3 := {}
  maxCorner : vec3 := {}
deriving DecidableEq, Repr

/-- The fields of `submesh_asset` the destruction code reads. -/
structure submesh_asset where
  positions : List vec3 := []
  uvs : List vec2 := []
  normals : List vec3 := []
  triangles : List (Nat × Nat × Nat) := []
deriving DecidableEq, Repr

/-- The vectors of an `nvmesh`. -/
structure nvmesh where
  vertices : List vec3 := []
  normals : List vec3 := []
  uvs : List vec2 := []
  indices : List Nat := []
deriving DecidableEq, Repr

/-- Component-wise sum. -/
def vec3.add (a b : vec3) : vec3 := { x := a.x + b.x, y := a.y + b.y, z := a.z + b.z }

/-- Component-wise difference. -/
def vec3.sub (a b : vec3) : vec3 := { x := a.x - b.x, y := a.y - b.y, z := a.z - b.z }

/-- Product with a scalar. -/
def vec3.scale (a : vec3) (k : ℚ) : vec3 := { x := a.x * k, y := a.y * k, z := a.z * k }

/-- Component-wise minimum (`::min`). -/
def vec3.min (a b : vec3) : vec3 :=
  { x := Min.min a.x b.x, y := Min.min a.y b.y, z := Min.min a.z b.z }

/-- Component-wise maximum (`::max`). -/
def vec3.max (a b : vec3) : vec3 :=
  { x := Max.max a.x b.x, y := Max.max a.y b.y, z := Max.max a.z b.z }

/-- The `bounds` of the header: a box given by centre and half extents. -/
structure bounds where
  center : vec3 := {}
  extents : vec3 := {}
deriving DecidableEq, Repr

/-- The `bounds::setMinMax`. -/
def bounds.setMinMax (_b : bounds) (min max : vec3) : bounds :=
  let extents := (max.sub min).scale (1 / 2)
  { extents := extents, center := min.add extents }

/-- The `bounds::encapsulate(const vec3&)`. -/
def bounds.encapsulate (b : bounds) (point : vec3) : bounds :=
  b.setMinMax ((b.center.sub b.extents).min point) ((b.center.add b.extents).max point)

/-- The `bounds::encapsulate(const bounds&)`. -/
def bounds.encapsulateBounds (b : bounds) (other : bounds) : bounds :=
  (b.encapsulate (other.center.sub other.extents)).encapsulate (other.center.add other.extents)

/-- The observable part of a `px_fixed_joint`: the chunks stored in the user
data of its two actors, the four numbers of the `px_fixed_joint_desc` it was
built from, and the state of the underlying constraint (`none` when the `joint`
pointer is null, otherwise whether `eBROKEN` is set). -/
structure px_fixed_joint where
  first : entity_handle := 0
  second : entity_handle
  desc : ℚ × ℚ × ℚ × ℚ := (0, 0, 0, 0)
  joint : Option Bool
deriving DecidableEq, Repr

/-- The part of `px_rigidbody_component` the destruction code writes:
the flag set by `setKinematic`. -/
structure px_rigidbody_component where
  isKinematic : Bool := false
deriving DecidableEq, Repr

/-- The `maxSpliteGeneration` constant. -/
def maxSpliteGeneration : Nat := 3

/-- The `chunk_graph_manager::chunk_node` component. -/
structure chunk_node where
  neighbours : List entity_handle := []
  hasBrokenLinks : Bool := false
  jointToChunk : List (joint_ptr × entity_handle) := []
  chunkToJoint : List (entity_handle × joint_ptr) := []
  handle : entity_handle := 0
  frozen : Bool := true
  isKinematic : Bool := false
  spliteGeneration : Nat := 0
deriving DecidableEq, Repr

/-- The constructor `chunk_node(entity_handle handl, uint32 generation)`. -/
def chunk_node.mk2 (handl : entity_handle) (generation : Nat) : chunk_node :=
  { handle := handl, spliteGeneration := generation }

/-- The `chunk_graph_manager` component: the node list, its recorded size and
the table from a chunk to the joints it created. -/
structure chunk_graph_manager where
  nodes : List entity_handle := []
  nbNodes : Nat := 0
  joints : List (entity_handle × List joint_ptr) := []
deriving DecidableEq, Repr

/-- Modelled from the spec: the entity store (`escene`, `eentity`, the registry)
is not under `src/`; section 6 of the spec lists the primitives the destruction
code consumes (create and delete entity, attach and query typed components,
parent and child relation, registry size).  The record holds the live entities,
the counter that names the next entity, one table per component type, and the
process-wide physics state of `physics_holder::physicsRef`: the joint objects
allocated so far and the unfreeze queue. -/
structure escene where
  entities : List entity_handle := []
  nextEntity : entity_handle := 0
  rigidbodies : entity_handle → Option px_rigidbody_component := fun _ => none
  chunk_nodes : entity_handle → Option chunk_node := fun _ => none
  nvmesh_chunks : entity_handle → Option nvmesh := fun _ => none
  meshes : entity_handle → Option (submesh_asset × bounding_box) := fun _ => none
  transforms : entity_handle → Option trs := fun _ => none
  managers : entity_handle → Option chunk_graph_manager := fun _ => none
  parent : entity_handle → Option entity_handle := fun _ => none
  jointHeap : joint_ptr → px_fixed_joint := fun _ => { second := 0, joint := none }
  nbJoints : Nat := 0
  unfreezeBlastQueue : Finset Nat := ∅

/-- The external collaborators of section 6 of the spec, taken as parameters:
`PxVec3::magnitude`; the result of `fractureMeshesInNvblast`, whose body drives
the NvBlast fracture tool; the bounding box of a render mesh; the result list of
`overlapSphere` at the world position of a mesh vertex under a transform with
the touch radius; and the result list of `overlapBox` at the region that
`getAnchoredColliders` computes for one face (named by its `anchor` bit) from
the mesh transform and the bounds. -/
structure px_physics_engine where
  magnitude : vec3 → ℚ
  fractureMeshesInNvblast : Int → nvmesh → Bool → List (submesh_asset × nvmesh)
  aabb : submesh_asset → bounding_box
  overlapSphere : trs → vec3 → List entity_handle
  overlapBox : Nat → trs → bounds → List entity_handle

/-- The `anchor::None`. -/
def anchor.None : Nat := 0

/-- The `anchor::Left`. -/
def anchor.Left : Nat := 1

/-- The `anchor::Right`. -/
def anchor.Right : Nat := 2

/-- The `anchor::Bottom`. -/
def anchor.Bottom : Nat := 4

/-- The `anchor::Top`. -/
def anchor.Top : Nat := 8

/-- The `anchor::Front`. -/
def anchor.Front : Nat := 16

/-- The `anchor::Back`. -/
def anchor.Back : Nat := 32

/-- The `operator|` on `anchor`, an enumeration over `uint8_t`. -/
def anchor.or (lhs rhs : Nat) : Nat := (lhs ||| rhs) % 256

/-- The `operator&` on `anchor`: whether the masks share a bit. -/
def anchor.and (lhs rhs : Nat) : Bool := (lhs &&& rhs) % 256 != 0

/-- Modelled from the spec: `px_rigidbody_component::setKinematic` is not under
`src/`; it marks the rigid body kinematic. -/
def px_rigidbody_component.setKinematic (rb : px_rigidbody_component) (kinematic : Bool) :
    px_rigidbody_component :=
  { rb with isKinematic := kinematic }

/-- The `null_entity`. -/
def null_entity : entity_handle := 4294967295

/-- The `chunkPair`. -/
structure chunkPair where
  chunk1 : entity_handle := 0
  chunk2 : entity_handle := 0
deriving DecidableEq, Repr

/-- The `operator==` on `chunkPair`. -/
def chunkPair.eq (lhs rhs : chunkPair) : Bool :=
  (rhs.chunk1 == lhs.chunk1 || rhs.chunk1 == lhs.chunk2) &&
    (rhs.chunk2 == lhs.chunk2 || rhs.chunk2 == lhs.chunk1)

/-! ## Scene primitives -/

/-- Stores a chunk node as the component of entity `e`. -/
def escene.setNode (s : escene) (e : entity_handle) (c : chunk_node) : escene :=
  { s with chunk_nodes := Function.update s.chunk_nodes e (some c) }

/-- Modelled from the spec: `escene::createEntity` is not under `src/`.  A new
entity gets the next handle and carries no component. -/
def escene.createEntity (s : escene) : escene × entity_handle :=
  let h := s.nextEntity
  ({ s with
      entities := s.entities ++ [h],
      nextEntity := h + 1,
      rigidbodies := Function.update s.rigidbodies h none,
      chunk_nodes := Function.update s.chunk_nodes h none,
      nvmesh_chunks := Function.update s.nvmesh_chunks h none,
      meshes := Function.update s.meshes h none,
      transforms := Function.update s.transforms h none,
      managers := Function.update s.managers h none,
      parent := Function.update s.parent h none }, h)

/-- Modelled from the spec: `escene::deleteEntity` is not under `src/`.  The
entity leaves the registry together with all its components. -/
def escene.deleteEntity (s : escene) (h : entity_handle) : escene :=
  { s with
      entities := s.entities.filter (fun e => e != h),
      rigidbodies := Function.update s.rigidbodies h none,
      chunk_nodes := Function.update s.chunk_nodes h none,
      nvmesh_chunks := Function.update s.nvmesh_chunks h none,
      meshes := Function.update s.meshes h none,
      transforms := Function.update s.transforms h none,
      managers := Function.update s.managers h none,
      parent := Function.update s.parent h none }

/-- Modelled from the spec: `registry.size()`, the emptiness test used as an
early-exit guard, is not under `src/`; it counts the entities of the registry. -/
def escene.registrySize (s : escene) : Nat := s.entities.length

/-- Modelled from the spec: `eentity::setParent` is not under `src/`. -/
def escene.setParent (s : escene) (child parent : entity_handle) : escene :=
  { s with parent := Function.update s.parent child (some parent) }

/-- Modelled from the spec: `eentity::getChilds` is not under `src/`. -/
def escene.getChilds (s : escene) (e : entity_handle) : List entity_handle :=
  s.entities.filter (fun c => s.parent c == some e)

/-- The statement `enttScene->createEntity("Fracture")` with a unit
`transform_component` and a new `chunk_graph_manager`, shared by
`processDamage` and `fractureGameObject`. -/
def escene.createFractureRoot (s : escene) : escene × entity_handle :=
  let r := s.createEntity
  ({ r.1 with
      transforms := Function.update r.1.transforms r.2 (some {}),
      managers := Function.update r.1.managers r.2 (some {}) }, r.2)

/-! ## Operations of `chunk_node` -/

/-- The `chunk_node::contains`. -/
def chunk_node.contains (c : chunk_node) (chunkNode : entity_handle) : Bool :=
  decide (chunkNode ∈ c.neighbours)

/-- The `chunk_node::onJointBreak`. -/
def chunk_node.onJointBreak (c : chunk_node) : chunk_node :=
  { c with hasBrokenLinks := true }

/-- The `chunk_node::remove`. -/
def chunk_node.remove (c : chunk_node) (chunkNode : entity_handle) : chunk_node :=
  { c with chunkToJoint := map_erase c.chunkToJoint chunkNode,
           neighbours := set_erase c.neighbours chunkNode }

/-- The `chunk_node::freeze` of the node owned by entity `e`.  It only writes
velocity, damping and mass properties of the rigid body of the entity named by
the node's `handle` (a dynamic actor), none of which is part of this model; what
remains is the unchecked `getComponent<px_rigidbody_component>`.  It does not
touch the `frozen` flag of the node. -/
def chunk_node.freeze (s : escene) (e : entity_handle) : Option escene :=
  match s.chunk_nodes e with
  | none => none
  | some c =>
    match s.rigidbodies c.handle with
    | none => none
    | some _ => some s

/-- The `chunk_node::unfreeze` of the node owned by entity `e`. -/
def chunk_node.unfreeze (s : escene) (e : entity_handle) : Option escene :=
  match s.chunk_nodes e with
  | none => none
  | some c =>
    if c.handle ∈ s.unfreezeBlastQueue then some s
    else
      some { s with
        unfreezeBlastQueue := insert c.handle s.unfreezeBlastQueue,
        chunk_nodes := Function.update s.chunk_nodes e (some { c with frozen := false }) }

/-- First loop of `chunk_node::setup`: one joint of `manager->joints[handle]`
is entered in both maps. -/
def chunk_node.addJoint (s : escene) (c : chunk_node) (joint : joint_ptr) : chunk_node :=
  let chunk := (s.jointHeap joint).second
  { c with jointToChunk := map_emplace c.jointToChunk joint chunk,
           chunkToJoint := map_emplace c.chunkToJoint chunk joint }

/-- Second loop of `chunk_node::setup`, one iteration: the chunk becomes a
neighbour of the node at `e`, and the node at `e` (through its `handle`) becomes
a neighbour of the chunk unless it already is. -/
def chunk_node.linkNeighbour (e : entity_handle) (s : escene) (chunkNode : entity_handle × joint_ptr) :
    Option escene :=
  match s.chunk_nodes e with
  | none => none
  | some c =>
    let s1 := s.setNode e { c with neighbours := set_emplace c.neighbours chunkNode.1 }
    match s1.chunk_nodes chunkNode.1 with
    | none => none
    | some chunk =>
      if chunk.contains c.handle == false then
        some (s1.setNode chunkNode.1 { chunk with neighbours := set_emplace chunk.neighbours c.handle })
      else some s1

/-- The `chunk_node::setup` of the node owned by entity `e`. -/
def chunk_node.setup (manager : chunk_graph_manager) (s : escene) (e : entity_handle) : Option escene :=
  match chunk_node.freeze s e with
  | none => none
  | some s1 =>
    match s1.chunk_nodes e with
    | none => none
    | some c =>
      let c1 := { c with jointToChunk := [], chunkToJoint := [] }
      match manager.joints.lookup c1.handle with
      | none => some (s1.setNode e c1)
      | some js =>
        let c2 := js.foldl (chunk_node.addJoint s1) c1
        c2.chunkToJoint.foldlM (chunk_node.linkNeighbour e) (s1.setNode e c2)

/-- The `chunk_node::cleanBrokenLinks`, first loop: the joints of `jointToChunk`
whose constraint exists and reports `eBROKEN`. -/
def chunk_node.brokenLinks (s : escene) (c : chunk_node) : List joint_ptr :=
  (c.jointToChunk.filter (fun joint => (s.jointHeap joint.1).joint == some true)).map Prod.fst

/-- The `chunk_node::cleanBrokenLinks`, second loop, one iteration, for the node
owned by entity `e`.  The `jointToChunk[link]` of the code default-constructs a
missing entry, which the following `erase` removes again. -/
def chunk_node.cleanLink (e : entity_handle) (s : escene) (link : joint_ptr) : Option escene :=
  match s.chunk_nodes e with
  | none => none
  | some c =>
    let body := (c.jointToChunk.lookup link).getD 0
    let s1 := s.setNode e { c with jointToChunk := map_erase c.jointToChunk link,
                                   chunkToJoint := map_erase c.chunkToJoint body }
    match s1.chunk_nodes body with
    | none => none
    | some other =>
      let s2 := s1.setNode body (other.remove c.handle)
      match s2.chunk_nodes e with
      | none => none
      | some c2 => some (s2.setNode e { c2 with neighbours := set_erase c2.neighbours body })

/-- The `chunk_node::cleanBrokenLinks` of the node owned by entity `e`. -/
def chunk_node.cleanBrokenLinks (s : escene) (e : entity_handle) : Option escene :=
  match s.chunk_nodes e with
  | none => none
  | some c =>
    match (chunk_node.brokenLinks s c).foldlM (chunk_node.cleanLink e) s with
    | none => none
    | some s1 =>
      match s1.chunk_nodes e with
      | none => none
      | some c1 => some (s1.setNode e { c1 with hasBrokenLinks := false })

/-! ## Operations of `chunk_graph_manager` -/

/-- First loop of `chunk_graph_manager::setup`: a handle without a chunk node
gets a fresh one. -/
def chunk_graph_manager.attach (generation : Nat) (s : escene) (body : entity_handle) : escene :=
  match s.chunk_nodes body with
  | none => s.setNode body (chunk_node.mk2 body generation)
  | some _ => s

/-- Second loop of `chunk_graph_manager::setup`, one iteration. -/
def chunk_graph_manager.wire (ms : chunk_graph_manager × escene) (body : entity_handle) :
    Option (chunk_graph_manager × escene) :=
  match chunk_node.setup ms.1 ms.2 body with
  | none => none
  | some s1 => some ({ ms.1 with nodes := ms.1.nodes ++ [body] }, s1)

/-- The `chunk_graph_manager::setup`. -/
def chunk_graph_manager.setup (m : chunk_graph_manager) (s : escene) (bodies : List entity_handle)
    (generation : Nat) : Option (chunk_graph_manager × escene) :=
  let m1 := { m with nbNodes := bodies.length }
  let s1 := bodies.foldl (chunk_graph_manager.attach generation) s
  bodies.foldlM chunk_graph_manager.wire (m1, s1)

/-- The `chunk_graph_manager::traverse`.  The recursion of the code is bounded
by `fuel`; `none` is returned when the bound is reached.  A neighbour without a
chunk node yields a null pointer in the code, which is never in `search`. -/
def chunk_graph_manager.traverse (s : escene) :
    Nat → entity_handle → List entity_handle → List entity_handle → Option (List entity_handle)
  | 0, _, _, _ => none
  | fuel + 1, o, search, visited =>
    if decide (o ∈ search) && (decide (o ∈ visited) == false) then
      match s.chunk_nodes o with
      | none => none
      | some c =>
        c.neighbours.foldlM
          (fun vis n =>
            match s.chunk_nodes n with
            | none => some vis
            | some _ => chunk_graph_manager.traverse s fuel n search vis)
          (set_emplace visited o)
    else some visited

/-- First loop of `chunk_graph_manager::searchGraph`, one iteration: the node of
`object` is appended to the anchors when the entity has a rigid body and the
node is kinematic, and is entered in the search set.  A missing chunk node is a
null pointer that the code goes on to dereference. -/
def chunk_graph_manager.collect (s : escene) (acc : List entity_handle × List entity_handle)
    (object : entity_handle) : Option (List entity_handle × List entity_handle) :=
  match s.chunk_nodes object with
  | none => none
  | some c =>
    let anchors :=
      if (s.rigidbodies object).isSome && c.isKinematic then acc.1 ++ [object] else acc.1
    some (anchors, set_emplace acc.2 object)

/-- Second loop of `chunk_graph_manager::searchGraph`, one iteration: everything
the anchor reaches inside the search set is taken out of the search set. -/
def chunk_graph_manager.prune (s : escene) (search : List entity_handle) (o : entity_handle) :
    Option (List entity_handle) :=
  if o ∈ search then
    match chunk_graph_manager.traverse s (search.length + 1) o search [] with
    | none => none
    | some subVisited => some (search.filter (fun x => decide (x ∈ subVisited) == false))
  else some search

/-- The set `search` of `chunk_graph_manager::searchGraph` when its last loop
starts: the nodes on which `unfreeze()` is called. -/
def chunk_graph_manager.searchTargets (m : chunk_graph_manager) (s : escene)
    (objects : List entity_handle) : Option (List entity_handle) :=
  if objects.length < m.nbNodes then none
  else
    match (objects.take m.nbNodes).foldlM (chunk_graph_manager.collect s) ([], []) with
    | none => none
    | some (anchors, search) => anchors.foldlM (chunk_graph_manager.prune s) search

/-- The `chunk_graph_manager::searchGraph`. -/
def chunk_graph_manager.searchGraph (m : chunk_graph_manager) (s : escene)
    (objects : List entity_handle) : Option escene :=
  match chunk_graph_manager.searchTargets m s objects with
  | none => none
  | some search => search.foldlM chunk_node.unfreeze s

/-- The `chunk_graph_manager::update`: its whole body is commented out. -/
def chunk_graph_manager.update (_m : chunk_graph_manager) (s : escene) : Option escene :=
  some s

/-- The loop inside the commented-out body of `chunk_graph_manager::update`,
one iteration. -/
def chunk_graph_manager.repairNode (acc : Bool × escene) (node : entity_handle) :
    Option (Bool × escene) :=
  match acc.2.chunk_nodes node with
  | none => none
  | some nodeComponent =>
    if nodeComponent.hasBrokenLinks then
      match chunk_node.cleanBrokenLinks acc.2 node with
      | none => none
      | some s1 => some (true, s1)
    else some acc

/-- The commented-out body of `chunk_graph_manager::update`: every node with
broken links is cleaned, and `searchGraph(nodes)` runs if any was. -/
def chunk_graph_manager.updateDisabledBody (m : chunk_graph_manager) (s : escene) : Option escene :=
  if m.nodes.length < m.nbNodes then none
  else
    match (m.nodes.take m.nbNodes).foldlM chunk_graph_manager.repairNode (false, s) with
    | none => none
    | some (runSearch, s1) =>
      if runSearch then chunk_graph_manager.searchGraph m s1 m.nodes else some s1

/-! ## Re-fracturing and the fracture orchestrator -/

/-- Modelled from the spec: `buildChunk` is declared in the header but defined
outside `src/`.  Following "builds one rigid chunk per fragment" and the
components its callers read back, it creates an entity with a transform, the
render mesh, the `nvmesh_chunk_component` and a non-kinematic rigid body; the
chunk node is attached later by `chunk_graph_manager::setup`. -/
def buildChunk (px : px_physics_engine) (s : escene) (transform : trs)
    (mesh : submesh_asset × nvmesh) (_mass : ℚ) (_generation : Nat) : escene × entity_handle :=
  let r := s.createEntity
  ({ r.1 with
      transforms := Function.update r.1.transforms r.2 (some transform),
      meshes := Function.update r.1.meshes r.2 (some (mesh.1, px.aabb mesh.1)),
      nvmesh_chunks := Function.update r.1.nvmesh_chunks r.2 (some mesh.2),
      rigidbodies := Function.update r.1.rigidbodies r.2 (some { isKinematic := false }) }, r.2)

/-- The `buildChunks`: one `buildChunk` per mesh, handles in order. -/
def buildChunks (px : px_physics_engine) (s : escene) (transform : trs)
    (meshes : List (submesh_asset × nvmesh)) (chunkMass : ℚ) (generation : Nat) :
    escene × List entity_handle :=
  meshes.foldl
    (fun acc mesh =>
      let r := buildChunk px acc.1 transform mesh chunkMass generation
      (r.1, acc.2 ++ [r.2]))
    (s, [])

/-- The `chunk_node::processDamage` of the node owned by entity `e`. -/
def chunk_node.processDamage (px : px_physics_engine) (s : escene) (e : entity_handle)
    (impulse : vec3) : Option escene :=
  match s.chunk_nodes e with
  | none => none
  | some c =>
    if c.spliteGeneration < maxSpliteGeneration then
      if px.magnitude impulse > 5 then
        if s.registrySize = 0 then some s
        else
          let r := s.createFractureRoot
          let s1 := r.1
          let fractureGameObject := r.2
          match s1.nvmesh_chunks c.handle with
          | none => none
          | some mesh =>
            let meshes := px.fractureMeshesInNvblast 5 mesh false
            let transform := (s1.transforms c.handle).getD trs.identity
            let b := buildChunks px s1 transform meshes (15 / 2) 0
            let generation := c.spliteGeneration + 1
            let s2 := b.1.setNode e { c with spliteGeneration := generation }
            match chunk_graph_manager.setup {} s2 b.2 generation with
            | none => none
            | some (graphManager, s3) =>
              let s4 := { s3 with
                managers := Function.update s3.managers fractureGameObject (some graphManager) }
              some (s4.deleteEntity c.handle)
      else some s
    else some s

/-- The bounds pushed by `getCompositeMeshBounds` for one mesh component. -/
def boundsOfAabb (aabb : bounding_box) : bounds :=
  { center := (aabb.maxCorner.add aabb.minCorner).scale (1 / 2),
    extents := (aabb.maxCorner.sub aabb.minCorner).scale (1 / 2) }

/-- The `getCompositeMeshBounds`. -/
def getCompositeMeshBounds (s : escene) (entt : entity_handle) : bounds :=
  let childs := s.getChilds entt
  let own : List bounds :=
    match s.meshes entt with
    | some mesh => [boundsOfAabb mesh.2]
    | none => []
  let meshBounds :=
    own ++ childs.filterMap (fun c => (s.meshes c).map (fun mesh => boundsOfAabb mesh.2))
  match meshBounds with
  | [] => {}
  | [b] => b
  | b :: rest => rest.foldl bounds.encapsulateBounds b

/-- One `if (anchor & face)` block of `getAnchoredColliders`. -/
def fracture.anchorFace (px : px_physics_engine) (mask : Nat) (meshTransform : trs)
    (bounds : bounds) (anchoredChunks : List entity_handle) (face : Nat) : List entity_handle :=
  if anchor.and mask face then
    (px.overlapBox face meshTransform bounds).foldl set_emplace anchoredChunks
  else anchoredChunks

/-- The `fracture::getAnchoredColliders`. -/
def fracture.getAnchoredColliders (px : px_physics_engine) (mask : Nat) (meshTransform : trs)
    (bounds : bounds) : List entity_handle :=
  [anchor.Left, anchor.Right, anchor.Bottom, anchor.Top, anchor.Front, anchor.Back].foldl
    (fracture.anchorFace px mask meshTransform bounds) []

/-- The loop of `fracture::anchorChunks`, one iteration. -/
def fracture.anchorCollider (s : escene) (collider : entity_handle) : Option escene :=
  match s.rigidbodies collider with
  | none => none
  | some rb =>
    some { s with
      rigidbodies := Function.update s.rigidbodies collider (some (rb.setKinematic true)) }

/-- The `fracture::anchorChunks`. -/
def fracture.anchorChunks (px : px_physics_engine) (s : escene) (gameObject : entity_handle)
    (mask : Nat) : Option escene :=
  if mask = anchor.None then some s
  else
    match s.transforms gameObject with
    | none => none
    | some transform =>
      let bounds := getCompositeMeshBounds s gameObject
      let anchoredColliders := fracture.getAnchoredColliders px mask transform bounds
      anchoredColliders.foldlM fracture.anchorCollider s

/-- Second loop of `fracture::connectTouchingChunks`, one iteration: a fixed
joint from `chunk` to the overlapping body, built from the constant descriptor
`{0.1, 0.1, 2000, 1000}`, is allocated and recorded under `chunk`. -/
def fracture.connectOverlap (chunk : entity_handle) (acc : chunk_graph_manager × escene)
    (overlap : entity_handle) : Option (chunk_graph_manager × escene) :=
  if overlap != chunk then
    match acc.2.rigidbodies overlap with
    | none => none
    | some _ =>
      let joint := acc.2.nbJoints
      let s1 := { acc.2 with
        jointHeap := Function.update acc.2.jointHeap joint
          { first := chunk, second := overlap, desc := (1 / 10, 1 / 10, 2000, 1000),
            joint := some false },
        nbJoints := acc.2.nbJoints + 1 }
      if map_contains acc.1.joints chunk then
        some ({ acc.1 with joints := joints_push acc.1.joints chunk joint }, s1)
      else
        some ({ acc.1 with joints := map_emplace acc.1.joints chunk [joint] }, s1)
  else some acc

/-- The `fracture::connectTouchingChunks`. -/
def fracture.connectTouchingChunks (px : px_physics_engine) (manager : chunk_graph_manager)
    (s : escene) (asset : submesh_asset) (chunk : entity_handle) (_jointBreakForce : ℚ) :
    Option (chunk_graph_manager × escene) :=
  match s.rigidbodies chunk, s.transforms chunk, s.meshes chunk with
  | some _, some transform, some _ =>
    let overlaps := asset.positions.foldl
      (fun acc vertex => (px.overlapSphere transform vertex).foldl set_emplace acc) []
    overlaps.foldlM (fracture.connectOverlap chunk) (manager, s)
  | _, _, _ => none

/-- The `fracture::validateMesh`. -/
def fracture.validateMesh (mesh : submesh_asset) : Bool :=
  if mesh.positions.length = 0 then false
  else if mesh.uvs.length = 0 then false
  else true

/-- The `signedVolumeOfTriangle`. -/
def signedVolumeOfTriangle (p1 p2 p3 : vec3) : ℚ :=
  let v321 := p3.x * p2.y * p1.z
  let v231 := p2.x * p3.y * p1.z
  let v312 := p3.x * p1.y * p2.z
  let v132 := p1.x * p3.y * p2.z
  let v213 := p2.x * p1.y * p3.z
  let v123 := p1.x * p2.y * p3.z
  (1 / 6) * (-v321 + v231 + v312 - v132 - v213 + v123)

/-- The `volumeOfMesh`; a triangle index past the positions is an unchecked
read. -/
def volumeOfMesh (mesh : submesh_asset) : Option ℚ :=
  (mesh.triangles.foldlM
    (fun (volume : ℚ) (t : Nat × Nat × Nat) =>
      match mesh.positions.get? t.1, mesh.positions.get? t.2.1, mesh.positions.get? t.2.2 with
      | some p1, some p2, some p3 => some (volume + signedVolumeOfTriangle p1 p2 p3)
      | _, _, _ => none)
    0).map (fun volume => |volume|)

/-- The `fracture::fractureGameObject`; `mask` is its `anchor` argument.  The
materials and the write to `randomGenerator::seedResult` are not modelled. -/
def fracture.fractureGameObject (px : px_physics_engine) (s : escene) (meshAsset : submesh_asset)
    (gameObject : entity_handle) (mask : Nat) (_seed : Int) (totalChunks : Int)
    (jointBreakForce density : ℚ) : Option (escene × entity_handle) :=
  if totalChunks ≤ 0 then some (s, null_entity)
  else
    let r := s.createFractureRoot
    let s1 := r.1
    let fractureGameObject := r.2
    let graphManager : chunk_graph_manager := {}
    let indices : List Nat :=
      meshAsset.triangles.foldl (fun acc t => acc ++ [t.1, t.2.1, t.2.2]) []
    let nvMesh : nvmesh :=
      { vertices := meshAsset.positions, normals := meshAsset.normals, uvs := meshAsset.uvs,
        indices := indices }
    let meshes :=
      if totalChunks = 1 then [(meshAsset, nvMesh)]
      else px.fractureMeshesInNvblast totalChunks nvMesh false
    match volumeOfMesh meshAsset with
    | none => none
    | some volume =>
      let chunkMass := volume * density / totalChunks
      match s1.transforms gameObject with
      | none => none
      | some transform =>
        let b := buildChunks px s1 transform meshes chunkMass 0
        let chunks := b.2
        match (meshes.zip chunks).foldlM
            (fun acc mc =>
              fracture.connectTouchingChunks px acc.1 acc.2 mc.1.1 mc.2 jointBreakForce)
            (graphManager, b.1) with
        | none => none
        | some (graphManager1, s2) =>
          let s3 := chunks.foldl (fun acc chunk => acc.setParent chunk fractureGameObject) s2
          match fracture.anchorChunks px s3 fractureGameObject mask with
          | none => none
          | some s4 =>
            match chunk_graph_manager.setup graphManager1 s4 chunks 0 with
            | none => none
            | some (graphManager2, s5) =>
              some ({ s5 with
                managers := Function.update s5.managers fractureGameObject (some graphManager2) },
                fractureGameObject)

/-! ## Mesh indexing, mass properties and the cloth grid -/

/-- The fields of an `Nv::Blast::Vertex` that `generateIndices` reads: the
position `p`, the normal `n` and the first texture coordinate `uv[0]`. -/
structure blast_vertex where
  p : vec3 := {}
  n : vec3 := {}
  uv : vec2 := {}
deriving DecidableEq, Repr

/-- The `Nv::Blast::Triangle`: its three corners. -/
structure blast_triangle where
  a : blast_vertex := {}
  b : blast_vertex := {}
  c : blast_vertex := {}
deriving DecidableEq, Repr

/-- The local `struct vertex` of `generateIndices`. -/
structure generateIndices.vertex where
  position : vec3
  normal : vec3
  uv : vec2
deriving DecidableEq, Repr

/-- The `vertex::operator==` of `generateIndices`: all eight numbers agree. -/
def generateIndices.vertex.eq (v other : generateIndices.vertex) : Bool :=
  v.position.x == other.position.x && v.position.y == other.position.y &&
    v.position.z == other.position.z &&
    v.normal.x == other.normal.x && v.normal.y == other.normal.y &&
    v.normal.z == other.normal.z &&
    v.uv.x == other.uv.x && v.uv.y == other.uv.y

/-- The `vertex` that a block of the loop body of `generateIndices` builds from
a corner of the triangle. -/
def generateIndices.vertexOf (corner : blast_vertex) : generateIndices.vertex :=
  { position := { x := corner.p.x, y := corner.p.y, z := corner.p.z },
    normal := { x := corner.n.x, y := corner.n.y, z := corner.n.z },
    uv := { x := corner.uv.x, y := corner.uv.y } }

/-- One of the three blocks of the loop body of `generateIndices`: `std::find`
looks the vertex up in `vertices`; its position is pushed to `indices` if it is
found, otherwise the vertex is appended and the position of the new element is
pushed.  The elements of `indices` are `uint32_t`. -/
def generateIndices.corner (acc : List generateIndices.vertex × List Nat)
    (vertex : generateIndices.vertex) : List generateIndices.vertex × List Nat :=
  match acc.1.findIdx? (fun it => it.eq vertex) with
  | some it => (acc.1, acc.2 ++ [it % 4294967296])
  | none =>
    let vertices := acc.1 ++ [vertex]
    (vertices, acc.2 ++ [(vertices.length - 1) % 4294967296])

/-- The `generateIndices`; the array `triangles` of `nbTriangles` elements is a
list. -/
def generateIndices (triangles : List blast_triangle) : List Nat :=
  (triangles.foldl
    (fun acc triangle =>
      generateIndices.corner
        (generateIndices.corner
          (generateIndices.corner acc (generateIndices.vertexOf triangle.a))
          (generateIndices.vertexOf triangle.b))
        (generateIndices.vertexOf triangle.c))
    ([], [])).2

/-- The out-parameters of `computeIntegralTerm`. -/
structure integral_term where
  f1 : ℚ
  f2 : ℚ
  f3 : ℚ
  g0 : ℚ
  g1 : ℚ
  g2 : ℚ
deriving DecidableEq, Repr

/-- The `computeIntegralTerm` of `px_extensions.h`, over exact rationals in
place of `float`. -/
def computeIntegralTerm (w0 w1 w2 : ℚ) : integral_term :=
  let temp0 := w0 + w1
  let f1 := temp0 + w2
  let temp1 := w0 * w0
  let temp2 := temp1 + w1 * temp0
  let f2 := temp2 + w2 * f1
  let f3 := w0 * temp1 + w1 * temp2 + w2 * f2
  { f1 := f1, f2 := f2, f3 := f3,
    g0 := f2 + w0 * (f1 + w0),
    g1 := f2 + w1 * (f1 + w1),
    g2 := f2 + w2 * (f1 + w2) }

/-- The sum of two `PxU32`: arithmetic modulo `2^32`. -/
def PxU32.add (a b : Nat) : Nat := (a + b) % 4294967296

/-- The difference of two `PxU32`: arithmetic modulo `2^32`. -/
def PxU32.sub (a b : Nat) : Nat := (a + (4294967296 - b % 4294967296)) % 4294967296

/-- The product of two `PxU32`: arithmetic modulo `2^32`. -/
def PxU32.mul (a b : Nat) : Nat := (a * b) % 4294967296

/-- The `PxParticleSpring`. -/
structure PxParticleSpring where
  ind0 : Nat
  ind1 : Nat
  length : ℚ
  stiffness : ℚ
  damping : ℚ
  pad : ℚ
deriving DecidableEq, Repr

/-- The `numSprings` of the `px_cloth_system` constructor. -/
def px_cloth_system.numSprings (numX numZ : Nat) : Nat :=
  PxU32.add
    (PxU32.add (PxU32.mul (PxU32.mul (PxU32.sub numX 1) (PxU32.sub numZ 1)) 4) (PxU32.sub numX 1))
    (PxU32.sub numZ 1)

/-- The `numTriangles` of the `px_cloth_system` constructor. -/
def px_cloth_system.numTriangles (numX numZ : Nat) : Nat :=
  PxU32.mul (PxU32.mul (PxU32.sub numX 1) (PxU32.sub numZ 1)) 2

/-- The body of the grid loop of the `px_cloth_system` constructor at the cell
`(i, j)`, as far as it pushes to `springs` and `triangles`; the writes to the
particle buffers are not modelled.  The helper `id`, which numbers the particle
of a cell and is defined outside `src/`, and the value of `PxSqrt(2.0f)` are
parameters. -/
def px_cloth_system.gridCell (id : Nat → Nat → Nat → Nat) (sqrt2 particleSpacing : ℚ)
    (numZ i : Nat) (acc : List PxParticleSpring × List Nat) (j : Nat) :
    List PxParticleSpring × List Nat :=
  let stretchStiffness : ℚ := 10000
  let shearStiffness : ℚ := 100
  let springDamping : ℚ := 1 / 1000
  let springs1 :=
    if i > 0 then
      acc.1 ++ [{ ind0 := id (PxU32.sub i 1) j numZ, ind1 := id i j numZ,
                  length := particleSpacing, stiffness := stretchStiffness,
                  damping := springDamping, pad := 0 }]
    else acc.1
  let springs2 :=
    if j > 0 then
      springs1 ++ [{ ind0 := id i (PxU32.sub j 1) numZ, ind1 := id i j numZ,
                     length := particleSpacing, stiffness := stretchStiffness,
                     damping := springDamping, pad := 0 }]
    else springs1
  if i > 0 ∧ j > 0 then
    (springs2 ++
      [{ ind0 := id (PxU32.sub i 1) (PxU32.sub j 1) numZ, ind1 := id i j numZ,
         length := sqrt2 * particleSpacing, stiffness := shearStiffness,
         damping := springDamping, pad := 0 },
       { ind0 := id (PxU32.sub i 1) j numZ, ind1 := id i (PxU32.sub j 1) numZ,
         length := sqrt2 * particleSpacing, stiffness := shearStiffness,
         damping := springDamping, pad := 0 }],
     acc.2 ++
      [id (PxU32.sub i 1) (PxU32.sub j 1) numZ, id (PxU32.sub i 1) j numZ,
       id i (PxU32.sub j 1) numZ, id (PxU32.sub i 1) j numZ, id i (PxU32.sub j 1) numZ,
       id i j numZ])
  else (springs2, acc.2)

/-- The inner loop of the grid loop of the `px_cloth_system` constructor: the
cells of row `i`. -/
def px_cloth_system.gridRow (id : Nat → Nat → Nat → Nat) (sqrt2 particleSpacing : ℚ)
    (numZ : Nat) (acc : List PxParticleSpring × List Nat) (i : Nat) :
    List PxParticleSpring × List Nat :=
  (List.range numZ).foldl (px_cloth_system.gridCell id sqrt2 particleSpacing numZ i) acc

/-- The grid loop of the `px_cloth_system` constructor: the arrays `springs` and
`triangles` when the loop ends. -/
def px_cloth_system.grid (id : Nat → Nat → Nat → Nat) (sqrt2 particleSpacing : ℚ)
    (numX numZ : Nat) : List PxParticleSpring × List Nat :=
  (List.range numX).foldl (px_cloth_system.gridRow id sqrt2 particleSpacing numZ) ([], [])

/-- The conditions of the two `PX_ASSERT`s after the grid loop; the
`PxArray::size()` is a `PxU32`. -/
def px_cloth_system.assertions (numX numZ : Nat) (grid : List PxParticleSpring × List Nat) :
    Bool :=
  (px_cloth_system.numSprings numX numZ == grid.1.length % 4294967296) &&
    (px_cloth_system.numTriangles numX numZ == grid.2.length % 4294967296 / 3)

/-! ## Vocabulary of the statements -/

/-- Two nodes agree on everything but adjacency and joint maps. -/
def chunk_node.sameCore (c d : chunk_node) : Prop :=
  d.handle = c.handle ∧ d.frozen = c.frozen ∧ d.isKinematic = c.isKinematic ∧
    d.spliteGeneration = c.spliteGeneration ∧ d.hasBrokenLinks = c.hasBrokenLinks

/-- The scene `t` has the same entities and components as `s` except for the
contents of chunk nodes, which keep their core fields. -/
def escene.sameFrame (s t : escene) : Prop :=
  t = { s with chunk_nodes := t.chunk_nodes } ∧
  ∀ x, (s.chunk_nodes x = none → t.chunk_nodes x = none) ∧
    ∀ c, s.chunk_nodes x = some c → ∃ d, t.chunk_nodes x = some d ∧ c.sameCore d

/-- Adjacency as stored: `b` is in the neighbours set of the node of `a`. -/
def escene.adjacent (s : escene) (a b : entity_handle) : Prop :=
  ∃ c, s.chunk_nodes a = some c ∧ b ∈ c.neighbours

/-- The chunks that the joints recorded for `e` in the manager lead to. -/
def chunk_graph_manager.targets (m : chunk_graph_manager) (s : escene) (e : entity_handle) :
    List entity_handle :=
  match m.joints.lookup e with
  | none => []
  | some js => js.map (fun j => (s.jointHeap j).second)

/-- The state of the scene while `chunk_graph_manager::setup` wires its nodes:
every listed body owns a node that carries its handle, and adjacency among the
listed bodies is symmetric. -/
def escene.wired (s : escene) (bodies : List entity_handle) : Prop :=
  (∀ b ∈ bodies, ∃ c, s.chunk_nodes b = some c ∧ c.handle = b) ∧
  ∀ A ∈ bodies, ∀ B ∈ bodies, (s.adjacent A B ↔ s.adjacent B A)

/-- An edge of the graph over `nodes`: stored adjacency into a listed node. -/
def escene.edge (s : escene) (nodes : List entity_handle) (u v : entity_handle) : Prop :=
  s.adjacent u v ∧ v ∈ nodes

/-- The node `x` is reachable from the listed node `a` along neighbours edges
through nodes of the list. -/
def escene.reach (s : escene) (nodes : List entity_handle) (a x : entity_handle) : Prop :=
  a ∈ nodes ∧ Relation.ReflTransGen (s.edge nodes) a x

/-- What one call of `traverse` from `o` achieves, from visited set `V` to `R`. -/
def escene.traverseOk (s : escene) (S : List entity_handle) (o : entity_handle)
    (V R : List entity_handle) : Prop :=
  (∀ x ∈ V, x ∈ R) ∧ (∀ x ∈ R, x ∈ V ∨ s.reach S o x) ∧
  (∀ x ∈ R, x ∉ V → x ∈ S ∧ ∀ y, s.adjacent x y → y ∈ S → y ∈ R) ∧ (o ∈ S → o ∈ R)

/-- Number of nodes of the search set that are not visited yet. -/
def unvisited (S V : List entity_handle) : Nat :=
  (S.filter (fun x => decide (x ∉ V))).length

/-- The test `searchGraph` applies to decide whether a node is an anchor: the
entity has a rigid body and its chunk node is kinematic. -/
def escene.isAnchor (s : escene) (x : entity_handle) : Bool :=
  (s.rigidbodies x).isSome &&
    match s.chunk_nodes x with
    | some c => c.isKinematic
    | none => false

/-- Invariant of the anchor loop of `searchGraph` over the nodes `N`: `S` is the
search set and `P` holds of the anchors handled so far. -/
def escene.pruned (s : escene) (N : List entity_handle) (P : entity_handle → Prop)
    (S : List entity_handle) : Prop :=
  (∀ x ∈ S, x ∈ N) ∧ (∀ y ∈ N, y ∉ S → ∃ a, P a ∧ s.reach N a y) ∧
  (∀ y ∈ N, y ∉ S → ∀ z, s.adjacent y z → z ∈ N → z ∉ S) ∧ (∀ a, P a → a ∉ S)

/-- The scene `t` is `s` with the fresh entities `hs` added: they are the next
handles in order, carry a rigid body and an `nvmesh_chunk_component` but no
chunk node, and nothing else changed in these tables. -/
def escene.grownBy (s t : escene) (hs : List entity_handle) : Prop :=
  hs = List.range' s.nextEntity hs.length ∧
  t.nextEntity = s.nextEntity + hs.length ∧
  t.entities = s.entities ++ hs ∧
  (∀ x, t.chunk_nodes x = if x ∈ hs then none else s.chunk_nodes x) ∧
  (∀ x, x ∉ hs → t.rigidbodies x = s.rigidbodies x) ∧
  (∀ x ∈ hs, (t.rigidbodies x).isSome) ∧
  (∀ x, x ∉ hs → t.nvmesh_chunks x = s.nvmesh_chunks x) ∧
  (∀ x ∈ hs, (t.nvmesh_chunks x).isSome)

/-- The chunk nodes of the scene are well formed: every entity of the registry
was named by the entity counter, and a chunk node of such an entity carries the
handle of its entity, comes with an `nvmesh_chunk_component`, and has a
generation of at most `maxSpliteGeneration`. -/
def escene.chunksWellFormed (s : escene) : Bool :=
  s.entities.all (fun x =>
    decide (x < s.nextEntity) &&
      match s.chunk_nodes x with
      | none => true
      | some d =>
        (d.handle == x) && (s.nvmesh_chunks x).isSome &&
          decide (d.spliteGeneration ≤ maxSpliteGeneration))

/-- One damage event: the impulse reaches `processDamage` of the chunk node of
the hit entity when that entity is in the scene and has a chunk node. -/
def damageEvent (s : escene) (call : px_physics_engine × entity_handle × vec3) : Option escene :=
  if call.2.1 ∈ s.entities then
    match s.chunk_nodes call.2.1 with
    | none => some s
    | some _ => chunk_node.processDamage call.1 s call.2.1 call.2.2
  else some s

/-- A sequence of damage events; each comes with the collaborators in effect
when it happens, so that the fracture kernel may answer differently each time. -/
def damageSequence (calls : List (px_physics_engine × entity_handle × vec3)) (s : escene) :
    Option escene :=
  calls.foldlM damageEvent s

/-- The joint maps of a node are inverse to each other: `jointToChunk` maps the
joint `j` to the chunk `b` exactly when `chunkToJoint` maps `b` to `j`. -/
def chunk_node.mapsInverse (c : chunk_node) : Prop :=
  ∀ (j : joint_ptr) (b : entity_handle),
    c.jointToChunk.lookup j = some b ↔ c.chunkToJoint.lookup b = some j

/-- The chunks that `jointToChunk` of the node maps from joints whose constraint
reports the broken state. -/
def chunk_node.brokenBodies (s : escene) (c : chunk_node) : List entity_handle :=
  (c.jointToChunk.filter (fun joint => (s.jointHeap joint.1).joint == some true)).map Prod.snd

/-- What cleaning the joints `links` of the node at `e`, which lead to the
chunks `bodies`, leaves of the node `a` at `x`: the node at `e` loses the links,
the bodies as keys of `chunkToJoint` and the bodies as neighbours; a body loses
`e` as key of `chunkToJoint` and as neighbour. -/
def chunk_node.cut (e : entity_handle) (links : List joint_ptr) (bodies : List entity_handle)
    (x : entity_handle) (a : chunk_node) : chunk_node :=
  { a with
    jointToChunk := a.jointToChunk.filter (fun p => !(decide (x = e) && decide (p.1 ∈ links))),
    chunkToJoint := a.chunkToJoint.filter (fun p =>
      !((decide (x = e) && decide (p.1 ∈ bodies)) || (decide (x ∈ bodies) && decide (p.1 = e)))),
    neighbours := a.neighbours.filter (fun y =>
      !((decide (x = e) && decide (y ∈ bodies)) || (decide (x ∈ bodies) && decide (y = e)))) }

/-- The joints recorded in the joint table, those of all chunks together. -/
def chunk_graph_manager.allJoints (m : chunk_graph_manager) : List joint_ptr :=
  m.joints.flatMap Prod.snd

/-- The joints recorded in the joint table, each given by the chunk of its first
actor and the chunk of its second actor. -/
def chunk_graph_manager.jointPairs (m : chunk_graph_manager) (s : escene) :
    List (entity_handle × entity_handle) :=
  m.allJoints.map (fun j => ((s.jointHeap j).first, (s.jointHeap j).second))

/-- The set `overlaps` that `connectTouchingChunks` collects for a chunk with the
given transform and mesh asset: the results of the overlap queries at all
vertices. -/
def fracture.overlapsOf (px : px_physics_engine) (transform : trs) (asset : submesh_asset) :
    List entity_handle :=
  asset.positions.foldl
    (fun acc vertex => (px.overlapSphere transform vertex).foldl set_emplace acc) []

/-- The vector `meshes` of `fractureGameObject`: the input mesh alone when one
chunk is requested, the result of the fracture kernel otherwise. -/
def fracture.meshesOf (px : px_physics_engine) (meshAsset : submesh_asset) (totalChunks : Int) :
    List (submesh_asset × nvmesh) :=
  let indices : List Nat :=
    meshAsset.triangles.foldl (fun acc t => acc ++ [t.1, t.2.1, t.2.2]) []
  let nvMesh : nvmesh :=
    { vertices := meshAsset.positions, normals := meshAsset.normals, uvs := meshAsset.uvs,
      indices := indices }
  if totalChunks = 1 then [(meshAsset, nvMesh)]
  else px.fractureMeshesInNvblast totalChunks nvMesh false

/-- The set of the two chunks of a pair. -/
def chunkPair.members (p : chunkPair) : Finset entity_handle := {p.chunk1, p.chunk2}

/-- The sum of all monomials of degree `d` in `w0`, `w1`, `w2`: one monomial
for each way of writing `d` as a sum of three exponents. -/
def monomialSum (d : Nat) (w0 w1 w2 : ℚ) : ℚ :=
  ∑ i ∈ Finset.range (d + 1), ∑ j ∈ Finset.range (d + 1 - i),
    w0 ^ i * w1 ^ j * w2 ^ (d - i - j)

/-- The scalar product. -/
def vec3.dot (a b : vec3) : ℚ := a.x * b.x + a.y * b.y + a.z * b.z

/-- The vector product. -/
def vec3.cross (a b : vec3) : vec3 :=
  { x := a.y * b.z - a.z * b.y, y := a.z * b.x - a.x * b.z, z := a.x * b.y - a.y * b.x }

/-- The matrix with the rows `p1`, `p2`, `p3`. -/
def vec3.rows (p1 p2 p3 : vec3) : Matrix (Fin 3) (Fin 3) ℚ :=
  !![p1.x, p1.y, p1.z; p2.x, p2.y, p2.z; p3.x, p3.y, p3.z]

/-- The triangle `t2` is the triangle `t1` with two of its corners exchanged. -/
def windingReversed (t1 t2 : Nat × Nat × Nat) : Prop :=
  t2 = (t1.1, t1.2.2, t1.2.1) ∨ t2 = (t1.2.2, t1.2.1, t1.1) ∨ t2 = (t1.2.1, t1.1, t1.2.2)

/-- Component-wise order of vectors. -/
def vec3.le (a b : vec3) : Prop := a.x ≤ b.x ∧ a.y ≤ b.y ∧ a.z ≤ b.z

/-- The min corner of a box, `center - extents`. -/
def bounds.minCorner (b : bounds) : vec3 := b.center.sub b.extents

/-- The max corner of a box, `center + extents`. -/
def bounds.maxCorner (b : bounds) : vec3 := b.center.add b.extents

/-- The point `q` lies in the box, between its corners. -/
def bounds.contains (b : bounds) (q : vec3) : Prop := b.minCorner.le q ∧ q.le b.maxCorner

/-- The vertices of the corners in the order in which `generateIndices` visits
them: corner `a`, `b`, `c` of the first triangle, then of the second, and so on. -/
def generateIndices.corners (triangles : List blast_triangle) : List generateIndices.vertex :=
  triangles.flatMap (fun triangle =>
    [generateIndices.vertexOf triangle.a, generateIndices.vertexOf triangle.b,
      generateIndices.vertexOf triangle.c])

/-- What the loop of `generateIndices` has achieved when the corners `cs` are
done, with `vs` for `vertices` and `is` for `indices`: `vs` lists the vertices
of `cs` without repetition, the index of every corner is the position of its
vertex in `vs`, and the vertex at position `k` of `vs` was entered at its first
occurrence in `cs`, when `vs` held the `k` distinct vertices seen before. -/
def generateIndices.indexed (cs vs : List generateIndices.vertex) (is : List Nat) : Prop :=
  vs.Nodup ∧ (∀ v, v ∈ vs ↔ v ∈ cs) ∧ is.length = cs.length ∧ vs.length ≤ cs.length ∧
  (∀ (i : Nat) v, cs[i]? = some v → ∃ k : Nat, is[i]? = some k ∧ vs[k]? = some v) ∧
  (∀ (k : Nat) v, vs[k]? = some v → ∃ i : Nat, cs[i]? = some v ∧ v ∉ cs.take i ∧
    (∀ w, w ∈ vs.take k ↔ w ∈ cs.take i) ∧ is[i]? = some k)

/-! ## Example scenes -/

/-- Example scene: chunks 0..3 with rigid bodies and no chunk node yet; the joint
at address `j` leads to chunk `j + 1` and is intact. -/
def exampleScene : escene :=
  { entities := [0, 1, 2, 3],
    rigidbodies := fun e => if e < 4 then some {} else none,
    nextEntity := 4,
    nvmesh_chunks := fun e => if e < 4 then some {} else none,
    transforms := fun e => if e < 4 then some {} else none,
    jointHeap := fun j => { second := j + 1, joint := some false } }

/-- Example joint table: chunk `i` created the joint `i` towards chunk `i + 1`. -/
def exampleManager : chunk_graph_manager :=
  { joints := [(0, [0]), (1, [1]), (2, [2])] }

/-- Example graph: `setup` run on the example scene with the example joints. -/
def exampleGraph : chunk_graph_manager × escene :=
  (exampleManager.setup exampleScene [0, 1, 2, 3] 0).getD (exampleManager, exampleScene)

/-- Marks the chunk node of entity `e` as kinematic. -/
def escene.markKinematic (s : escene) (e : entity_handle) : escene :=
  match s.chunk_nodes e with
  | none => s
  | some c => s.setNode e { c with isKinematic := true }

/-- Example graph with chunk 0 as its only anchor. -/
def anchoredScene : escene := exampleGraph.2.markKinematic 0

/-- The physics engine reports the constraint of `joint` as broken. -/
def escene.breakJoint (s : escene) (joint : joint_ptr) : escene :=
  { s with jointHeap :=
      Function.update s.jointHeap joint { s.jointHeap joint with joint := some true } }

/-- The joint-break callback reaches the chunk node of entity `e`. -/
def escene.flagNode (s : escene) (e : entity_handle) : escene :=
  match s.chunk_nodes e with
  | none => s
  | some c => s.setNode e c.onJointBreak

/-- Example chain 0 - 1 - 2 - 3 anchored at chunk 0, after the joint between
chunks 1 and 2 broke and node 1 was flagged. -/
def brokenScene : escene := (anchoredScene.breakJoint 1).flagNode 1

/-- Example mesh: one triangle. -/
def exampleMesh : submesh_asset :=
  { positions := [{ x := 0 }, { x := 1 }, { y := 1 }],
    uvs := [{}, {}, {}],
    normals := [{ z := 1 }, { z := 1 }, { z := 1 }],
    triangles := [(0, 1, 2)] }

/-- Example collaborators: the magnitude is exact on vectors along one axis, the
fracture kernel returns two copies of the example mesh, every sample point
touches the bodies 12 and 13, and the region left of the bounding box overlaps
body 12; these are the two chunks `fractureGameObject` builds in the example
world. -/
def examplePhysics : px_physics_engine :=
  { magnitude := fun v => |v.x| + |v.y| + |v.z|,
    fractureMeshesInNvblast := fun _ mesh _ => [(exampleMesh, mesh), (exampleMesh, mesh)],
    aabb := fun _ => { maxCorner := { x := 1, y := 1 } },
    overlapSphere := fun _ _ => [12, 13],
    overlapBox := fun face _ _ => if face = anchor.Left then [12] else [] }

/-- Example world: a single game object, entity 10, with a transform. -/
def exampleWorld : escene :=
  { entities := [10],
    nextEntity := 11,
    transforms := fun e => if e = 10 then some {} else none }

/-- Example: the example mesh of game object 10 fractured with the `Left` face
anchored and two chunks requested. -/
def fracturedWorld : escene × entity_handle :=
  (fracture.fractureGameObject examplePhysics exampleWorld exampleMesh 10 anchor.Left 0 2 100
    1).getD (exampleWorld, null_entity)

/-- Example: the fractured example world after the joint from chunk 12 to chunk
13 broke and node 12 was flagged. -/
def crackedWorld : escene := (fracturedWorld.1.breakJoint 0).flagNode 12

/-- Example: the example graph after `searchGraph` found no anchor and unfroze
every chunk. -/
def thawedScene : escene :=
  (exampleGraph.1.searchGraph exampleGraph.2 exampleGraph.1.nodes).getD exampleGraph.2

/-- Example: chunks 0 and 1 with fresh chunk nodes and two joints, at the
addresses 0 and 1, that were both created by chunk 0 and both lead to chunk 1. -/
def twinJointScene : escene :=
  { entities := [0, 1],
    nextEntity := 2,
    rigidbodies := fun e => if e < 2 then some {} else none,
    chunk_nodes := fun e => if e < 2 then some (chunk_node.mk2 e 0) else none,
    jointHeap := fun _ => { first := 0, second := 1, joint := some false },
    nbJoints := 2 }

/-- Example joint table: both joints of the twin joint scene recorded for chunk 0. -/
def twinJointManager : chunk_graph_manager :=
  { joints := [(0, [0, 1])] }

/-- Example collaborators for a single chunk: as the example collaborators, but
every sample point touches body 12 only, the one chunk that `fractureGameObject`
builds in the example world when one chunk is requested. -/
def lonePhysics : px_physics_engine :=
  { examplePhysics with overlapSphere := fun _ _ => [12] }

/-- Example mesh that `validateMesh` rejects: the example triangle without
texture coordinates. -/
def bareMesh : submesh_asset :=
  { exampleMesh with uvs := [] }

/-- Example: chunks 0 and 1, each the neighbour of the other, joined by the
joint at address 0 from chunk 0 to chunk 1, which reports the broken state. -/
def linkedPairScene : escene :=
  { entities := [0, 1],
    nextEntity := 2,
    rigidbodies := fun e => if e < 2 then some {} else none,
    chunk_nodes := fun e =>
      if e = 0 then
        some { handle := 0, neighbours := [1], jointToChunk := [(0, 1)], chunkToJoint := [(1, 0)],
               hasBrokenLinks := true }
      else if e = 1 then some { handle := 1, neighbours := [0] }
      else none,
    jointHeap := fun _ => { first := 0, second := 1, joint := some true },
    nbJoints := 1 }

/-- Example: three chunks on a directed ring, each also its own neighbour. -/
def ringScene : escene :=
  { entities := [0, 1, 2],
    nextEntity := 3,
    rigidbodies := fun e => if e < 3 then some {} else none,
    chunk_nodes := fun e =>
      if e < 3 then some { handle := e, neighbours := [e, (e + 1) % 3] } else none }

/-- Example mesh: the four faces of the tetrahedron spanned by the origin and
the three unit points, wound outwards. -/
def tetraMesh : submesh_asset :=
  { positions := [{}, { x := 1 }, { y := 1 }, { z := 1 }],
    triangles := [(0, 2, 1), (0, 1, 3), (0, 3, 2), (1, 2, 3)] }

/-- Example: two triangles of a unit square that share the corners of its
diagonal. -/
def squareTriangles : List blast_triangle :=
  [{ a := {}, b := { p := { x := 1 } }, c := { p := { x := 1, y := 1 } } },
   { a := {}, b := { p := { x := 1, y := 1 } }, c := { p := { y := 1 } } }]

/-! ## Theorems -/

theorem mem_set_emplace (s : List Nat) (x y : Nat) : y ∈ set_emplace s x ↔ y ∈ s ∨ y = x := by
  unfold set_emplace
  split
  · constructor
    · intro h; exact Or.inl h
    · rintro (h | h)
      · exact h
      · subst h; assumption
  · simp

theorem mem_set_erase (s : List Nat) (x y : Nat) : y ∈ set_erase s x ↔ y ∈ s ∧ y ≠ x := by
  simp [set_erase]

theorem chunk_node.sameCore_refl (c : chunk_node) : c.sameCore c := by
  simp [chunk_node.sameCore]

theorem chunk_node.sameCore_trans {a b c : chunk_node} (h1 : a.sameCore b) (h2 : b.sameCore c) :
    a.sameCore c := by
  obtain ⟨a1, a2, a3, a4, a5⟩ := h1
  obtain ⟨b1, b2, b3, b4, b5⟩ := h2
  exact ⟨b1.trans a1, b2.trans a2, b3.trans a3, b4.trans a4, b5.trans a5⟩

theorem escene.sameFrame_refl (s : escene) : s.sameFrame s := by
  refine ⟨rfl, fun x => ⟨fun h => h, fun c h => ⟨c, h, c.sameCore_refl⟩⟩⟩

theorem escene.sameFrame_trans {s t u : escene} (h1 : s.sameFrame t) (h2 : t.sameFrame u) :
    s.sameFrame u := by
  obtain ⟨e1, f1⟩ := h1
  obtain ⟨e2, f2⟩ := h2
  refine ⟨?_, fun x => ⟨fun h => (f2 x).1 ((f1 x).1 h), fun c h => ?_⟩⟩
  · rw [e2, e1]
  · obtain ⟨d, hd, hcd⟩ := (f1 x).2 c h
    obtain ⟨d2, hd2, hcd2⟩ := (f2 x).2 d hd
    exact ⟨d2, hd2, chunk_node.sameCore_trans hcd hcd2⟩

theorem escene.sameFrame_setNode (s : escene) (e : entity_handle) (c d : chunk_node)
    (h : s.chunk_nodes e = some c) (hcd : c.sameCore d) : s.sameFrame (s.setNode e d) := by
  refine ⟨rfl, fun x => ⟨fun hx => ?_, fun c2 hx => ?_⟩⟩
  · have : x ≠ e := by rintro rfl; rw [h] at hx; cases hx
    simp [escene.setNode, Function.update_apply, this, hx]
  · by_cases hxe : x = e
    · subst hxe
      rw [h] at hx; cases hx
      exact ⟨d, by simp [escene.setNode], hcd⟩
    · exact ⟨c2, by simp [escene.setNode, Function.update_apply, hxe, hx], c2.sameCore_refl⟩

theorem escene.setNode_nodes (s : escene) (e x : entity_handle) (c : chunk_node) :
    (s.setNode e c).chunk_nodes x = if x = e then some c else s.chunk_nodes x := by
  simp [escene.setNode, Function.update_apply]

theorem chunk_node.linkNeighbour_some (e : entity_handle) (s : escene) (p : entity_handle × joint_ptr)
    (he : (s.chunk_nodes e).isSome) (hp : (s.chunk_nodes p.1).isSome) :
    (chunk_node.linkNeighbour e s p).isSome := by
  obtain ⟨c, hc⟩ := Option.isSome_iff_exists.mp he
  obtain ⟨d, hd⟩ := Option.isSome_iff_exists.mp hp
  unfold chunk_node.linkNeighbour
  simp only [hc, escene.setNode_nodes]
  by_cases hpe : p.1 = e
  · simp only [hpe, if_true]
    split <;> simp
  · simp only [hpe, if_false, hd]
    split <;> simp

theorem chunk_node.linkNeighbour_spec (e : entity_handle) (s t : escene)
    (p : entity_handle × joint_ptr) (c : chunk_node) (hc : s.chunk_nodes e = some c)
    (hh : c.handle = e) (h : chunk_node.linkNeighbour e s p = some t) :
    s.sameFrame t ∧
    (∀ x a b, s.chunk_nodes x = some a → t.chunk_nodes x = some b →
      b.jointToChunk = a.jointToChunk ∧ b.chunkToJoint = a.chunkToJoint) ∧
    ∀ x y, t.adjacent x y ↔ s.adjacent x y ∨ (x = e ∧ y = p.1) ∨ (x = p.1 ∧ y = e) := by
  subst hh
  unfold chunk_node.linkNeighbour at h
  simp only [hc, escene.setNode_nodes] at h
  by_cases hpe : p.1 = c.handle
  · simp only [hpe, if_true, chunk_node.contains, mem_set_emplace, or_true, decide_True] at h
    rw [if_neg (by decide), Option.some.injEq] at h
    subst h
    refine ⟨escene.sameFrame_setNode s c.handle c _ hc (by simp [chunk_node.sameCore]), ?_, ?_⟩
    · intro x a b ha hb
      rw [escene.setNode_nodes] at hb
      split at hb
      · subst x; rw [hc] at ha; cases ha; cases hb; simp
      · rw [ha] at hb; cases hb; simp
    · intro x y
      simp only [escene.adjacent, escene.setNode_nodes, hpe]
      by_cases hx : x = c.handle
      · subst hx
        simp [hc, mem_set_emplace]
      · simp [hx]
  · have hep : c.handle ≠ p.1 := fun h => hpe h.symm
    simp only [hpe, if_false] at h
    cases hd : s.chunk_nodes p.1 with
    | none => simp [hd] at h
    | some d =>
      simp only [hd, chunk_node.contains] at h
      by_cases hmem : c.handle ∈ d.neighbours
      · simp only [hmem, decide_True] at h
        rw [if_neg (by decide), Option.some.injEq] at h
        subst h
        refine ⟨escene.sameFrame_setNode s c.handle c _ hc (by simp [chunk_node.sameCore]), ?_, ?_⟩
        · intro x a b ha hb
          rw [escene.setNode_nodes] at hb
          split at hb
          · subst x; rw [hc] at ha; cases ha; cases hb; simp
          · rw [ha] at hb; cases hb; simp
        · intro x y
          simp only [escene.adjacent, escene.setNode_nodes]
          by_cases hx : x = c.handle
          · subst hx
            simp [hc, mem_set_emplace, hep]
          · by_cases hxp : x = p.1
            · subst hxp
              simp only [hx, if_false, hd, Option.some.injEq, exists_eq_left', false_and, true_and,
                false_or]
              constructor
              · intro h; exact Or.inl h
              · rintro (h | h)
                · exact h
                · subst h; exact hmem
            · simp [hx, hxp]
      · simp only [hmem, decide_False] at h
        rw [if_pos (by decide), Option.some.injEq] at h
        subst h
        have hf1 := escene.sameFrame_setNode s c.handle c
          { c with neighbours := set_emplace c.neighbours p.1 } hc (by simp [chunk_node.sameCore])
        have hf2 := escene.sameFrame_setNode
          (s.setNode c.handle { c with neighbours := set_emplace c.neighbours p.1 }) p.1 d
          { d with neighbours := set_emplace d.neighbours c.handle }
          (by simp [escene.setNode_nodes, hpe, hd]) (by simp [chunk_node.sameCore])
        refine ⟨escene.sameFrame_trans hf1 hf2, ?_, ?_⟩
        · intro x a b ha hb
          rw [escene.setNode_nodes, escene.setNode_nodes] at hb
          split at hb
          · subst x; rw [hd] at ha; cases ha; cases hb; simp
          · split at hb
            · subst x; rw [hc] at ha; cases ha; cases hb; simp
            · rw [ha] at hb; cases hb; simp
        · intro x y
          simp only [escene.adjacent, escene.setNode_nodes]
          by_cases hx : x = c.handle
          · subst hx
            simp [hc, mem_set_emplace, hep]
          · by_cases hxp : x = p.1
            · subst hxp
              simp [hx, hd, mem_set_emplace]
            · simp [hx, hxp]

theorem escene.sameFrame_isSome {s t : escene} (h : s.sameFrame t) (x : entity_handle) :
    (t.chunk_nodes x).isSome = (s.chunk_nodes x).isSome := by
  cases hx : s.chunk_nodes x with
  | none => simp [(h.2 x).1 hx]
  | some c =>
    obtain ⟨d, hd, -⟩ := (h.2 x).2 c hx
    simp [hd]

theorem escene.sameFrame_rigidbodies {s t : escene} (h : s.sameFrame t) :
    t.rigidbodies = s.rigidbodies := by
  rw [h.1]

theorem escene.sameFrame_jointHeap {s t : escene} (h : s.sameFrame t) :
    t.jointHeap = s.jointHeap := by
  rw [h.1]

theorem escene.sameFrame_queue {s t : escene} (h : s.sameFrame t) :
    t.unfreezeBlastQueue = s.unfreezeBlastQueue := by
  rw [h.1]

theorem chunk_node.linkNeighbours_spec (e : entity_handle) (l : List (entity_handle × joint_ptr)) :
    ∀ (s t : escene) (c : chunk_node), s.chunk_nodes e = some c → c.handle = e →
      l.foldlM (chunk_node.linkNeighbour e) s = some t →
      s.sameFrame t ∧
      (∀ x a b, s.chunk_nodes x = some a → t.chunk_nodes x = some b →
        b.jointToChunk = a.jointToChunk ∧ b.chunkToJoint = a.chunkToJoint) ∧
      ∀ x y, t.adjacent x y ↔
        s.adjacent x y ∨ (x = e ∧ y ∈ l.map Prod.fst) ∨ (x ∈ l.map Prod.fst ∧ y = e) := by
  induction l with
  | nil =>
    intro s t c _ _ h
    simp only [List.foldlM_nil, Option.pure_def, Option.some.injEq] at h
    subst h
    refine ⟨s.sameFrame_refl, ?_, ?_⟩
    · intro x a b ha hb
      rw [ha] at hb; cases hb; simp
    · simp
  | cons p l ih =>
    intro s t c hc hh h
    simp only [List.foldlM_cons, Option.bind_eq_bind, Option.bind_eq_some] at h
    obtain ⟨u, hu, ht⟩ := h
    obtain ⟨f1, m1, a1⟩ := chunk_node.linkNeighbour_spec e s u p c hc hh hu
    obtain ⟨d, hd, hcd⟩ := (f1.2 e).2 c hc
    obtain ⟨f2, m2, a2⟩ := ih u t d hd (hcd.1.trans hh) ht
    refine ⟨escene.sameFrame_trans f1 f2, ?_, ?_⟩
    · intro x a b ha hb
      obtain ⟨d2, hd2, -⟩ := (f1.2 x).2 a ha
      obtain ⟨q1, q2⟩ := m1 x a d2 ha hd2
      obtain ⟨r1, r2⟩ := m2 x d2 b hd2 hb
      exact ⟨r1.trans q1, r2.trans q2⟩
    · intro x y
      rw [a2, a1]
      simp only [List.map_cons, List.mem_cons]
      constructor
      · rintro ((h | h | h) | h | h)
        · exact Or.inl h
        · exact Or.inr (Or.inl ⟨h.1, Or.inl h.2⟩)
        · exact Or.inr (Or.inr ⟨Or.inl h.1, h.2⟩)
        · exact Or.inr (Or.inl ⟨h.1, Or.inr h.2⟩)
        · exact Or.inr (Or.inr ⟨Or.inr h.1, h.2⟩)
      · rintro (h | ⟨h1, h2 | h2⟩ | ⟨h1 | h1, h2⟩)
        · exact Or.inl (Or.inl h)
        · exact Or.inl (Or.inr (Or.inl ⟨h1, h2⟩))
        · exact Or.inr (Or.inl ⟨h1, h2⟩)
        · exact Or.inl (Or.inr (Or.inr ⟨h1, h2⟩))
        · exact Or.inr (Or.inr ⟨h1, h2⟩)

theorem chunk_node.linkNeighbours_some (e : entity_handle) (l : List (entity_handle × joint_ptr)) :
    ∀ (s : escene) (c : chunk_node), s.chunk_nodes e = some c → c.handle = e →
      (∀ p ∈ l, (s.chunk_nodes p.1).isSome) →
      (l.foldlM (chunk_node.linkNeighbour e) s).isSome := by
  induction l with
  | nil => intro s c _ _ _; simp
  | cons p l ih =>
    intro s c hc hh hl
    have h1 := chunk_node.linkNeighbour_some e s p (by simp [hc]) (hl p (List.mem_cons_self _ _))
    obtain ⟨u, hu⟩ := Option.isSome_iff_exists.mp h1
    obtain ⟨f1, -, -⟩ := chunk_node.linkNeighbour_spec e s u p c hc hh hu
    obtain ⟨d, hd, hcd⟩ := (f1.2 e).2 c hc
    simp only [List.foldlM_cons, Option.bind_eq_bind, hu, Option.some_bind]
    apply ih u d hd (hcd.1.trans hh)
    intro q hq
    rw [escene.sameFrame_isSome f1]
    exact hl q (List.mem_cons_of_mem _ hq)

theorem map_contains_iff {β : Type} (m : List (Nat × β)) (k : Nat) :
    map_contains m k = true ↔ k ∈ m.map Prod.fst := by
  unfold map_contains
  induction m with
  | nil => simp [List.lookup]
  | cons p m ih =>
    obtain ⟨a, b⟩ := p
    simp only [List.lookup, List.map_cons, List.mem_cons]
    by_cases hka : k = a
    · subst hka; simp
    · have : (k == a) = false := by simpa using hka
      simp only [this, hka, false_or]
      exact ih

theorem mem_keys_map_emplace {β : Type} (m : List (Nat × β)) (k : Nat) (v : β) (x : Nat) :
    x ∈ (map_emplace m k v).map Prod.fst ↔ x ∈ m.map Prod.fst ∨ x = k := by
  unfold map_emplace
  split
  · rename_i h
    rw [map_contains_iff] at h
    constructor
    · intro hx; exact Or.inl hx
    · rintro (hx | hx)
      · exact hx
      · subst hx; exact h
  · simp

theorem chunk_node.addJoint_core (s : escene) (c : chunk_node) (j : joint_ptr) :
    c.sameCore (chunk_node.addJoint s c j) ∧
      (chunk_node.addJoint s c j).neighbours = c.neighbours := by
  simp [chunk_node.addJoint, chunk_node.sameCore]

theorem chunk_node.addJoints_core (s : escene) (js : List joint_ptr) :
    ∀ c : chunk_node, c.sameCore (js.foldl (chunk_node.addJoint s) c) ∧
      (js.foldl (chunk_node.addJoint s) c).neighbours = c.neighbours := by
  induction js with
  | nil => intro c; exact ⟨c.sameCore_refl, rfl⟩
  | cons j js ih =>
    intro c
    obtain ⟨h1, h2⟩ := ih (chunk_node.addJoint s c j)
    obtain ⟨h3, h4⟩ := chunk_node.addJoint_core s c j
    exact ⟨chunk_node.sameCore_trans h3 h1, h2.trans h4⟩

theorem chunk_node.addJoints_keys (s : escene) (js : List joint_ptr) :
    ∀ (c : chunk_node) (x : entity_handle),
      x ∈ (js.foldl (chunk_node.addJoint s) c).chunkToJoint.map Prod.fst ↔
        x ∈ c.chunkToJoint.map Prod.fst ∨ ∃ j ∈ js, (s.jointHeap j).second = x := by
  induction js with
  | nil => intro c x; simp
  | cons j js ih =>
    intro c x
    rw [List.foldl_cons, ih]
    simp only [chunk_node.addJoint, mem_keys_map_emplace, List.mem_cons, exists_eq_or_imp]
    constructor
    · rintro ((h | h) | h)
      · exact Or.inl h
      · exact Or.inr (Or.inl h.symm)
      · exact Or.inr (Or.inr h)
    · rintro (h | h | h)
      · exact Or.inl (Or.inl h)
      · exact Or.inl (Or.inr h.symm)
      · exact Or.inr h

theorem chunk_node.setup_spec (m : chunk_graph_manager) (s t : escene) (e : entity_handle)
    (c : chunk_node) (hc : s.chunk_nodes e = some c) (hh : c.handle = e)
    (h : chunk_node.setup m s e = some t) :
    s.sameFrame t ∧
    (∀ x a b, x ≠ e → s.chunk_nodes x = some a → t.chunk_nodes x = some b →
      b.jointToChunk = a.jointToChunk ∧ b.chunkToJoint = a.chunkToJoint) ∧
    ∀ x y, t.adjacent x y ↔
      s.adjacent x y ∨ (x = e ∧ y ∈ m.targets s e) ∨ (x ∈ m.targets s e ∧ y = e) := by
  subst hh
  unfold chunk_node.setup chunk_node.freeze at h
  simp only [hc] at h
  cases hrb : s.rigidbodies c.handle with
  | none => simp [hrb] at h
  | some rb =>
    simp only [hrb, hc] at h
    cases hj : m.joints.lookup c.handle with
    | none =>
      simp only [hj, Option.some.injEq] at h
      subst h
      refine ⟨escene.sameFrame_setNode s c.handle c _ hc (by simp [chunk_node.sameCore]), ?_, ?_⟩
      · intro x a b hx ha hb
        rw [escene.setNode_nodes, if_neg hx, ha] at hb
        cases hb; simp
      · intro x y
        simp only [chunk_graph_manager.targets, hj, List.not_mem_nil, and_false, false_and,
          or_false, escene.adjacent, escene.setNode_nodes]
        by_cases hx : x = c.handle
        · subst hx; simp [hc]
        · simp [hx]
    | some js =>
      simp only [hj] at h
      obtain ⟨k1, k2⟩ := chunk_node.addJoints_core s js
        { c with jointToChunk := [], chunkToJoint := [] }
      have hk := chunk_node.addJoints_keys s js { c with jointToChunk := [], chunkToJoint := [] }
      generalize js.foldl (chunk_node.addJoint s) { c with jointToChunk := [], chunkToJoint := [] }
        = c2 at h k1 k2 hk
      have hcore : c.sameCore c2 := ⟨k1.1, k1.2.1, k1.2.2.1, k1.2.2.2.1, k1.2.2.2.2⟩
      have f0 := escene.sameFrame_setNode s c.handle c c2 hc hcore
      obtain ⟨f1, m1, a1⟩ := chunk_node.linkNeighbours_spec c.handle c2.chunkToJoint (s.setNode c.handle c2) t c2
        (by simp [escene.setNode_nodes]) k1.1 h
      refine ⟨escene.sameFrame_trans f0 f1, ?_, ?_⟩
      · intro x a b hx ha hb
        exact m1 x a b (by rw [escene.setNode_nodes, if_neg hx, ha]) hb
      · intro x y
        rw [a1]
        have hT : ∀ z, z ∈ c2.chunkToJoint.map Prod.fst ↔ z ∈ m.targets s c.handle := by
          intro z
          rw [hk]
          simp [chunk_graph_manager.targets, hj]
        simp only [hT]
        have h0 : (s.setNode c.handle c2).adjacent x y ↔ s.adjacent x y := by
          simp only [escene.adjacent, escene.setNode_nodes]
          by_cases hx : x = c.handle
          · subst hx; simp [hc, k2]
          · simp [hx]
        rw [h0]

theorem chunk_node.setup_some (m : chunk_graph_manager) (s : escene) (e : entity_handle)
    (c : chunk_node) (hc : s.chunk_nodes e = some c) (hh : c.handle = e)
    (hrb : (s.rigidbodies e).isSome) (ht : ∀ y ∈ m.targets s e, (s.chunk_nodes y).isSome) :
    (chunk_node.setup m s e).isSome := by
  subst hh
  obtain ⟨rb, hrb⟩ := Option.isSome_iff_exists.mp hrb
  unfold chunk_node.setup chunk_node.freeze
  simp only [hc, hrb]
  cases hj : m.joints.lookup c.handle with
  | none => simp
  | some js =>
    simp only
    obtain ⟨k1, -⟩ := chunk_node.addJoints_core s js
      { c with jointToChunk := [], chunkToJoint := [] }
    have hk := chunk_node.addJoints_keys s js { c with jointToChunk := [], chunkToJoint := [] }
    generalize js.foldl (chunk_node.addJoint s) { c with jointToChunk := [], chunkToJoint := [] }
      = c2 at k1 hk
    apply chunk_node.linkNeighbours_some c.handle c2.chunkToJoint (s.setNode c.handle c2) c2
      (by simp [escene.setNode_nodes]) k1.1
    intro p hp
    have hp1 : p.1 ∈ m.targets s c.handle := by
      have := (hk p.1).mp (List.mem_map_of_mem Prod.fst hp)
      simpa [chunk_graph_manager.targets, hj] using this
    rw [escene.setNode_nodes]
    split
    · simp
    · exact ht p.1 hp1

theorem chunk_graph_manager.attach_fold (generation : Nat) (bodies : List entity_handle) :
    ∀ s : escene,
      (bodies.foldl (chunk_graph_manager.attach generation) s) =
          { s with chunk_nodes := (bodies.foldl (chunk_graph_manager.attach generation) s).chunk_nodes } ∧
      ∀ x, (bodies.foldl (chunk_graph_manager.attach generation) s).chunk_nodes x =
        match s.chunk_nodes x with
        | some c => some c
        | none => if x ∈ bodies then some (chunk_node.mk2 x generation) else none := by
  induction bodies with
  | nil =>
    intro s
    refine ⟨rfl, fun x => ?_⟩
    simp only [List.foldl_nil]
    cases s.chunk_nodes x <;> simp
  | cons b bodies ih =>
    intro s
    rw [List.foldl_cons]
    obtain ⟨h1, h2⟩ := ih (chunk_graph_manager.attach generation s b)
    constructor
    · rw [h1]
      unfold chunk_graph_manager.attach
      cases s.chunk_nodes b <;> rfl
    · intro x
      rw [h2]
      unfold chunk_graph_manager.attach
      cases hb : s.chunk_nodes b with
      | none =>
        simp only [escene.setNode_nodes]
        by_cases hx : x = b
        · subst hx; simp [hb]
        · simp only [hx, if_false, List.mem_cons, false_or]
      | some c =>
        simp only
        cases hx : s.chunk_nodes x with
        | none =>
          have : x ≠ b := by rintro rfl; rw [hb] at hx; cases hx
          simp [this]
        | some d => rfl

theorem chunk_graph_manager.wire_spec (bodies : List entity_handle)
    (ms r : chunk_graph_manager × escene) (b : entity_handle) (hb : b ∈ bodies)
    (hw : ms.2.wired bodies) (h : chunk_graph_manager.wire ms b = some r) :
    r.2.wired bodies ∧ ms.2.sameFrame r.2 ∧ r.1.joints = ms.1.joints ∧
      r.1.nbNodes = ms.1.nbNodes ∧ r.1.nodes = ms.1.nodes ++ [b] := by
  unfold chunk_graph_manager.wire at h
  cases hs : chunk_node.setup ms.1 ms.2 b with
  | none => simp [hs] at h
  | some t =>
    simp only [hs, Option.some.injEq] at h
    subst h
    obtain ⟨c, hc, hh⟩ := hw.1 b hb
    obtain ⟨f, -, a⟩ := chunk_node.setup_spec ms.1 ms.2 t b c hc hh hs
    refine ⟨⟨?_, ?_⟩, f, rfl, rfl, rfl⟩
    · intro x hx
      obtain ⟨d, hd, hdh⟩ := hw.1 x hx
      obtain ⟨d2, hd2, hcore⟩ := (f.2 x).2 d hd
      exact ⟨d2, hd2, hcore.1.trans hdh⟩
    · intro A hA B hB
      simp only [a]
      rw [hw.2 A hA B hB]
      constructor
      · rintro (h | h | h)
        · exact Or.inl h
        · exact Or.inr (Or.inr ⟨h.2, h.1⟩)
        · exact Or.inr (Or.inl ⟨h.2, h.1⟩)
      · rintro (h | h | h)
        · exact Or.inl h
        · exact Or.inr (Or.inr ⟨h.2, h.1⟩)
        · exact Or.inr (Or.inl ⟨h.2, h.1⟩)

theorem chunk_graph_manager.wire_fold_spec (bodies : List entity_handle) (l : List entity_handle) :
    ∀ (ms r : chunk_graph_manager × escene), (∀ b ∈ l, b ∈ bodies) → ms.2.wired bodies →
      l.foldlM chunk_graph_manager.wire ms = some r →
      r.2.wired bodies ∧ ms.2.sameFrame r.2 ∧ r.1.joints = ms.1.joints ∧
        r.1.nbNodes = ms.1.nbNodes ∧ r.1.nodes = ms.1.nodes ++ l := by
  induction l with
  | nil =>
    intro ms r _ hw h
    simp only [List.foldlM_nil, Option.pure_def, Option.some.injEq] at h
    subst h
    exact ⟨hw, ms.2.sameFrame_refl, rfl, rfl, by simp⟩
  | cons b l ih =>
    intro ms r hl hw h
    simp only [List.foldlM_cons, Option.bind_eq_bind, Option.bind_eq_some] at h
    obtain ⟨u, hu, hr⟩ := h
    obtain ⟨w1, f1, j1, n1, l1⟩ :=
      chunk_graph_manager.wire_spec bodies ms u b (hl b (List.mem_cons_self _ _)) hw hu
    obtain ⟨w2, f2, j2, n2, l2⟩ := ih u r (fun x hx => hl x (List.mem_cons_of_mem _ hx)) w1 hr
    refine ⟨w2, escene.sameFrame_trans f1 f2, j2.trans j1, n2.trans n1, ?_⟩
    rw [l2, l1, List.append_assoc]
    rfl

theorem chunk_graph_manager.wire_fold_some (bodies : List entity_handle) (l : List entity_handle) :
    ∀ (ms : chunk_graph_manager × escene), (∀ b ∈ l, b ∈ bodies) → ms.2.wired bodies →
      (∀ b ∈ bodies, (ms.2.rigidbodies b).isSome) →
      (∀ b ∈ bodies, ∀ y ∈ ms.1.targets ms.2 b, (ms.2.chunk_nodes y).isSome) →
      (l.foldlM chunk_graph_manager.wire ms).isSome := by
  induction l with
  | nil => intro ms _ _ _ _; simp
  | cons b l ih =>
    intro ms hl hw hrb ht
    have hb := hl b (List.mem_cons_self _ _)
    obtain ⟨c, hc, hh⟩ := hw.1 b hb
    have h1 := chunk_node.setup_some ms.1 ms.2 b c hc hh (hrb b hb) (ht b hb)
    obtain ⟨t, ht1⟩ := Option.isSome_iff_exists.mp h1
    have hu : chunk_graph_manager.wire ms b = some ({ ms.1 with nodes := ms.1.nodes ++ [b] }, t) := by
      simp [chunk_graph_manager.wire, ht1]
    obtain ⟨w1, f1, j1, -, -⟩ := chunk_graph_manager.wire_spec bodies ms _ b hb hw hu
    simp only [List.foldlM_cons, Option.bind_eq_bind, hu, Option.some_bind]
    apply ih _ (fun x hx => hl x (List.mem_cons_of_mem _ hx)) w1
    · intro x hx
      rw [escene.sameFrame_rigidbodies f1]
      exact hrb x hx
    · intro x hx y hy
      rw [escene.sameFrame_isSome f1]
      apply ht x hx y
      have hjh : t.jointHeap = ms.2.jointHeap := escene.sameFrame_jointHeap f1
      simpa [chunk_graph_manager.targets, hjh] using hy

theorem chunk_graph_manager.attach_wired (generation : Nat) (bodies : List entity_handle)
    (s : escene) (hfresh : ∀ b ∈ bodies, s.chunk_nodes b = none) :
    (bodies.foldl (chunk_graph_manager.attach generation) s).wired bodies := by
  obtain ⟨-, h2⟩ := chunk_graph_manager.attach_fold generation bodies s
  have key : ∀ b ∈ bodies, (bodies.foldl (chunk_graph_manager.attach generation) s).chunk_nodes b =
      some (chunk_node.mk2 b generation) := by
    intro b hb
    rw [h2, hfresh b hb]
    simp [hb]
  refine ⟨fun b hb => ⟨_, key b hb, rfl⟩, fun A hA B hB => ?_⟩
  simp [escene.adjacent, key A hA, key B hB, chunk_node.mk2]

/-- C1. Symmetry after setup: when no listed chunk has a chunk node yet and the
joints recorded for the listed chunks lead to listed chunks only, then after
`chunk_graph_manager::setup(bodies)` every listed chunk has a node, and for all
listed chunks `A` and `B`, `B` is in the neighbours of `A` exactly when `A` is in
the neighbours of `B`.  The call returns whenever every listed chunk has a
rigid body (which `freeze` dereferences). -/
theorem setup_adjacency_symmetric (m : chunk_graph_manager) (s : escene)
    (bodies : List entity_handle) (generation : Nat)
    (hfresh : ∀ b ∈ bodies, s.chunk_nodes b = none)
    (htgt : ∀ b ∈ bodies, ∀ js, m.joints.lookup b = some js →
      ∀ j ∈ js, (s.jointHeap j).second ∈ bodies) :
    (∀ r, m.setup s bodies generation = some r →
      ∀ A ∈ bodies, ∀ B ∈ bodies, ∃ cA cB, r.2.chunk_nodes A = some cA ∧
        r.2.chunk_nodes B = some cB ∧ (B ∈ cA.neighbours ↔ A ∈ cB.neighbours)) ∧
    ((∀ b ∈ bodies, (s.rigidbodies b).isSome) → (m.setup s bodies generation).isSome) := by
  have hw := chunk_graph_manager.attach_wired generation bodies s hfresh
  obtain ⟨e1, n1⟩ := chunk_graph_manager.attach_fold generation bodies s
  constructor
  · intro r hr A hA B hB
    unfold chunk_graph_manager.setup at hr
    obtain ⟨w, -, -, -, -⟩ := chunk_graph_manager.wire_fold_spec bodies bodies _ r
      (fun b hb => hb) hw hr
    obtain ⟨cA, hcA, -⟩ := w.1 A hA
    obtain ⟨cB, hcB, -⟩ := w.1 B hB
    refine ⟨cA, cB, hcA, hcB, ?_⟩
    have := w.2 A hA B hB
    simpa [escene.adjacent, hcA, hcB] using this
  · intro hrb
    unfold chunk_graph_manager.setup
    apply chunk_graph_manager.wire_fold_some bodies bodies _ (fun b hb => hb) hw
    · intro b hb
      show ((bodies.foldl (chunk_graph_manager.attach generation) s).rigidbodies b).isSome
      rw [e1]
      exact hrb b hb
    · intro b hb y hy
      have hjh : (bodies.foldl (chunk_graph_manager.attach generation) s).jointHeap = s.jointHeap := by
        rw [e1]
      have hy2 : y ∈ bodies := by
        simp only [chunk_graph_manager.targets, hjh] at hy
        cases hj : m.joints.lookup b with
        | none => simp [hj] at hy
        | some js =>
          simp only [hj, List.mem_map] at hy
          obtain ⟨j, hj1, hj2⟩ := hy
          rw [← hj2]
          exact htgt b hb js hj j hj1
      obtain ⟨c, hc, -⟩ := hw.1 y hy2
      show ((bodies.foldl (chunk_graph_manager.attach generation) s).chunk_nodes y).isSome
      simp [hc]

/-- Instance of C1 at the example scene: four fresh chunks joined in a row. -/
theorem setup_adjacency_symmetric_witness :
    (∀ r, exampleManager.setup exampleScene [0, 1, 2, 3] 0 = some r →
      ∀ A ∈ [0, 1, 2, 3], ∀ B ∈ [0, 1, 2, 3], ∃ cA cB, r.2.chunk_nodes A = some cA ∧
        r.2.chunk_nodes B = some cB ∧ (B ∈ cA.neighbours ↔ A ∈ cB.neighbours)) ∧
    ((∀ b ∈ [0, 1, 2, 3], (exampleScene.rigidbodies b).isSome) →
      (exampleManager.setup exampleScene [0, 1, 2, 3] 0).isSome) :=
  setup_adjacency_symmetric exampleManager exampleScene [0, 1, 2, 3] 0 (by decide)
    (by
      intro b hb js hjs j hj
      simp only [List.mem_cons, List.mem_singleton, List.not_mem_nil, or_false] at hb
      rcases hb with rfl | rfl | rfl | rfl <;>
        simp [exampleManager, List.lookup] at hjs <;> subst hjs <;>
        simp at hj <;> subst hj <;> simp [exampleScene])

/-- C5. Idempotent unfreeze: on a chunk node, a second `unfreeze()` right after
the first returns the state the first produced (queue and node alike), and the
queue then holds the handle of the chunk exactly once. -/
theorem unfreeze_idempotent (s : escene) (e : entity_handle) (c : chunk_node)
    (hc : s.chunk_nodes e = some c) :
    ∃ s1, chunk_node.unfreeze s e = some s1 ∧ chunk_node.unfreeze s1 e = some s1 ∧
      Multiset.count c.handle s1.unfreezeBlastQueue.val = 1 := by
  unfold chunk_node.unfreeze
  simp only [hc]
  by_cases hq : c.handle ∈ s.unfreezeBlastQueue
  · refine ⟨s, by simp [hq], by simp [hc, hq], ?_⟩
    exact Multiset.count_eq_one_of_mem s.unfreezeBlastQueue.nodup hq
  · refine ⟨_, if_neg hq, ?_, ?_⟩
    · simp
    · exact Multiset.count_eq_one_of_mem (Finset.nodup _) (Finset.mem_insert_self _ _)

/-- Instance of C5 at a fresh chunk node of entity 2 in the example scene. -/
theorem unfreeze_idempotent_witness :
    ∃ s1, chunk_node.unfreeze (exampleScene.setNode 2 (chunk_node.mk2 2 0)) 2 = some s1 ∧
      chunk_node.unfreeze s1 2 = some s1 ∧
      Multiset.count (chunk_node.mk2 2 0).handle s1.unfreezeBlastQueue.val = 1 :=
  unfreeze_idempotent (exampleScene.setNode 2 (chunk_node.mk2 2 0)) 2 (chunk_node.mk2 2 0)
    (by simp [escene.setNode_nodes])

theorem escene.traverse_fold (s : escene) (S : List entity_handle)
    (f : List entity_handle → entity_handle → Option (List entity_handle))
    (hf : ∀ V n V1, f V n = some V1 → (n ∉ S ∧ V1 = V) ∨ s.traverseOk S n V V1) :
    ∀ (l V R : List entity_handle), l.foldlM f V = some R →
      (∀ x ∈ V, x ∈ R) ∧ (∀ x ∈ R, x ∈ V ∨ ∃ n ∈ l, s.reach S n x) ∧
      (∀ x ∈ R, x ∉ V → x ∈ S ∧ ∀ y, s.adjacent x y → y ∈ S → y ∈ R) ∧
      (∀ n ∈ l, n ∈ S → n ∈ R) := by
  intro l
  induction l with
  | nil =>
    intro V R h
    simp only [List.foldlM_nil, Option.pure_def, Option.some.injEq] at h
    subst h
    refine ⟨fun x hx => hx, fun x hx => Or.inl hx, fun x hx hn => absurd hx hn, ?_⟩
    intro n hn
    cases hn
  | cons n l ih =>
    intro V R h
    simp only [List.foldlM_cons, Option.bind_eq_bind, Option.bind_eq_some] at h
    obtain ⟨V1, h1, h2⟩ := h
    obtain ⟨i1, i2, i3, i4⟩ := ih V1 R h2
    have hstep : (∀ x ∈ V, x ∈ V1) ∧ (∀ x ∈ V1, x ∈ V ∨ s.reach S n x) ∧
        (∀ x ∈ V1, x ∉ V → x ∈ S ∧ ∀ y, s.adjacent x y → y ∈ S → y ∈ V1) ∧ (n ∈ S → n ∈ V1) := by
      rcases hf V n V1 h1 with ⟨hn, rfl⟩ | hok
      · exact ⟨fun x hx => hx, fun x hx => Or.inl hx, fun x hx hnx => absurd hx hnx,
          fun h => absurd h hn⟩
      · exact hok
    obtain ⟨t1, t2, t3, t4⟩ := hstep
    refine ⟨fun x hx => i1 x (t1 x hx), ?_, ?_, ?_⟩
    · intro x hx
      rcases i2 x hx with h | ⟨k, hk, hr⟩
      · rcases t2 x h with h | h
        · exact Or.inl h
        · exact Or.inr ⟨n, List.mem_cons_self _ _, h⟩
      · exact Or.inr ⟨k, List.mem_cons_of_mem _ hk, hr⟩
    · intro x hx hxV
      by_cases hx1 : x ∈ V1
      · obtain ⟨q1, q2⟩ := t3 x hx1 hxV
        exact ⟨q1, fun y hy hyS => i1 y (q2 y hy hyS)⟩
      · exact i3 x hx hx1
    · intro k hk hkS
      rcases List.mem_cons.mp hk with rfl | hk
      · exact i1 k (t4 hkS)
      · exact i4 k hk hkS

theorem escene.reach_refl (s : escene) (S : List entity_handle) (o : entity_handle) (h : o ∈ S) :
    s.reach S o o :=
  ⟨h, Relation.ReflTransGen.refl⟩

theorem escene.reach_head (s : escene) (S : List entity_handle) (o n x : entity_handle)
    (ho : o ∈ S) (hadj : s.adjacent o n) (h : s.reach S n x) : s.reach S o x :=
  ⟨ho, Relation.ReflTransGen.head ⟨hadj, h.1⟩ h.2⟩

theorem chunk_graph_manager.traverse_spec (s : escene) (S : List entity_handle)
    (hS : ∀ x ∈ S, (s.chunk_nodes x).isSome) :
    ∀ (fuel : Nat) (o : entity_handle) (V R : List entity_handle),
      chunk_graph_manager.traverse s fuel o S V = some R → s.traverseOk S o V R := by
  intro fuel
  induction fuel with
  | zero =>
    intro o V R h
    simp [chunk_graph_manager.traverse] at h
  | succ fuel ih =>
    intro o V R h
    rw [chunk_graph_manager.traverse] at h
    by_cases hg : o ∈ S ∧ o ∉ V
    · obtain ⟨hoS, hoV⟩ := hg
      simp only [hoS, hoV, decide_True, decide_False, beq_self_eq_true, Bool.and_self,
        if_true] at h
      cases hc : s.chunk_nodes o with
      | none => simp [hc] at h
      | some c =>
        simp only [hc] at h
        obtain ⟨f1, f2, f3, f4⟩ := escene.traverse_fold s S _ (by
          intro V0 n V1 hstep
          cases hn : s.chunk_nodes n with
          | none =>
            simp only [hn, Option.some.injEq] at hstep
            refine Or.inl ⟨fun hnS => ?_, hstep.symm⟩
            have := hS n hnS
            simp [hn] at this
          | some d =>
            simp only [hn] at hstep
            exact Or.inr (ih n V0 V1 hstep)) c.neighbours _ R h
        refine ⟨fun x hx => f1 x ((mem_set_emplace V o x).mpr (Or.inl hx)), ?_, ?_, ?_⟩
        · intro x hx
          rcases f2 x hx with h | ⟨n, hn, hr⟩
          · rcases (mem_set_emplace V o x).mp h with h | h
            · exact Or.inl h
            · subst h; exact Or.inr (s.reach_refl S x hoS)
          · exact Or.inr (s.reach_head S o n x hoS ⟨c, hc, hn⟩ hr)
        · intro x hx hxV
          by_cases hxo : x = o
          · subst hxo
            refine ⟨hoS, fun y hy hyS => ?_⟩
            obtain ⟨c2, hc2, hy2⟩ := hy
            rw [hc] at hc2; cases hc2
            exact f4 y hy2 hyS
          · apply f3 x hx
            rw [mem_set_emplace]
            rintro (h | h)
            · exact hxV h
            · exact hxo h
        · intro _
          exact f1 o ((mem_set_emplace V o o).mpr (Or.inr rfl))
    · have : (decide (o ∈ S) && (decide (o ∈ V) == false)) = false := by
        by_cases h1 : o ∈ S
        · by_cases h2 : o ∈ V
          · simp [h1, h2]
          · exact absurd ⟨h1, h2⟩ hg
        · simp [h1]
      simp only [this, Bool.false_eq_true, if_false, Option.some.injEq] at h
      subst h
      refine ⟨fun x hx => hx, fun x hx => Or.inl hx, fun x hx hn => absurd hx hn, ?_⟩
      intro hoS
      by_contra hoV
      exact hg ⟨hoS, hoV⟩

theorem unvisited_mono (S V W : List entity_handle) (h : ∀ x ∈ V, x ∈ W) :
    unvisited S W ≤ unvisited S V := by
  unfold unvisited
  induction S with
  | nil => simp
  | cons a S ih =>
    simp only [List.filter_cons]
    by_cases ha : a ∈ V
    · simp only [ha, h a ha, not_true_eq_false, decide_False, Bool.false_eq_true, if_false]
      exact ih
    · by_cases hw : a ∈ W
      · simp only [ha, hw, not_true_eq_false, not_false_eq_true, decide_True, decide_False,
          Bool.false_eq_true, if_false, if_true, List.length_cons]
        omega
      · simp only [ha, hw, not_false_eq_true, decide_True, if_true, List.length_cons]
        omega

theorem unvisited_emplace (S V : List entity_handle) (o : entity_handle) (hS : o ∈ S)
    (hV : o ∉ V) : unvisited S (set_emplace V o) < unvisited S V := by
  unfold unvisited
  induction S with
  | nil => cases hS
  | cons a S ih =>
    simp only [List.filter_cons, mem_set_emplace]
    by_cases hao : a = o
    · subst hao
      simp only [hV, or_true, not_true_eq_false, decide_False, Bool.false_eq_true, if_false,
        not_false_eq_true, decide_True, if_true, List.length_cons]
      have := unvisited_mono S V (set_emplace V a) (fun x hx => (mem_set_emplace V a x).mpr (Or.inl hx))
      unfold unvisited at this
      simp only [mem_set_emplace] at this
      omega
    · have hS2 : o ∈ S := by
        rcases List.mem_cons.mp hS with h | h
        · exact absurd h.symm hao
        · exact h
      have := ih hS2
      simp only [mem_set_emplace] at this
      by_cases ha : a ∈ V
      · simp only [ha, true_or, not_true_eq_false, decide_False, Bool.false_eq_true, if_false]
        exact this
      · simp only [ha, hao, or_self, not_false_eq_true, decide_True, if_true, List.length_cons]
        omega

theorem escene.traverse_fold_some (S : List entity_handle) (fuel : Nat)
    (f : List entity_handle → entity_handle → Option (List entity_handle))
    (hf : ∀ V n, unvisited S V < fuel → ∃ V1, f V n = some V1 ∧ ∀ x ∈ V, x ∈ V1) :
    ∀ (l V : List entity_handle), unvisited S V < fuel →
      ∃ R, l.foldlM f V = some R ∧ ∀ x ∈ V, x ∈ R := by
  intro l
  induction l with
  | nil => intro V _; exact ⟨V, rfl, fun x hx => hx⟩
  | cons n l ih =>
    intro V hV
    obtain ⟨V1, h1, h2⟩ := hf V n hV
    obtain ⟨R, h3, h4⟩ := ih V1 (lt_of_le_of_lt (unvisited_mono S V V1 h2) hV)
    refine ⟨R, ?_, fun x hx => h4 x (h2 x hx)⟩
    simp only [List.foldlM_cons, Option.bind_eq_bind, h1, Option.some_bind, h3]

theorem chunk_graph_manager.traverse_some (s : escene) (S : List entity_handle)
    (hS : ∀ x ∈ S, (s.chunk_nodes x).isSome) :
    ∀ (fuel : Nat) (o : entity_handle) (V : List entity_handle), unvisited S V < fuel →
      ∃ R, chunk_graph_manager.traverse s fuel o S V = some R ∧ ∀ x ∈ V, x ∈ R := by
  intro fuel
  induction fuel with
  | zero => intro o V h; omega
  | succ fuel ih =>
    intro o V hV
    rw [chunk_graph_manager.traverse]
    by_cases hg : o ∈ S ∧ o ∉ V
    · obtain ⟨hoS, hoV⟩ := hg
      simp only [hoS, hoV, decide_True, decide_False, beq_self_eq_true, Bool.and_self, if_true]
      obtain ⟨c, hc⟩ := Option.isSome_iff_exists.mp (hS o hoS)
      simp only [hc]
      have hlt : unvisited S (set_emplace V o) < fuel := by
        have := unvisited_emplace S V o hoS hoV
        omega
      obtain ⟨R, hR, hsub⟩ := escene.traverse_fold_some S fuel
        (fun vis n =>
          match s.chunk_nodes n with
          | none => some vis
          | some _ => chunk_graph_manager.traverse s fuel n S vis) (by
        intro V0 n hV0
        cases hn : s.chunk_nodes n with
        | none => exact ⟨V0, by simp only [hn], fun x hx => hx⟩
        | some d =>
          obtain ⟨R, hR, hsub⟩ := ih n V0 hV0
          exact ⟨R, by simp only [hn, hR], hsub⟩) c.neighbours (set_emplace V o) hlt
      exact ⟨R, hR, fun x hx => hsub x ((mem_set_emplace V o x).mpr (Or.inl hx))⟩
    · have : (decide (o ∈ S) && (decide (o ∈ V) == false)) = false := by
        by_cases h1 : o ∈ S
        · by_cases h2 : o ∈ V
          · simp [h1, h2]
          · exact absurd ⟨h1, h2⟩ hg
        · simp [h1]
      simp only [this, Bool.false_eq_true, if_false]
      exact ⟨V, rfl, fun x hx => hx⟩

theorem chunk_graph_manager.collect_fold (s : escene) (l : List entity_handle) :
    ∀ (acc : List entity_handle × List entity_handle),
      (∀ x ∈ l, (s.chunk_nodes x).isSome) →
      ∃ r, l.foldlM (chunk_graph_manager.collect s) acc = some r ∧
        (∀ x, x ∈ r.2 ↔ x ∈ acc.2 ∨ x ∈ l) ∧
        (∀ x, x ∈ r.1 ↔ x ∈ acc.1 ∨ (x ∈ l ∧ s.isAnchor x = true)) := by
  induction l with
  | nil => intro acc _; exact ⟨acc, rfl, by simp, by simp⟩
  | cons o l ih =>
    intro acc hl
    obtain ⟨c, hc⟩ := Option.isSome_iff_exists.mp (hl o (List.mem_cons_self _ _))
    obtain ⟨r, hr, h1, h2⟩ := ih
      (if (s.rigidbodies o).isSome && c.isKinematic then acc.1 ++ [o] else acc.1,
        set_emplace acc.2 o) (fun x hx => hl x (List.mem_cons_of_mem _ hx))
    refine ⟨r, ?_, ?_, ?_⟩
    · simp only [List.foldlM_cons, Option.bind_eq_bind, chunk_graph_manager.collect, hc,
        Option.some_bind]
      exact hr
    · intro x
      rw [h1]
      simp only [mem_set_emplace, List.mem_cons]
      tauto
    · intro x
      rw [h2]
      have ho : s.isAnchor o = ((s.rigidbodies o).isSome && c.isKinematic) := by
        simp [escene.isAnchor, hc]
      by_cases hk : ((s.rigidbodies o).isSome && c.isKinematic) = true
      · have hao : s.isAnchor o = true := by rw [ho, hk]
        simp only [hk, if_true, List.mem_append, List.mem_cons, List.not_mem_nil, or_false]
        constructor
        · rintro ((h | h) | h)
          · exact Or.inl h
          · exact Or.inr ⟨Or.inl h, by rw [h]; exact hao⟩
          · exact Or.inr ⟨Or.inr h.1, h.2⟩
        · rintro (h | ⟨h | h, h2⟩)
          · exact Or.inl (Or.inl h)
          · exact Or.inl (Or.inr h)
          · exact Or.inr ⟨h, h2⟩
      · have hao : ¬ s.isAnchor o = true := by rw [ho]; exact hk
        simp only [hk, if_false, List.mem_cons]
        constructor
        · rintro (h | h)
          · exact Or.inl h
          · exact Or.inr ⟨Or.inr h.1, h.2⟩
        · rintro (h | ⟨h | h, h2⟩)
          · exact Or.inl h
          · rw [h] at h2; exact absurd h2 hao
          · exact Or.inr ⟨h, h2⟩

theorem escene.reach_mono (s : escene) (S N : List entity_handle) (h : ∀ x ∈ S, x ∈ N)
    (a x : entity_handle) (hr : s.reach S a x) : s.reach N a x :=
  ⟨h a hr.1, Relation.ReflTransGen.mono (fun _ _ huv => ⟨huv.1, h _ huv.2⟩) hr.2⟩

theorem chunk_graph_manager.prune_spec (s : escene) (N : List entity_handle)
    (hN : ∀ x ∈ N, (s.chunk_nodes x).isSome) (P : entity_handle → Prop)
    (S : List entity_handle) (o : entity_handle) (ho : o ∈ N) (hinv : s.pruned N P S) :
    ∃ S1, chunk_graph_manager.prune s S o = some S1 ∧ s.pruned N (fun a => P a ∨ a = o) S1 := by
  obtain ⟨i1, i2, i3, i4⟩ := hinv
  unfold chunk_graph_manager.prune
  by_cases hoS : o ∈ S
  · simp only [hoS, if_true]
    have hS : ∀ x ∈ S, (s.chunk_nodes x).isSome := fun x hx => hN x (i1 x hx)
    obtain ⟨R, hR, -⟩ := chunk_graph_manager.traverse_some s S hS (S.length + 1) o [] (by
      unfold unvisited
      exact Nat.lt_succ_of_le (List.length_filter_le _ _))
    obtain ⟨-, t2, t3, t4⟩ := chunk_graph_manager.traverse_spec s S hS _ o [] R hR
    refine ⟨S.filter (fun x => decide (x ∈ R) == false), by simp only [hR], ?_, ?_, ?_, ?_⟩
    · intro x hx
      exact i1 x (List.mem_filter.mp hx).1
    · intro y hy hyS
      by_cases hyS0 : y ∈ S
      · have hyR : y ∈ R := by
          by_contra hyR
          exact hyS (List.mem_filter.mpr ⟨hyS0, by simp [hyR]⟩)
        rcases t2 y hyR with h | h
        · cases h
        · exact ⟨o, Or.inr rfl, s.reach_mono S N i1 o y h⟩
      · obtain ⟨a, ha, hr⟩ := i2 y hy hyS0
        exact ⟨a, Or.inl ha, hr⟩
    · intro y hy hyS z hz hzN hzS
      obtain ⟨hzS0, hzR⟩ := List.mem_filter.mp hzS
      by_cases hyS0 : y ∈ S
      · have hyR : y ∈ R := by
          by_contra hyR
          exact hyS (List.mem_filter.mpr ⟨hyS0, by simp [hyR]⟩)
        have := (t3 y hyR (by simp)).2 z hz hzS0
        simp [this] at hzR
      · exact i3 y hy hyS0 z hz hzN hzS0
    · intro a ha haS
      obtain ⟨haS0, haR⟩ := List.mem_filter.mp haS
      rcases ha with ha | ha
      · exact i4 a ha haS0
      · subst ha
        simp [t4 hoS] at haR
  · simp only [hoS, if_false]
    refine ⟨S, rfl, i1, ?_, i3, ?_⟩
    · intro y hy hyS
      obtain ⟨a, ha, hr⟩ := i2 y hy hyS
      exact ⟨a, Or.inl ha, hr⟩
    · rintro a (ha | ha)
      · exact i4 a ha
      · subst ha; exact hoS

theorem chunk_graph_manager.prune_fold (s : escene) (N : List entity_handle)
    (hN : ∀ x ∈ N, (s.chunk_nodes x).isSome) (l : List entity_handle) :
    ∀ (P : entity_handle → Prop) (S : List entity_handle), (∀ a ∈ l, a ∈ N) → s.pruned N P S →
      ∃ S1, l.foldlM (chunk_graph_manager.prune s) S = some S1 ∧
        s.pruned N (fun a => P a ∨ a ∈ l) S1 := by
  induction l with
  | nil =>
    intro P S _ hinv
    refine ⟨S, rfl, ?_⟩
    simpa using hinv
  | cons o l ih =>
    intro P S hl hinv
    obtain ⟨S1, h1, inv1⟩ := chunk_graph_manager.prune_spec s N hN P S o
      (hl o (List.mem_cons_self _ _)) hinv
    obtain ⟨S2, h2, inv2⟩ := ih _ S1 (fun a ha => hl a (List.mem_cons_of_mem _ ha)) inv1
    refine ⟨S2, by simp only [List.foldlM_cons, Option.bind_eq_bind, h1, Option.some_bind, h2], ?_⟩
    have : (fun a => (P a ∨ a = o) ∨ a ∈ l) = (fun a => P a ∨ a ∈ o :: l) := by
      funext a
      simp only [List.mem_cons, or_assoc]
    rw [← this]
    exact inv2

theorem escene.pruned_final (s : escene) (N : List entity_handle) (P : entity_handle → Prop)
    (S : List entity_handle) (hinv : s.pruned N P S) (hP : ∀ a, P a → a ∈ N) (x : entity_handle) :
    x ∈ S ↔ x ∈ N ∧ ¬ ∃ a, P a ∧ s.reach N a x := by
  obtain ⟨i1, i2, i3, i4⟩ := hinv
  constructor
  · intro hx
    refine ⟨i1 x hx, ?_⟩
    rintro ⟨a, ha, -, hr⟩
    have key : ∀ y, Relation.ReflTransGen (s.edge N) a y → y ∈ N ∧ y ∉ S := by
      intro y hy
      induction hy with
      | refl => exact ⟨hP a ha, i4 a ha⟩
      | tail _ huv ih => exact ⟨huv.2, i3 _ ih.1 ih.2 _ huv.1 huv.2⟩
    exact (key x hr).2 hx
  · rintro ⟨hxN, hno⟩
    by_contra hxS
    exact hno (i2 x hxN hxS)

theorem chunk_graph_manager.searchTargets_spec (m : chunk_graph_manager) (s : escene)
    (objects : List entity_handle) (hlen : m.nbNodes ≤ objects.length)
    (hnode : ∀ o ∈ objects.take m.nbNodes, (s.chunk_nodes o).isSome) :
    ∃ targets, m.searchTargets s objects = some targets ∧
      ∀ x, x ∈ targets ↔ x ∈ objects.take m.nbNodes ∧
        ¬ ∃ a, (a ∈ objects.take m.nbNodes ∧ s.isAnchor a = true) ∧
          s.reach (objects.take m.nbNodes) a x := by
  obtain ⟨r, hr, r2, r1⟩ := chunk_graph_manager.collect_fold s (objects.take m.nbNodes) ([], []) hnode
  simp only [List.not_mem_nil, false_or] at r1 r2
  have hinv : s.pruned (objects.take m.nbNodes) (fun _ => False) r.2 := by
    refine ⟨fun x hx => (r2 x).mp hx, ?_, ?_, ?_⟩
    · intro y hy hyS
      exact absurd ((r2 y).mpr hy) hyS
    · intro y hy hyS
      exact absurd ((r2 y).mpr hy) hyS
    · intro a ha
      exact ha.elim
  obtain ⟨S1, hS1, inv1⟩ := chunk_graph_manager.prune_fold s (objects.take m.nbNodes) hnode r.1
    (fun _ => False) r.2 (fun a ha => ((r1 a).mp ha).1) hinv
  refine ⟨S1, ?_, ?_⟩
  · unfold chunk_graph_manager.searchTargets
    rw [if_neg (by omega), hr]
    exact hS1
  · intro x
    rw [escene.pruned_final s _ _ S1 inv1 (fun a ha => by
      rcases ha with ha | ha
      · exact ha.elim
      · exact ((r1 a).mp ha).1) x]
    simp only [false_or, r1]

/-- C2. Exact unfreeze set of `searchGraph`: in a graph whose chunks all have a
rigid body and a chunk node, `searchGraph` returns, and the nodes on which it
calls `unfreeze()` are exactly the nodes of the graph that are not reachable,
along neighbours edges through nodes of the graph, from a node whose kinematic
flag is true. -/
theorem searchGraph_unfreezes_exactly_unreachable (m : chunk_graph_manager) (s : escene)
    (objects : List entity_handle) (hlen : m.nbNodes ≤ objects.length)
    (hgraph : ∀ o ∈ objects.take m.nbNodes,
      (s.rigidbodies o).isSome ∧ (s.chunk_nodes o).isSome) :
    ∃ targets, m.searchTargets s objects = some targets ∧
      m.searchGraph s objects = targets.foldlM chunk_node.unfreeze s ∧
      ∀ x, x ∈ targets ↔ x ∈ objects.take m.nbNodes ∧
        ¬ ∃ a ∈ objects.take m.nbNodes,
          (∃ c, s.chunk_nodes a = some c ∧ c.isKinematic = true) ∧
            s.reach (objects.take m.nbNodes) a x := by
  obtain ⟨targets, ht, hx⟩ := chunk_graph_manager.searchTargets_spec m s objects hlen
    (fun o ho => (hgraph o ho).2)
  refine ⟨targets, ht, by simp only [chunk_graph_manager.searchGraph, ht], fun x => ?_⟩
  rw [hx]
  apply and_congr_right
  intro _
  apply not_congr
  constructor
  · rintro ⟨a, ⟨haN, haA⟩, hr⟩
    refine ⟨a, haN, ?_, hr⟩
    obtain ⟨c, hc⟩ := Option.isSome_iff_exists.mp (hgraph a haN).2
    refine ⟨c, hc, ?_⟩
    simpa [escene.isAnchor, hc, (hgraph a haN).1] using haA
  · rintro ⟨a, haN, ⟨c, hc, hk⟩, hr⟩
    refine ⟨a, ⟨haN, ?_⟩, hr⟩
    simp [escene.isAnchor, hc, hk, (hgraph a haN).1]

theorem chunk_node.unfreeze_fold (l : List entity_handle) :
    ∀ s : escene, (∀ x ∈ l, ∃ c, s.chunk_nodes x = some c ∧ c.handle = x) →
      ∃ t, l.foldlM chunk_node.unfreeze s = some t ∧
        t.unfreezeBlastQueue = s.unfreezeBlastQueue ∪ l.toFinset ∧
        t.rigidbodies = s.rigidbodies ∧
        ∀ x, t.chunk_nodes x =
          if x ∈ l ∧ x ∉ s.unfreezeBlastQueue then
            (s.chunk_nodes x).map (fun c => { c with frozen := false })
          else s.chunk_nodes x := by
  induction l with
  | nil => intro s _; exact ⟨s, rfl, by simp, rfl, by simp⟩
  | cons o l ih =>
    intro s hl
    obtain ⟨c, hc, hh⟩ := hl o (List.mem_cons_self _ _)
    by_cases hq : o ∈ s.unfreezeBlastQueue
    · have h1 : chunk_node.unfreeze s o = some s := by
        simp [chunk_node.unfreeze, hc, hh, hq]
      obtain ⟨t, ht, q, rb, n⟩ := ih s (fun x hx => hl x (List.mem_cons_of_mem _ hx))
      refine ⟨t, by simp only [List.foldlM_cons, Option.bind_eq_bind, h1, Option.some_bind, ht],
        ?_, rb, ?_⟩
      · rw [q]
        ext x
        simp only [Finset.mem_union, List.mem_toFinset, List.mem_cons]
        constructor
        · rintro (h | h)
          · exact Or.inl h
          · exact Or.inr (Or.inr h)
        · rintro (h | h | h)
          · exact Or.inl h
          · subst h; exact Or.inl hq
          · exact Or.inr h
      · intro x
        rw [n]
        by_cases hxo : x = o
        · subst hxo; simp [hq]
        · simp [hxo]
    · have h1 : chunk_node.unfreeze s o = some { s with
          unfreezeBlastQueue := insert c.handle s.unfreezeBlastQueue,
          chunk_nodes := Function.update s.chunk_nodes o (some { c with frozen := false }) } := by
        simp [chunk_node.unfreeze, hc, hh, hq]
      obtain ⟨t, ht, q, rb, n⟩ := ih { s with
          unfreezeBlastQueue := insert c.handle s.unfreezeBlastQueue,
          chunk_nodes := Function.update s.chunk_nodes o (some { c with frozen := false }) } (by
        intro x hx
        obtain ⟨d, hd, hdh⟩ := hl x (List.mem_cons_of_mem _ hx)
        by_cases hxo : x = o
        · subst hxo
          exact ⟨{ c with frozen := false }, by simp, hh⟩
        · exact ⟨d, by simp [Function.update_apply, hxo, hd], hdh⟩)
      refine ⟨t, by simp only [List.foldlM_cons, Option.bind_eq_bind, h1, Option.some_bind, ht],
        ?_, rb, ?_⟩
      · rw [q]
        ext x
        simp only [hh, Finset.mem_union, Finset.mem_insert, List.mem_toFinset, List.mem_cons]
        tauto
      · intro x
        rw [n]
        simp only [hh, Finset.mem_insert, Function.update_apply, List.mem_cons]
        by_cases hxo : x = o
        · subst hxo
          simp [hq, hc, hh]
        · simp [hxo]

/-- C4. No anchors means everything unfreezes: in a graph whose nodes carry
their own handle, none of which is kinematic and all of which are frozen, with
an empty unfreeze queue, `searchGraph` over the nodes returns, and afterwards
the handle of every node is in the unfreeze queue and the frozen flag of every
node is false. -/
theorem searchGraph_without_anchors_unfreezes_all (m : chunk_graph_manager) (s : escene)
    (objects : List entity_handle) (hlen : m.nbNodes ≤ objects.length)
    (hnode : ∀ o ∈ objects.take m.nbNodes, ∃ c, s.chunk_nodes o = some c ∧ c.handle = o ∧
      c.isKinematic = false ∧ c.frozen = true)
    (hq : s.unfreezeBlastQueue = ∅) :
    ∃ t, m.searchGraph s objects = some t ∧
      ∀ o ∈ objects.take m.nbNodes, ∃ c, t.chunk_nodes o = some c ∧
        c.handle ∈ t.unfreezeBlastQueue ∧ c.frozen = false := by
  obtain ⟨targets, ht, hx⟩ := chunk_graph_manager.searchTargets_spec m s objects hlen (by
    intro o ho
    obtain ⟨c, hc, -⟩ := hnode o ho
    simp [hc])
  have hall : ∀ x, x ∈ targets ↔ x ∈ objects.take m.nbNodes := by
    intro x
    rw [hx]
    constructor
    · exact fun h => h.1
    · intro h
      refine ⟨h, ?_⟩
      rintro ⟨a, ⟨haN, haA⟩, -⟩
      obtain ⟨c, hc, -, hk, -⟩ := hnode a haN
      simp [escene.isAnchor, hc, hk] at haA
  obtain ⟨t, hfold, q, -, n⟩ := chunk_node.unfreeze_fold targets s (by
    intro x hx2
    obtain ⟨c, hc, hh, -⟩ := hnode x ((hall x).mp hx2)
    exact ⟨c, hc, hh⟩)
  refine ⟨t, by simp only [chunk_graph_manager.searchGraph, ht, hfold], ?_⟩
  intro o ho
  obtain ⟨c, hc, hh, -, -⟩ := hnode o ho
  have hot : o ∈ targets := (hall o).mpr ho
  refine ⟨{ c with frozen := false }, ?_, ?_, rfl⟩
  · rw [n]
    simp [hot, hq, hc]
  · rw [q]
    simp [hh, hot]

/-- C6. Anchors never unfreeze: in a graph whose chunks all have a rigid body
and a chunk node carrying their own handle, whatever the adjacency,
`searchGraph` returns and does not call `unfreeze()` on a node whose kinematic
flag is true; the chunk node of such a node (its frozen flag included) and the
queue membership of its handle are the same before and after. -/
theorem searchGraph_never_unfreezes_anchor (m : chunk_graph_manager) (s : escene)
    (objects : List entity_handle) (hlen : m.nbNodes ≤ objects.length)
    (hgraph : ∀ o ∈ objects.take m.nbNodes,
      (s.rigidbodies o).isSome ∧ ∃ c, s.chunk_nodes o = some c ∧ c.handle = o) :
    ∃ targets t, m.searchTargets s objects = some targets ∧ m.searchGraph s objects = some t ∧
      ∀ a ∈ objects.take m.nbNodes, ∀ c, s.chunk_nodes a = some c → c.isKinematic = true →
        a ∉ targets ∧ t.chunk_nodes a = some c ∧
          (c.handle ∈ t.unfreezeBlastQueue ↔ c.handle ∈ s.unfreezeBlastQueue) := by
  obtain ⟨targets, ht, hx⟩ := chunk_graph_manager.searchTargets_spec m s objects hlen (by
    intro o ho
    obtain ⟨-, c, hc, -⟩ := hgraph o ho
    simp [hc])
  obtain ⟨t, hfold, q, -, n⟩ := chunk_node.unfreeze_fold targets s (by
    intro x hx2
    exact (hgraph x ((hx x).mp hx2).1).2)
  refine ⟨targets, t, ht, by simp only [chunk_graph_manager.searchGraph, ht, hfold], ?_⟩
  intro a ha c hc hk
  have hat : a ∉ targets := by
    intro h
    apply ((hx a).mp h).2
    refine ⟨a, ⟨ha, ?_⟩, s.reach_refl _ a ha⟩
    simp [escene.isAnchor, hc, hk, (hgraph a ha).1]
  obtain ⟨-, c2, hc2, hh⟩ := hgraph a ha
  rw [hc] at hc2; cases hc2
  refine ⟨hat, ?_, ?_⟩
  · rw [n]
    simp [hat, hc]
  · rw [q, hh]
    simp [hat]

/-- Instance of C2 at the example graph anchored at chunk 0. -/
theorem searchGraph_unfreezes_exactly_unreachable_witness :
    ∃ targets, exampleGraph.1.searchTargets anchoredScene exampleGraph.1.nodes = some targets ∧
      exampleGraph.1.searchGraph anchoredScene exampleGraph.1.nodes =
        targets.foldlM chunk_node.unfreeze anchoredScene ∧
      ∀ x, x ∈ targets ↔ x ∈ exampleGraph.1.nodes.take exampleGraph.1.nbNodes ∧
        ¬ ∃ a ∈ exampleGraph.1.nodes.take exampleGraph.1.nbNodes,
          (∃ c, anchoredScene.chunk_nodes a = some c ∧ c.isKinematic = true) ∧
            anchoredScene.reach (exampleGraph.1.nodes.take exampleGraph.1.nbNodes) a x :=
  searchGraph_unfreezes_exactly_unreachable exampleGraph.1 anchoredScene exampleGraph.1.nodes
    (by decide) (by decide)

/-- Instance of C4 at the example graph, which has no anchor. -/
theorem searchGraph_without_anchors_unfreezes_all_witness :
    ∃ t, exampleGraph.1.searchGraph exampleGraph.2 exampleGraph.1.nodes = some t ∧
      ∀ o ∈ exampleGraph.1.nodes.take exampleGraph.1.nbNodes, ∃ c, t.chunk_nodes o = some c ∧
        c.handle ∈ t.unfreezeBlastQueue ∧ c.frozen = false :=
  searchGraph_without_anchors_unfreezes_all exampleGraph.1 exampleGraph.2 exampleGraph.1.nodes
    (by decide)
    (by
      intro o ho
      have ho2 : o ∈ [0, 1, 2, 3] := ho
      simp only [List.mem_cons, List.mem_singleton, List.not_mem_nil, or_false] at ho2
      rcases ho2 with rfl | rfl | rfl | rfl <;> exact ⟨_, rfl, rfl, rfl, rfl⟩)
    rfl

/-- Instance of C6 at the example graph anchored at chunk 0. -/
theorem searchGraph_never_unfreezes_anchor_witness :
    ∃ targets t, exampleGraph.1.searchTargets anchoredScene exampleGraph.1.nodes = some targets ∧
      exampleGraph.1.searchGraph anchoredScene exampleGraph.1.nodes = some t ∧
      ∀ a ∈ exampleGraph.1.nodes.take exampleGraph.1.nbNodes, ∀ c,
        anchoredScene.chunk_nodes a = some c → c.isKinematic = true →
        a ∉ targets ∧ t.chunk_nodes a = some c ∧
          (c.handle ∈ t.unfreezeBlastQueue ↔ c.handle ∈ anchoredScene.unfreezeBlastQueue) :=
  searchGraph_never_unfreezes_anchor exampleGraph.1 anchoredScene exampleGraph.1.nodes
    (by decide)
    (by
      intro o ho
      have ho2 : o ∈ [0, 1, 2, 3] := ho
      simp only [List.mem_cons, List.mem_singleton, List.not_mem_nil, or_false] at ho2
      rcases ho2 with rfl | rfl | rfl | rfl <;> exact ⟨rfl, _, rfl, rfl⟩)

theorem escene.sameFrame_intro (s t : escene) (h1 : t = { s with chunk_nodes := t.chunk_nodes })
    (h2 : ∀ x, match s.chunk_nodes x with
      | none => t.chunk_nodes x = none
      | some c => ∃ d, t.chunk_nodes x = some d ∧ c.sameCore d) : s.sameFrame t := by
  refine ⟨h1, fun x => ⟨fun hx => ?_, fun c hx => ?_⟩⟩
  · have := h2 x
    rw [hx] at this
    exact this
  · have := h2 x
    rw [hx] at this
    exact this

theorem chunk_node.cleanLink_spec (e : entity_handle) (s : escene) (link : joint_ptr)
    (c : chunk_node) (hc : s.chunk_nodes e = some c) (hh : c.handle = e)
    (hb : (s.chunk_nodes ((c.jointToChunk.lookup link).getD 0)).isSome) :
    ∃ t, chunk_node.cleanLink e s link = some t ∧ s.sameFrame t ∧
      (∃ d, t.chunk_nodes e = some d ∧ d.jointToChunk = map_erase c.jointToChunk link) ∧
      ∀ x y, t.adjacent x y ↔ s.adjacent x y ∧
        ¬ (x = e ∧ y = (c.jointToChunk.lookup link).getD 0) ∧
        ¬ (x = (c.jointToChunk.lookup link).getD 0 ∧ y = e) := by
  subst hh
  generalize hbody : (c.jointToChunk.lookup link).getD 0 = body at hb
  obtain ⟨other, ho⟩ := Option.isSome_iff_exists.mp hb
  unfold chunk_node.cleanLink
  simp only [hc, hbody, escene.setNode_nodes]
  by_cases hbe : body = c.handle
  · subst hbe
    simp only [if_true]
    refine ⟨_, rfl, ?_, ?_, ?_⟩
    · apply escene.sameFrame_intro _ _ rfl
      intro x
      simp only [escene.setNode_nodes]
      by_cases hx : x = c.handle
      · subst hx
        simp [hc, chunk_node.sameCore, chunk_node.remove]
      · simp only [hx, if_false]
        cases s.chunk_nodes x with
        | none => simp
        | some a => exact ⟨a, rfl, a.sameCore_refl⟩
    · simp [escene.setNode_nodes, chunk_node.remove]
    · intro x y
      simp only [escene.adjacent, escene.setNode_nodes]
      by_cases hx : x = c.handle
      · subst hx
        simp only [if_true, Option.some.injEq, exists_eq_left', chunk_node.remove, mem_set_erase,
          hc, true_and]
        tauto
      · simp [hx]
  · simp only [hbe, if_false, ho]
    have hne : c.handle ≠ body := fun h => hbe h.symm
    simp only [hne, if_false, if_true]
    refine ⟨_, rfl, ?_, ?_, ?_⟩
    · apply escene.sameFrame_intro _ _ rfl
      intro x
      simp only [escene.setNode_nodes]
      by_cases hx : x = c.handle
      · subst hx
        simp [hc, chunk_node.sameCore]
      · by_cases hxb : x = body
        · subst hxb
          simp [hx, ho, chunk_node.sameCore, chunk_node.remove]
        · simp only [hx, hxb, if_false]
          cases s.chunk_nodes x with
          | none => simp
          | some a => exact ⟨a, rfl, a.sameCore_refl⟩
    · simp [escene.setNode_nodes]
    · intro x y
      simp only [escene.adjacent, escene.setNode_nodes]
      by_cases hx : x = c.handle
      · subst hx
        simp only [if_true, Option.some.injEq, exists_eq_left', mem_set_erase, hc, true_and, hne,
          false_and, not_false_eq_true, and_true]
      · by_cases hxb : x = body
        · subst hxb
          simp only [hx, if_false, if_true, Option.some.injEq, exists_eq_left', chunk_node.remove,
            mem_set_erase, ho, false_and, not_false_eq_true, true_and]
        · simp [hx, hxb]

theorem lookup_of_mem {β : Type} (m : List (Nat × β)) (hnd : (m.map Prod.fst).Nodup) (k : Nat)
    (b : β) (h : (k, b) ∈ m) : m.lookup k = some b := by
  induction m with
  | nil => cases h
  | cons p m ih =>
    obtain ⟨a, v⟩ := p
    simp only [List.map_cons, List.nodup_cons] at hnd
    rcases List.mem_cons.mp h with h2 | h2
    · cases h2
      simp [List.lookup]
    · have hk : k ∈ m.map Prod.fst := List.mem_map_of_mem Prod.fst h2
      have hka : k ≠ a := by
        rintro rfl
        exact hnd.1 hk
      have : (k == a) = false := by simpa using hka
      simp only [List.lookup, this]
      exact ih hnd.2 h2

theorem mem_map_erase {β : Type} (m : List (Nat × β)) (k : Nat) (p : Nat × β) :
    p ∈ map_erase m k ↔ p ∈ m ∧ p.1 ≠ k := by
  simp [map_erase]

theorem nodup_keys_map_erase {β : Type} (m : List (Nat × β)) (k : Nat)
    (hnd : (m.map Prod.fst).Nodup) : ((map_erase m k).map Prod.fst).Nodup :=
  List.Nodup.sublist (List.Sublist.map Prod.fst (List.filter_sublist m)) hnd

theorem chunk_node.cleanLinks_spec (e : entity_handle) (ls : List joint_ptr) :
    ∀ (s : escene) (c : chunk_node), s.chunk_nodes e = some c → c.handle = e →
      (c.jointToChunk.map Prod.fst).Nodup → ls.Nodup →
      (∀ l ∈ ls, l ∈ c.jointToChunk.map Prod.fst) →
      (∀ p ∈ c.jointToChunk, p.1 ∈ ls → (s.chunk_nodes p.2).isSome) →
      ∃ t, ls.foldlM (chunk_node.cleanLink e) s = some t ∧ s.sameFrame t ∧
        (∃ d, t.chunk_nodes e = some d ∧
          d.jointToChunk = c.jointToChunk.filter (fun p => decide (p.1 ∉ ls))) ∧
        ∀ x y, t.adjacent x y ↔ s.adjacent x y ∧
          ¬ (x = e ∧ ∃ p ∈ c.jointToChunk, p.1 ∈ ls ∧ p.2 = y) ∧
          ¬ (y = e ∧ ∃ p ∈ c.jointToChunk, p.1 ∈ ls ∧ p.2 = x) := by
  induction ls with
  | nil =>
    intro s c hc _ _ _ _ _
    refine ⟨s, rfl, s.sameFrame_refl, ⟨c, hc, by simp⟩, by simp⟩
  | cons link ls ih =>
    intro s c hc hh hnd hls hkeys hbodies
    obtain ⟨hlink, hls2⟩ := List.nodup_cons.mp hls
    obtain ⟨⟨l0, b⟩, hp, hl0⟩ := List.mem_map.mp (hkeys link (List.mem_cons_self _ _))
    simp only at hl0
    subst hl0
    have hlook : c.jointToChunk.lookup l0 = some b := lookup_of_mem _ hnd l0 b hp
    have hbody : (c.jointToChunk.lookup l0).getD 0 = b := by rw [hlook]; rfl
    obtain ⟨u, hu, f1, ⟨d, hd, hdj⟩, a1⟩ := chunk_node.cleanLink_spec e s l0 c hc hh (by
      rw [hbody]
      exact hbodies (l0, b) hp (List.mem_cons_self _ _))
    rw [hbody] at a1
    obtain ⟨d0, hd0, hcore⟩ := (f1.2 e).2 c hc
    rw [hd] at hd0; cases hd0
    have hmem : ∀ p, p ∈ d.jointToChunk ↔ p ∈ c.jointToChunk ∧ p.1 ≠ l0 := by
      intro p; rw [hdj, mem_map_erase]
    obtain ⟨t, ht, f2, ⟨d2, hd2, hd2j⟩, a2⟩ := ih u d hd (hcore.1.trans hh)
      (by rw [hdj]; exact nodup_keys_map_erase _ _ hnd) hls2
      (by
        intro l hl
        obtain ⟨p, hp1, hp2⟩ := List.mem_map.mp (hkeys l (List.mem_cons_of_mem _ hl))
        refine List.mem_map.mpr ⟨p, (hmem p).mpr ⟨hp1, ?_⟩, hp2⟩
        rw [hp2]
        rintro rfl
        exact hlink hl)
      (by
        intro p hp1 hp2
        rw [escene.sameFrame_isSome f1]
        exact hbodies p ((hmem p).mp hp1).1 (List.mem_cons_of_mem _ hp2))
    have huniq : ∀ p ∈ c.jointToChunk, p.1 = l0 → p.2 = b := by
      intro p hp1 hp2
      have h1 := lookup_of_mem _ hnd p.1 p.2 hp1
      rw [hp2, hlook] at h1
      cases h1; rfl
    have hex : ∀ z, (∃ p ∈ c.jointToChunk, p.1 ∈ l0 :: ls ∧ p.2 = z) ↔
        (z = b ∨ ∃ p ∈ d.jointToChunk, p.1 ∈ ls ∧ p.2 = z) := by
      intro z
      constructor
      · rintro ⟨p, hp1, hp2, hp3⟩
        rcases List.mem_cons.mp hp2 with h | h
        · exact Or.inl (hp3 ▸ huniq p hp1 h)
        · refine Or.inr ⟨p, (hmem p).mpr ⟨hp1, ?_⟩, h, hp3⟩
          intro h2
          exact hlink (h2 ▸ h)
      · rintro (h | ⟨p, hp1, hp2, hp3⟩)
        · exact ⟨(l0, b), hp, List.mem_cons_self _ _, h.symm⟩
        · exact ⟨p, ((hmem p).mp hp1).1, List.mem_cons_of_mem _ hp2, hp3⟩
    refine ⟨t, by simp only [List.foldlM_cons, Option.bind_eq_bind, hu, Option.some_bind, ht],
      escene.sameFrame_trans f1 f2, ⟨d2, hd2, ?_⟩, ?_⟩
    · rw [hd2j, hdj, map_erase, List.filter_filter]
      congr 1
      funext p
      simp only [List.mem_cons, not_or, Bool.decide_and, decide_not, bne, Bool.and_comm]
      cases hq : p.1 == l0 <;> simp_all
    · intro x y
      rw [a2, a1, hex, hex]
      generalize (∃ p ∈ d.jointToChunk, p.1 ∈ ls ∧ p.2 = y) = P
      generalize (∃ p ∈ d.jointToChunk, p.1 ∈ ls ∧ p.2 = x) = Q
      generalize s.adjacent x y = A
      constructor
      · rintro ⟨⟨hA, h1, h2⟩, h3, h4⟩
        refine ⟨hA, ?_, ?_⟩
        · rintro ⟨hx, hy | hy⟩
          · exact h1 ⟨hx, hy⟩
          · exact h3 ⟨hx, hy⟩
        · rintro ⟨hy, hx | hx⟩
          · exact h2 ⟨hx, hy⟩
          · exact h4 ⟨hy, hx⟩
      · rintro ⟨hA, h1, h2⟩
        exact ⟨⟨hA, fun h => h1 ⟨h.1, Or.inl h.2⟩, fun h => h2 ⟨h.2, Or.inl h.1⟩⟩,
          fun h => h1 ⟨h.1, Or.inr h.2⟩, fun h => h2 ⟨h.1, Or.inr h.2⟩⟩

theorem chunk_node.mem_brokenLinks (s : escene) (c : chunk_node) (p : joint_ptr × entity_handle)
    (hp : p ∈ c.jointToChunk) :
    p.1 ∈ chunk_node.brokenLinks s c ↔ (s.jointHeap p.1).joint = some true := by
  unfold chunk_node.brokenLinks
  simp only [List.mem_map, List.mem_filter, beq_iff_eq]
  constructor
  · rintro ⟨q, ⟨-, hq2⟩, hq3⟩
    rw [← hq3]; exact hq2
  · intro h
    exact ⟨p, ⟨hp, h⟩, rfl⟩

theorem chunk_node.cleanBrokenLinks_spec (e : entity_handle) (s : escene) (c : chunk_node)
    (hc : s.chunk_nodes e = some c) (hh : c.handle = e)
    (hnd : (c.jointToChunk.map Prod.fst).Nodup)
    (hbodies : ∀ p ∈ c.jointToChunk, (s.jointHeap p.1).joint = some true →
      (s.chunk_nodes p.2).isSome) :
    ∃ u d, s.sameFrame u ∧ u.chunk_nodes e = some d ∧
      chunk_node.cleanBrokenLinks s e = some (u.setNode e { d with hasBrokenLinks := false }) ∧
      d.jointToChunk =
        c.jointToChunk.filter (fun p => decide (¬ (s.jointHeap p.1).joint = some true)) ∧
      ∀ x y, u.adjacent x y ↔ s.adjacent x y ∧
        ¬ (x = e ∧ ∃ p ∈ c.jointToChunk, (s.jointHeap p.1).joint = some true ∧ p.2 = y) ∧
        ¬ (y = e ∧ ∃ p ∈ c.jointToChunk, (s.jointHeap p.1).joint = some true ∧ p.2 = x) := by
  obtain ⟨u, hu, f, ⟨d, hd, hdj⟩, a⟩ := chunk_node.cleanLinks_spec e (chunk_node.brokenLinks s c)
    s c hc hh hnd
    (List.Nodup.sublist (List.Sublist.map Prod.fst (List.filter_sublist _)) hnd)
    (by
      intro l hl
      unfold chunk_node.brokenLinks at hl
      obtain ⟨p, hp1, hp2⟩ := List.mem_map.mp hl
      exact List.mem_map.mpr ⟨p, (List.mem_filter.mp hp1).1, hp2⟩)
    (by
      intro p hp1 hp2
      exact hbodies p hp1 ((chunk_node.mem_brokenLinks s c p hp1).mp hp2))
  have hex : ∀ z, (∃ p ∈ c.jointToChunk, p.1 ∈ chunk_node.brokenLinks s c ∧ p.2 = z) ↔
      (∃ p ∈ c.jointToChunk, (s.jointHeap p.1).joint = some true ∧ p.2 = z) := by
    intro z
    constructor
    · rintro ⟨p, h1, h2, h3⟩
      exact ⟨p, h1, (chunk_node.mem_brokenLinks s c p h1).mp h2, h3⟩
    · rintro ⟨p, h1, h2, h3⟩
      exact ⟨p, h1, (chunk_node.mem_brokenLinks s c p h1).mpr h2, h3⟩
  refine ⟨u, d, f, hd, ?_, ?_, ?_⟩
  · unfold chunk_node.cleanBrokenLinks
    simp only [hc, hu, hd]
  · rw [hdj]
    apply List.filter_congr
    intro p hp
    rw [decide_eq_decide]
    exact not_congr (chunk_node.mem_brokenLinks s c p hp)
  · intro x y
    rw [a, hex, hex]

theorem chunk_graph_manager.repair_unflagged (l : List entity_handle) :
    ∀ (acc : Bool × escene),
      (∀ i ∈ l, ∃ c, acc.2.chunk_nodes i = some c ∧ c.hasBrokenLinks = false) →
      l.foldlM chunk_graph_manager.repairNode acc = some acc := by
  induction l with
  | nil => intro acc _; rfl
  | cons i l ih =>
    intro acc h
    obtain ⟨c, hc, hf⟩ := h i (List.mem_cons_self _ _)
    have h1 : chunk_graph_manager.repairNode acc i = some acc := by
      simp [chunk_graph_manager.repairNode, hc, hf]
    simp only [List.foldlM_cons, Option.bind_eq_bind, h1, Option.some_bind]
    exact ih acc (fun j hj => h j (List.mem_cons_of_mem _ hj))

theorem chunk_graph_manager.repair_single (k : entity_handle) (l : List entity_handle) :
    ∀ (b : Bool) (s s1 : escene), k ∈ l → l.Nodup →
      (∀ i ∈ l, ∃ c, s.chunk_nodes i = some c ∧ c.hasBrokenLinks = decide (i = k)) →
      chunk_node.cleanBrokenLinks s k = some s1 →
      (∀ i ∈ l, ∃ c, s1.chunk_nodes i = some c ∧ c.hasBrokenLinks = false) →
      l.foldlM chunk_graph_manager.repairNode (b, s) = some (true, s1) := by
  induction l with
  | nil => intro b s s1 hk; cases hk
  | cons i l ih =>
    intro b s s1 hk hnd hflag hclean hafter
    obtain ⟨hi, hnd2⟩ := List.nodup_cons.mp hnd
    obtain ⟨c, hc, hf⟩ := hflag i (List.mem_cons_self _ _)
    by_cases hik : i = k
    · subst hik
      have h1 : chunk_graph_manager.repairNode (b, s) i = some (true, s1) := by
        simp [chunk_graph_manager.repairNode, hc, hf, hclean]
      simp only [List.foldlM_cons, Option.bind_eq_bind, h1, Option.some_bind]
      exact chunk_graph_manager.repair_unflagged l (true, s1)
        (fun j hj => hafter j (List.mem_cons_of_mem _ hj))
    · have h1 : chunk_graph_manager.repairNode (b, s) i = some (b, s) := by
        simp [chunk_graph_manager.repairNode, hc, hf, hik]
      simp only [List.foldlM_cons, Option.bind_eq_bind, h1, Option.some_bind]
      have hkl : k ∈ l := by
        rcases List.mem_cons.mp hk with h | h
        · exact absurd h.symm hik
        · exact h
      exact ih b s s1 hkl hnd2 (fun j hj => hflag j (List.mem_cons_of_mem _ hj)) hclean
        (fun j hj => hafter j (List.mem_cons_of_mem _ hj))

/-- Reachability from chunk 0 in a chain of `N` chunks without the edge between
`k` and `k + 1`. -/
theorem escene.chain_reach (s : escene) (N k : Nat)
    (hadj : ∀ x y, x < N → y < N → (s.adjacent x y ↔
      (y + 1 = x ∨ y = x + 1) ∧ ¬ (x = k ∧ y = k + 1) ∧ ¬ (y = k ∧ x = k + 1)))
    (x : Nat) (hx : x < N) : s.reach (List.range N) 0 x ↔ x ≤ k := by
  constructor
  · rintro ⟨h0, hr⟩
    have h0N : 0 < N := List.mem_range.mp h0
    have key : ∀ y, Relation.ReflTransGen (s.edge (List.range N)) 0 y → y < N ∧ y ≤ k := by
      intro y hy
      induction hy with
      | refl => exact ⟨h0N, Nat.zero_le _⟩
      | @tail u v _ huv ih =>
        have hv : v < N := List.mem_range.mp huv.2
        obtain ⟨h1, h2, -⟩ := (hadj u v ih.1 hv).mp huv.1
        have arith : ∀ a b : Nat, (b + 1 = a ∨ b = a + 1) → ¬ (a = k ∧ b = k + 1) → a ≤ k →
            b ≤ k := by
          intro a b; omega
        exact ⟨hv, arith u v h1 h2 ih.2⟩
    exact (key x hr).2
  · intro hxk
    have key : ∀ n, n ≤ k → n < N → s.reach (List.range N) 0 n := by
      intro n
      induction n with
      | zero => intro _ h; exact s.reach_refl _ 0 (List.mem_range.mpr h)
      | succ n ih =>
        intro h1 h2
        obtain ⟨h0, hr⟩ := ih (by omega) (by omega)
        refine ⟨h0, Relation.ReflTransGen.tail hr ⟨?_, List.mem_range.mpr h2⟩⟩
        rw [hadj n (n + 1) (by omega) h2]
        omega
    exact key x hxk hx

/-- C3 (amended). Chain disconnection: take a linear chain of `N ≥ 2` frozen
chunks `0..N-1` joined sequentially in which only chunk 0 is an anchor, the
joints of node `k` towards chunk `k + 1` broken and node `k` flagged as having
broken links.  One call of `chunk_graph_manager::update()` returns the scene
unchanged, because its body is commented out.  Running that commented-out body
(`cleanBrokenLinks` on every flagged node, then `searchGraph(nodes)`) leaves
chunks `0..k` frozen and outside the unfreeze queue, and unfreezes exactly the
chunks `k+1..N-1`: their handles are in the queue and their frozen flag is
false. -/
theorem update_chain_disconnection (N k : Nat) (hk : k + 1 < N) (m : chunk_graph_manager)
    (s : escene) (hnodes : m.nodes = List.range N) (hnb : m.nbNodes = N)
    (hq : s.unfreezeBlastQueue = ∅)
    (hchain : ∀ i < N, (s.rigidbodies i).isSome ∧ ∃ c, s.chunk_nodes i = some c ∧
      c.handle = i ∧ c.frozen = true ∧ c.isKinematic = decide (i = 0) ∧
      c.hasBrokenLinks = decide (i = k) ∧
      ∀ j : Nat, j ∈ c.neighbours ↔ j < N ∧ (j + 1 = i ∨ j = i + 1))
    (hbreak : ∃ c, s.chunk_nodes k = some c ∧ (c.jointToChunk.map Prod.fst).Nodup ∧
      (∃ p ∈ c.jointToChunk, (s.jointHeap p.1).joint = some true) ∧
      ∀ p ∈ c.jointToChunk, (s.jointHeap p.1).joint = some true → p.2 = k + 1) :
    m.update s = some s ∧
    ∃ t, m.updateDisabledBody s = some t ∧
      ∀ i < N, ∃ c, t.chunk_nodes i = some c ∧
        (i ≤ k → c.frozen = true ∧ i ∉ t.unfreezeBlastQueue) ∧
        (k < i → c.frozen = false ∧ i ∈ t.unfreezeBlastQueue) := by
  refine ⟨rfl, ?_⟩
  have hkN : k < N := by omega
  obtain ⟨ck, hck, hnd, ⟨p0, hp0, hp0b⟩, honly⟩ := hbreak
  obtain ⟨-, ck2, hck2, hkh, -, -, -, -⟩ := hchain k hkN
  rw [hck] at hck2; cases hck2
  -- the repair of node `k`
  obtain ⟨u, d, f, hd, hclean, -, adj⟩ := chunk_node.cleanBrokenLinks_spec k s ck hck hkh hnd (by
    intro p hp hb
    rw [honly p hp hb]
    obtain ⟨-, c, hc, -⟩ := hchain (k + 1) hk
    simp [hc])
  have hB : ∀ z, (∃ p ∈ ck.jointToChunk, (s.jointHeap p.1).joint = some true ∧ p.2 = z) ↔
      z = k + 1 := by
    intro z
    constructor
    · rintro ⟨p, hp, hb, rfl⟩
      exact honly p hp hb
    · rintro rfl
      exact ⟨p0, hp0, hp0b, honly p0 hp0 hp0b⟩
  simp only [hB] at adj
  generalize hs1 : u.setNode k { d with hasBrokenLinks := false } = s1 at hclean
  have hs1n : ∀ x, s1.chunk_nodes x =
      if x = k then some { d with hasBrokenLinks := false } else u.chunk_nodes x := by
    intro x; rw [← hs1, escene.setNode_nodes]
  have hs1rb : s1.rigidbodies = s.rigidbodies := by
    rw [← hs1]
    show u.rigidbodies = s.rigidbodies
    exact escene.sameFrame_rigidbodies f
  have hs1q : s1.unfreezeBlastQueue = ∅ := by
    rw [← hs1, ← hq]
    show u.unfreezeBlastQueue = s.unfreezeBlastQueue
    exact escene.sameFrame_queue f
  have hs1adj : ∀ x y, s1.adjacent x y ↔ s.adjacent x y ∧ ¬ (x = k ∧ y = k + 1) ∧
      ¬ (y = k ∧ x = k + 1) := by
    intro x y
    rw [← adj]
    simp only [escene.adjacent, hs1n]
    by_cases hx : x = k
    · subst hx; simp [hd]
    · simp [hx]
  have hnode1 : ∀ i < N, ∃ c, s1.chunk_nodes i = some c ∧ c.handle = i ∧ c.frozen = true ∧
      c.isKinematic = decide (i = 0) ∧ c.hasBrokenLinks = false := by
    intro i hi
    obtain ⟨-, c, hc, h1, h2, h3, h4, -⟩ := hchain i hi
    obtain ⟨c2, hc2, q1, q2, q3, -, q5⟩ := (f.2 i).2 c hc
    by_cases hik : i = k
    · subst hik
      rw [hd] at hc2; cases hc2
      exact ⟨{ d with hasBrokenLinks := false }, by rw [hs1n, if_pos rfl], q1.trans h1,
        q2.trans h2, q3.trans h3, rfl⟩
    · refine ⟨c2, by rw [hs1n, if_neg hik, hc2], q1.trans h1, q2.trans h2, q3.trans h3, ?_⟩
      rw [q5, h4]
      simpa using hik
  -- the loop over the nodes
  have htake : m.nodes.take m.nbNodes = List.range N := by
    rw [hnodes, hnb]
    exact List.take_of_length_le (by simp)
  have hfold : (m.nodes.take m.nbNodes).foldlM chunk_graph_manager.repairNode (false, s) =
      some (true, s1) := by
    rw [htake]
    apply chunk_graph_manager.repair_single k (List.range N) false s s1
      (List.mem_range.mpr hkN) (List.nodup_range N) _ hclean
    · intro i hi
      obtain ⟨c, hc, -, -, -, h5⟩ := hnode1 i (List.mem_range.mp hi)
      exact ⟨c, hc, h5⟩
    · intro i hi
      obtain ⟨-, c, hc, -, -, -, h4, -⟩ := hchain i (List.mem_range.mp hi)
      exact ⟨c, hc, h4⟩
  -- the search
  have hlen : m.nbNodes ≤ m.nodes.length := by rw [hnodes, hnb]; simp
  obtain ⟨targets, htg, hx⟩ := chunk_graph_manager.searchTargets_spec m s1 m.nodes hlen (by
    rw [htake]
    intro o ho
    obtain ⟨c, hc, -⟩ := hnode1 o (List.mem_range.mp ho)
    simp [hc])
  rw [htake] at hx
  have hanchor : ∀ a, a < N → (s1.isAnchor a = true ↔ a = 0) := by
    intro a ha
    obtain ⟨c, hc, -, -, h3, -⟩ := hnode1 a ha
    have hrb := (hchain a ha).1
    rw [← hs1rb] at hrb
    simp [escene.isAnchor, hc, h3, hrb]
  have hreach : ∀ x, x < N → (s1.reach (List.range N) 0 x ↔ x ≤ k) := by
    intro x hxN
    apply escene.chain_reach s1 N k _ x hxN
    intro a b ha hb
    rw [hs1adj]
    obtain ⟨-, c, hc, -, -, -, -, hnb⟩ := hchain a ha
    have : s.adjacent a b ↔ (b + 1 = a ∨ b = a + 1) := by
      simp only [escene.adjacent, hc, Option.some.injEq, exists_eq_left', hnb, hb, true_and]
    rw [this]
  have htargets : ∀ x : Nat, x ∈ targets ↔ x < N ∧ k < x := by
    intro x
    rw [hx, List.mem_range]
    apply and_congr_right
    intro hxN
    constructor
    · intro h
      by_contra hle
      apply h
      refine ⟨0, ⟨List.mem_range.mpr (by omega), (hanchor 0 (by omega)).mpr rfl⟩, ?_⟩
      exact (hreach x hxN).mpr (by omega)
    · rintro hkx ⟨a, ⟨haN, haA⟩, hr⟩
      have ha0 := (hanchor a (List.mem_range.mp haN)).mp haA
      subst ha0
      have := (hreach x hxN).mp hr
      omega
  obtain ⟨t, hfold2, q, -, n⟩ := chunk_node.unfreeze_fold targets s1 (by
    intro x hxt
    obtain ⟨c, hc, hh, -⟩ := hnode1 x ((htargets x).mp hxt).1
    exact ⟨c, hc, hh⟩)
  refine ⟨t, ?_, ?_⟩
  · unfold chunk_graph_manager.updateDisabledBody
    rw [if_neg (by omega), hfold]
    simp only [if_true, chunk_graph_manager.searchGraph, htg, hfold2]
  · intro i hi
    obtain ⟨c, hc, -, hfr, -⟩ := hnode1 i hi
    by_cases hik : i ≤ k
    · have hit : i ∉ targets := by
        rw [htargets]; omega
      refine ⟨c, by rw [n]; simp [hit, hc], fun _ => ⟨hfr, ?_⟩, fun h => by omega⟩
      rw [q, hs1q]
      simp [hit]
    · have hit : i ∈ targets := by
        rw [htargets]; omega
      refine ⟨{ c with frozen := false }, by rw [n]; simp [hit, hc, hs1q],
        fun h => absurd h hik, fun _ => ⟨rfl, ?_⟩⟩
      rw [q]
      simp [hit]

/-- Instance of the amended C3 at the example chain of four chunks with the joint between
chunks 1 and 2 broken. -/
theorem update_chain_disconnection_witness :
    exampleGraph.1.update brokenScene = some brokenScene ∧
    ∃ t, exampleGraph.1.updateDisabledBody brokenScene = some t ∧
      ∀ i < 4, ∃ c, t.chunk_nodes i = some c ∧
        (i ≤ 1 → c.frozen = true ∧ i ∉ t.unfreezeBlastQueue) ∧
        (1 < i → c.frozen = false ∧ i ∈ t.unfreezeBlastQueue) :=
  update_chain_disconnection 4 1 (by decide) exampleGraph.1 brokenScene (by decide) (by decide)
    (by decide)
    (by
      intro i hi
      interval_cases i
      · refine ⟨rfl, _, rfl, rfl, rfl, rfl, rfl, fun j => ?_⟩
        show j ∈ ([1] : List Nat) ↔ _
        simp only [List.mem_singleton]
        omega
      · refine ⟨rfl, _, rfl, rfl, rfl, rfl, rfl, fun j => ?_⟩
        show j ∈ ([0, 2] : List Nat) ↔ _
        simp only [List.mem_cons, List.mem_singleton, List.not_mem_nil, or_false]
        omega
      · refine ⟨rfl, _, rfl, rfl, rfl, rfl, rfl, fun j => ?_⟩
        show j ∈ ([1, 3] : List Nat) ↔ _
        simp only [List.mem_cons, List.mem_singleton, List.not_mem_nil, or_false]
        omega
      · refine ⟨rfl, _, rfl, rfl, rfl, rfl, rfl, fun j => ?_⟩
        show j ∈ ([2] : List Nat) ↔ _
        simp only [List.mem_singleton]
        omega)
    ⟨_, rfl, by decide, ⟨(1, 2), by decide, by decide⟩, by decide⟩

/-- C3 (counterexample). In the example chain `0 - 1 - 2 - 3` anchored at chunk 0,
with the joint between chunks 1 and 2 broken and node 1 flagged, it is not the
case that one call of `chunk_graph_manager::update()` unfreezes chunks 2 and 3:
the call returns the scene unchanged, with chunks 2 and 3 frozen and the
unfreeze queue empty. -/
theorem update_chain_counterexample :
    exampleGraph.1.nodes = [0, 1, 2, 3] ∧
    (brokenScene.chunk_nodes 1).map (fun c => (c.hasBrokenLinks, c.jointToChunk)) =
      some (true, [(1, 2)]) ∧
    (brokenScene.jointHeap 1).joint = some true ∧
    exampleGraph.1.update brokenScene = some brokenScene ∧
    ¬ ∃ t, exampleGraph.1.update brokenScene = some t ∧
      ∀ i, 1 < i → i < 4 →
        i ∈ t.unfreezeBlastQueue ∧ (t.chunk_nodes i).map (fun c => c.frozen) = some false := by
  refine ⟨by decide, by decide, by decide, rfl, ?_⟩
  rintro ⟨t, ht, h⟩
  have ht2 : t = brokenScene := by
    have : some brokenScene = some t := ht
    exact (Option.some.inj this).symm
  subst ht2
  have h2 := (h 2 (by decide) (by decide)).2
  revert h2
  decide

theorem escene.grownBy_nil (s : escene) : s.grownBy s [] := by
  refine ⟨rfl, rfl, by simp, by simp, by simp, by simp, by simp, by simp⟩

theorem buildChunk_grownBy (px : px_physics_engine) (s : escene) (transform : trs)
    (mesh : submesh_asset × nvmesh) (mass : ℚ) (generation : Nat) :
    (buildChunk px s transform mesh mass generation).2 = s.nextEntity ∧
      s.grownBy (buildChunk px s transform mesh mass generation).1 [s.nextEntity] := by
  refine ⟨rfl, rfl, rfl, rfl, ?_, ?_, ?_, ?_, ?_⟩
  · intro x
    simp only [buildChunk, escene.createEntity, Function.update_apply, List.mem_singleton]
  · intro x hx
    simp only [List.mem_singleton] at hx
    simp [buildChunk, escene.createEntity, Function.update_apply, hx]
  · intro x hx
    simp only [List.mem_singleton] at hx
    simp [buildChunk, escene.createEntity, Function.update_apply, hx]
  · intro x hx
    simp only [List.mem_singleton] at hx
    simp [buildChunk, escene.createEntity, Function.update_apply, hx]
  · intro x hx
    simp only [List.mem_singleton] at hx
    simp [buildChunk, escene.createEntity, Function.update_apply, hx]

theorem escene.grownBy_trans {s u t : escene} {h1 h2 : List entity_handle}
    (a : s.grownBy u h1) (b : u.grownBy t h2) : s.grownBy t (h1 ++ h2) := by
  obtain ⟨a1, a2, a3, a4, a5, a6, a7, a8⟩ := a
  obtain ⟨b1, b2, b3, b4, b5, b6, b7, b8⟩ := b
  have hdisj : ∀ x, x ∈ h2 → x ∉ h1 := by
    intro x hx2 hx1
    rw [a1] at hx1
    rw [b1, a2] at hx2
    have q1 := (List.mem_range'_1.mp hx1).2
    have q2 := (List.mem_range'_1.mp hx2).1
    unfold entity_handle at *
    omega
  refine ⟨?_, ?_, ?_, ?_, ?_, ?_, ?_, ?_⟩
  · have e1 : List.range' s.nextEntity h1.length ++
        List.range' (s.nextEntity + h1.length) h2.length = h1 ++ h2 := by
      rw [← a1, ← a2, ← b1]
    rw [← e1, List.range'_append_1, List.length_range']
  · rw [b2, a2, List.length_append, Nat.add_assoc]
  · rw [b3, a3, List.append_assoc]
  · intro x
    rw [b4, a4]
    simp only [List.mem_append]
    by_cases hx2 : x ∈ h2
    · simp [hx2]
    · simp [hx2]
  · intro x hx
    simp only [List.mem_append, not_or] at hx
    rw [b5 x hx.2, a5 x hx.1]
  · intro x hx
    rcases List.mem_append.mp hx with h | h
    · by_cases hx2 : x ∈ h2
      · exact b6 x hx2
      · rw [b5 x hx2]; exact a6 x h
    · exact b6 x h
  · intro x hx
    simp only [List.mem_append, not_or] at hx
    rw [b7 x hx.2, a7 x hx.1]
  · intro x hx
    rcases List.mem_append.mp hx with h | h
    · by_cases hx2 : x ∈ h2
      · exact b8 x hx2
      · rw [b7 x hx2]; exact a8 x h
    · exact b8 x h

theorem buildChunks_fold (px : px_physics_engine) (transform : trs) (chunkMass : ℚ)
    (generation : Nat) (meshes : List (submesh_asset × nvmesh)) :
    ∀ (acc : escene × List entity_handle),
      ∃ hs, (meshes.foldl
          (fun acc mesh =>
            let r := buildChunk px acc.1 transform mesh chunkMass generation
            (r.1, acc.2 ++ [r.2])) acc).2 = acc.2 ++ hs ∧
        hs.length = meshes.length ∧
        acc.1.grownBy (meshes.foldl
          (fun acc mesh =>
            let r := buildChunk px acc.1 transform mesh chunkMass generation
            (r.1, acc.2 ++ [r.2])) acc).1 hs := by
  induction meshes with
  | nil => intro acc; exact ⟨[], by simp, rfl, acc.1.grownBy_nil⟩
  | cons mesh meshes ih =>
    intro acc
    obtain ⟨g1, g2⟩ := buildChunk_grownBy px acc.1 transform mesh chunkMass generation
    obtain ⟨hs, h1, h2, h3⟩ := ih
      ((buildChunk px acc.1 transform mesh chunkMass generation).1,
        acc.2 ++ [(buildChunk px acc.1 transform mesh chunkMass generation).2])
    refine ⟨acc.1.nextEntity :: hs, ?_, by simp [h2], ?_⟩
    · rw [List.foldl_cons, h1, g1, List.append_assoc]
      rfl
    · rw [List.foldl_cons]
      exact escene.grownBy_trans g2 h3

theorem buildChunks_spec (px : px_physics_engine) (s : escene) (transform : trs)
    (meshes : List (submesh_asset × nvmesh)) (chunkMass : ℚ) (generation : Nat) :
    (buildChunks px s transform meshes chunkMass generation).2.length = meshes.length ∧
      s.grownBy (buildChunks px s transform meshes chunkMass generation).1
        (buildChunks px s transform meshes chunkMass generation).2 := by
  obtain ⟨hs, h1, h2, h3⟩ := buildChunks_fold px transform chunkMass generation meshes (s, [])
  unfold buildChunks
  simp only [List.nil_append] at h1
  rw [h1]
  exact ⟨h2, h3⟩

theorem chunk_graph_manager.setup_fresh (m : chunk_graph_manager) (s : escene)
    (bodies : List entity_handle) (generation : Nat)
    (hfresh : ∀ b ∈ bodies, s.chunk_nodes b = none)
    (hrb : ∀ b ∈ bodies, (s.rigidbodies b).isSome)
    (htgt : ∀ b ∈ bodies, ∀ y ∈ m.targets s b, y ∈ bodies) :
    ∃ r, m.setup s bodies generation = some r ∧
      r.2 = { s with chunk_nodes := r.2.chunk_nodes } ∧
      (∀ b ∈ bodies, ∃ d, r.2.chunk_nodes b = some d ∧
        (chunk_node.mk2 b generation).sameCore d) ∧
      (∀ x, x ∉ bodies → (s.chunk_nodes x = none → r.2.chunk_nodes x = none) ∧
        ∀ c, s.chunk_nodes x = some c → ∃ d, r.2.chunk_nodes x = some d ∧ c.sameCore d) := by
  have hw := chunk_graph_manager.attach_wired generation bodies s hfresh
  obtain ⟨e1, n1⟩ := chunk_graph_manager.attach_fold generation bodies s
  have hsome : (m.setup s bodies generation).isSome := by
    unfold chunk_graph_manager.setup
    apply chunk_graph_manager.wire_fold_some bodies bodies _ (fun b hb => hb) hw
    · intro b hb
      show ((bodies.foldl (chunk_graph_manager.attach generation) s).rigidbodies b).isSome
      rw [e1]
      exact hrb b hb
    · intro b hb y hy
      have hjh : (bodies.foldl (chunk_graph_manager.attach generation) s).jointHeap = s.jointHeap := by
        rw [e1]
      have hy2 : y ∈ bodies := by
        apply htgt b hb
        simpa [chunk_graph_manager.targets, hjh] using hy
      obtain ⟨c, hc, -⟩ := hw.1 y hy2
      show ((bodies.foldl (chunk_graph_manager.attach generation) s).chunk_nodes y).isSome
      simp [hc]
  obtain ⟨r, hr⟩ := Option.isSome_iff_exists.mp hsome
  refine ⟨r, hr, ?_, ?_, ?_⟩
  · unfold chunk_graph_manager.setup at hr
    obtain ⟨-, f, -, -, -⟩ := chunk_graph_manager.wire_fold_spec bodies bodies _ r
      (fun b hb => hb) hw hr
    have h1 := f.1
    simp only at h1
    rw [h1, e1]
  · intro b hb
    unfold chunk_graph_manager.setup at hr
    obtain ⟨-, f, -, -, -⟩ := chunk_graph_manager.wire_fold_spec bodies bodies _ r
      (fun b hb => hb) hw hr
    have hb1 : (bodies.foldl (chunk_graph_manager.attach generation) s).chunk_nodes b =
        some (chunk_node.mk2 b generation) := by
      rw [n1, hfresh b hb]; simp [hb]
    exact (f.2 b).2 _ hb1
  · intro x hx
    unfold chunk_graph_manager.setup at hr
    obtain ⟨-, f, -, -, -⟩ := chunk_graph_manager.wire_fold_spec bodies bodies _ r
      (fun b hb => hb) hw hr
    have hx1 : (bodies.foldl (chunk_graph_manager.attach generation) s).chunk_nodes x =
        s.chunk_nodes x := by
      rw [n1]
      cases s.chunk_nodes x <;> simp [hx]
    constructor
    · intro h
      exact (f.2 x).1 (by rw [hx1, h])
    · intro c h
      exact (f.2 x).2 c (by rw [hx1, h])

theorem chunk_node.processDamage_active (px : px_physics_engine) (s : escene) (e : entity_handle)
    (impulse : vec3) (c : chunk_node) (mesh : nvmesh)
    (hc : s.chunk_nodes e = some c) (hh : c.handle = e) (he : e < s.nextEntity)
    (hmesh : s.nvmesh_chunks e = some mesh)
    (hgen : c.spliteGeneration < maxSpliteGeneration) (himp : px.magnitude impulse > 5)
    (hne : s.registrySize ≠ 0) :
    ∃ t chunks, chunk_node.processDamage px s e impulse = some t ∧
      chunks = List.range' (s.nextEntity + 1) (px.fractureMeshesInNvblast 5 mesh false).length ∧
      t.nextEntity = s.nextEntity + 1 + chunks.length ∧
      t.entities = (s.entities ++ [s.nextEntity] ++ chunks).filter (fun x => x != e) ∧
      t.chunk_nodes e = none ∧ t.chunk_nodes s.nextEntity = none ∧
      (∀ ch ∈ chunks, (t.nvmesh_chunks ch).isSome ∧ ∃ d, t.chunk_nodes ch = some d ∧
        d.handle = ch ∧ d.spliteGeneration = c.spliteGeneration + 1) ∧
      (∀ x, x ≠ e → x ≠ s.nextEntity → x ∉ chunks →
        t.nvmesh_chunks x = s.nvmesh_chunks x ∧
        (s.chunk_nodes x = none → t.chunk_nodes x = none) ∧
        ∀ c0, s.chunk_nodes x = some c0 → ∃ d, t.chunk_nodes x = some d ∧ c0.sameCore d) := by
  subst hh
  have hef : c.handle ≠ s.nextEntity := by
    unfold entity_handle at *
    omega
  -- the placeholder entity and its components
  have hroot : s.createFractureRoot.2 = s.nextEntity := rfl
  generalize hs1 : s.createFractureRoot.1 = s1
  have s1next : s1.nextEntity = s.nextEntity + 1 := by rw [← hs1]; rfl
  have s1ent : s1.entities = s.entities ++ [s.nextEntity] := by rw [← hs1]; rfl
  have s1node : ∀ x, s1.chunk_nodes x = if x = s.nextEntity then none else s.chunk_nodes x := by
    intro x; rw [← hs1]
    simp [escene.createFractureRoot, escene.createEntity, Function.update_apply]
  have s1mesh : ∀ x, s1.nvmesh_chunks x =
      if x = s.nextEntity then none else s.nvmesh_chunks x := by
    intro x; rw [← hs1]
    simp [escene.createFractureRoot, escene.createEntity, Function.update_apply]
  -- the children
  obtain ⟨blen, bg⟩ := buildChunks_spec px s1
    ((s1.transforms c.handle).getD trs.identity) (px.fractureMeshesInNvblast 5 mesh false)
    (15 / 2) 0
  generalize hb : buildChunks px s1 ((s1.transforms c.handle).getD trs.identity)
    (px.fractureMeshesInNvblast 5 mesh false) (15 / 2) 0 = b at blen bg
  obtain ⟨g1, g2, g3, g4, g5, g6, g7, g8⟩ := bg
  rw [s1next, blen] at g1
  have hchunk_gt : ∀ ch ∈ b.2, s.nextEntity < ch := by
    intro ch hch
    rw [g1] at hch
    have := (List.mem_range'_1.mp hch).1
    unfold entity_handle at *
    omega
  have hchunk_ne : ∀ ch ∈ b.2, ch ≠ c.handle := by
    intro ch hch h
    have := hchunk_gt ch hch
    rw [h] at this
    unfold entity_handle at *
    omega
  -- the new graph
  obtain ⟨r, hr, r1, r2, r3⟩ := chunk_graph_manager.setup_fresh {}
    (b.1.setNode c.handle { c with spliteGeneration := c.spliteGeneration + 1 }) b.2
    (c.spliteGeneration + 1)
    (by
      intro ch hch
      rw [escene.setNode_nodes, if_neg (hchunk_ne ch hch), g4]
      simp [hch])
    (by
      intro ch hch
      exact g6 ch hch)
    (by
      intro ch _ y hy
      simp [chunk_graph_manager.targets] at hy)
  obtain ⟨gm, s3⟩ := r
  simp only at r1 r2 r3
  refine ⟨({ s3 with managers := Function.update s3.managers s.nextEntity (some gm) } :
    escene).deleteEntity c.handle, b.2, ?_, g1, ?_, ?_, ?_, ?_, ?_, ?_⟩
  · unfold chunk_node.processDamage
    simp only [hc, hgen, himp, hne, if_true, if_false]
    rw [hs1, hroot]
    have : s1.nvmesh_chunks c.handle = some mesh := by rw [s1mesh, if_neg hef, hmesh]
    simp only [this, hb, hr]
  · show s3.nextEntity = _
    rw [r1]
    show b.1.nextEntity = _
    rw [g2, s1next]
  · show s3.entities.filter _ = _
    rw [r1]
    show b.1.entities.filter _ = _
    rw [g3, s1ent]
  · simp [escene.deleteEntity]
  · simp only [escene.deleteEntity, Function.update_apply]
    split
    · rfl
    · have hf : s.nextEntity ∉ b.2 := fun h => Nat.lt_irrefl _ (hchunk_gt _ h)
      apply (r3 _ hf).1
      rw [escene.setNode_nodes, if_neg (Ne.symm hef), g4, if_neg hf, s1node, if_pos rfl]
  · intro ch hch
    have hne2 := hchunk_ne ch hch
    obtain ⟨d, hd, hcore⟩ := r2 ch hch
    refine ⟨?_, d, ?_, hcore.1, hcore.2.2.2.1⟩
    · simp only [escene.deleteEntity, Function.update_apply, hne2, if_false]
      rw [r1]
      exact g8 ch hch
    · simp only [escene.deleteEntity, Function.update_apply, hne2, if_false]
      exact hd
  · intro x hxe hxf hxc
    refine ⟨?_, ?_, ?_⟩
    · simp only [escene.deleteEntity, Function.update_apply, hxe, if_false]
      rw [r1]
      show b.1.nvmesh_chunks x = _
      rw [g7 x hxc, s1mesh, if_neg hxf]
    · intro h
      simp only [escene.deleteEntity, Function.update_apply, hxe, if_false]
      apply (r3 x hxc).1
      rw [escene.setNode_nodes, if_neg hxe, g4, if_neg hxc, s1node, if_neg hxf, h]
    · intro c0 h
      simp only [escene.deleteEntity, Function.update_apply, hxe, if_false]
      apply (r3 x hxc).2
      rw [escene.setNode_nodes, if_neg hxe, g4, if_neg hxc, s1node, if_neg hxf, h]

theorem chunk_node.processDamage_guard (px : px_physics_engine) (s : escene) (e : entity_handle)
    (impulse : vec3) (c : chunk_node) (hc : s.chunk_nodes e = some c)
    (h : ¬ (c.spliteGeneration < maxSpliteGeneration ∧ px.magnitude impulse > 5)) :
    chunk_node.processDamage px s e impulse = some s := by
  unfold chunk_node.processDamage
  simp only [hc]
  by_cases hg : c.spliteGeneration < maxSpliteGeneration
  · rw [if_pos hg, if_neg (fun hm => h ⟨hg, hm⟩)]
  · rw [if_neg hg]

/-- C8. Generation ceiling and threshold no-op: when the generation of the node
has reached `maxSpliteGeneration`, or the magnitude of the impulse is not
greater than 5, `processDamage` returns the scene it was given: no entity is
created or deleted, no graph is set up, and the generation of the node is
unchanged. -/
theorem processDamage_noop (px : px_physics_engine) (s : escene) (e : entity_handle)
    (impulse : vec3) (c : chunk_node) (hc : s.chunk_nodes e = some c)
    (h : maxSpliteGeneration ≤ c.spliteGeneration ∨ ¬ px.magnitude impulse > 5) :
    chunk_node.processDamage px s e impulse = some s := by
  apply chunk_node.processDamage_guard px s e impulse c hc
  rintro ⟨hg, hm⟩
  rcases h with h | h
  · exact Nat.lt_irrefl _ (Nat.lt_of_lt_of_le hg h)
  · exact h hm

/-- C9. Children are one generation deeper: for a chunk node of generation
`g < maxSpliteGeneration` in a non-empty, well-formed scene and an impulse of
magnitude greater than 5, `processDamage` returns; the chunk is no longer in
the scene; there is one new chunk per mesh the fracture kernel returned, each a
new entity of the scene whose chunk node, attached by the setup of the new
graph, has generation `g + 1`; and every other chunk node of the resulting scene
has the generation it had before. -/
theorem processDamage_children_generation (px : px_physics_engine) (s : escene)
    (e : entity_handle) (impulse : vec3) (c : chunk_node) (mesh : nvmesh)
    (hc : s.chunk_nodes e = some c) (hh : c.handle = e) (he : e < s.nextEntity)
    (hwf : ∀ x ∈ s.entities, x < s.nextEntity) (hmesh : s.nvmesh_chunks e = some mesh)
    (hgen : c.spliteGeneration < maxSpliteGeneration) (himp : px.magnitude impulse > 5)
    (hne : s.registrySize ≠ 0) :
    ∃ (t : escene) (chunks : List entity_handle),
      chunk_node.processDamage px s e impulse = some t ∧
      e ∉ t.entities ∧ t.chunk_nodes e = none ∧
      chunks.length = (px.fractureMeshesInNvblast 5 mesh false).length ∧
      (∀ ch ∈ chunks, ch ∉ s.entities ∧ ch ∈ t.entities ∧
        ∃ d, t.chunk_nodes ch = some d ∧ d.spliteGeneration = c.spliteGeneration + 1) ∧
      (∀ x d, t.chunk_nodes x = some d → x ∈ chunks ∨
        ∃ d0, s.chunk_nodes x = some d0 ∧ d.spliteGeneration = d0.spliteGeneration) := by
  obtain ⟨t, chunks, ht, hchunks, -, hent, hnode_e, hnode_f, hnew, hold⟩ :=
    chunk_node.processDamage_active px s e impulse c mesh hc hh he hmesh hgen himp hne
  have hgt : ∀ ch ∈ chunks, s.nextEntity < ch := by
    intro ch hch
    rw [hchunks] at hch
    have := (List.mem_range'_1.mp hch).1
    unfold entity_handle at *
    omega
  refine ⟨t, chunks, ht, ?_, hnode_e, ?_, ?_, ?_⟩
  · rw [hent]
    simp
  · rw [hchunks, List.length_range']
  · intro ch hch
    have h1 := hgt ch hch
    refine ⟨?_, ?_, ?_⟩
    · intro hin
      have := hwf ch hin
      unfold entity_handle at *
      omega
    · rw [hent]
      refine List.mem_filter.mpr ⟨by simp [hch], ?_⟩
      have : ch ≠ e := by
        intro h
        rw [h] at h1
        unfold entity_handle at *
        omega
      simpa using this
    · obtain ⟨-, d, hd, -, hg⟩ := hnew ch hch
      exact ⟨d, hd, hg⟩
  · intro x d hx
    by_cases hxc : x ∈ chunks
    · exact Or.inl hxc
    · right
      have hxe : x ≠ e := by
        rintro rfl
        rw [hnode_e] at hx; cases hx
      have hxf : x ≠ s.nextEntity := by
        rintro rfl
        rw [hnode_f] at hx; cases hx
      obtain ⟨-, h1, h2⟩ := hold x hxe hxf hxc
      cases hs : s.chunk_nodes x with
      | none => rw [h1 hs] at hx; cases hx
      | some d0 =>
        obtain ⟨d1, hd1, hcore⟩ := h2 d0 hs
        rw [hd1] at hx; cases hx
        exact ⟨d0, rfl, hcore.2.2.2.1⟩

theorem escene.chunksWellFormed_iff (s : escene) :
    s.chunksWellFormed = true ↔
      ∀ x ∈ s.entities, x < s.nextEntity ∧ ∀ d, s.chunk_nodes x = some d →
        d.handle = x ∧ (s.nvmesh_chunks x).isSome ∧ d.spliteGeneration ≤ maxSpliteGeneration := by
  unfold escene.chunksWellFormed
  rw [List.all_eq_true]
  apply forall_congr'
  intro x
  apply imp_congr_right
  intro _
  cases hx : s.chunk_nodes x with
  | none => simp
  | some d => simp [and_assoc]

theorem damageEvent_wellFormed (s : escene) (call : px_physics_engine × entity_handle × vec3)
    (hwf : s.chunksWellFormed = true) :
    ∃ t, damageEvent s call = some t ∧ t.chunksWellFormed = true := by
  obtain ⟨px, e, impulse⟩ := call
  unfold damageEvent
  simp only
  by_cases hin : e ∈ s.entities
  swap
  · exact ⟨s, by rw [if_neg hin], hwf⟩
  rw [if_pos hin]
  cases hc : s.chunk_nodes e with
  | none => exact ⟨s, rfl, hwf⟩
  | some c =>
    simp only
    have hW := (escene.chunksWellFormed_iff s).mp hwf
    obtain ⟨he, hnode⟩ := hW e hin
    obtain ⟨hh, hmesh, hg⟩ := hnode c hc
    by_cases hact : c.spliteGeneration < maxSpliteGeneration ∧ px.magnitude impulse > 5
    swap
    · exact ⟨s, chunk_node.processDamage_guard px s e impulse c hc hact, hwf⟩
    obtain ⟨hgen, himp⟩ := hact
    obtain ⟨mesh, hmesh⟩ := Option.isSome_iff_exists.mp hmesh
    have hne : s.registrySize ≠ 0 := by
      unfold escene.registrySize
      intro h0
      rw [List.length_eq_zero] at h0
      rw [h0] at hin
      cases hin
    obtain ⟨t, chunks, ht, hchunks, hnext, hent, hnode_e, hnode_f, hnew, hold⟩ :=
      chunk_node.processDamage_active px s e impulse c mesh hc hh he hmesh hgen himp hne
    refine ⟨t, ht, (escene.chunksWellFormed_iff t).mpr ?_⟩
    intro x hx
    rw [hent] at hx
    obtain ⟨hx1, hx2⟩ := List.mem_filter.mp hx
    have hxe : x ≠ e := by simpa using hx2
    have hgt : ∀ ch ∈ chunks, s.nextEntity < ch ∧ ch < t.nextEntity := by
      intro ch hch
      rw [hchunks] at hch
      have := List.mem_range'_1.mp hch
      rw [hnext, hchunks, List.length_range']
      unfold entity_handle at *
      omega
    have hlt : s.nextEntity < t.nextEntity := by
      rw [hnext]
      unfold entity_handle at *
      omega
    simp only [List.mem_append, List.mem_singleton] at hx1
    rcases hx1 with (hxs | hxf) | hxc
    · -- an entity that was already there
      obtain ⟨hxlt, hxnode⟩ := hW x hxs
      have hxf : x ≠ s.nextEntity := by
        intro h
        rw [h] at hxlt
        exact Nat.lt_irrefl _ hxlt
      have hxc : x ∉ chunks := by
        intro h
        have := (hgt x h).1
        unfold entity_handle at *
        omega
      obtain ⟨k1, k2, k3⟩ := hold x hxe hxf hxc
      refine ⟨Nat.lt_trans hxlt hlt, ?_⟩
      intro d hd
      cases hs : s.chunk_nodes x with
      | none => rw [k2 hs] at hd; cases hd
      | some d0 =>
        obtain ⟨d1, hd1, hcore⟩ := k3 d0 hs
        rw [hd1] at hd; cases hd
        obtain ⟨q1, q2, q3⟩ := hxnode d0 hs
        refine ⟨hcore.1.trans q1, by rw [k1]; exact q2, ?_⟩
        rw [hcore.2.2.2.1]
        exact q3
    · -- the placeholder entity
      subst hxf
      refine ⟨hlt, ?_⟩
      intro d hd
      rw [hnode_f] at hd; cases hd
    · -- a new chunk
      refine ⟨(hgt x hxc).2, ?_⟩
      intro d hd
      obtain ⟨m1, d1, hd1, m2, m3⟩ := hnew x hxc
      rw [hd1] at hd; cases hd
      refine ⟨m2, m1, ?_⟩
      rw [m3]
      exact hgen

/-- C10. Generation is bounded: from a well-formed scene whose chunk nodes have
generation at most `maxSpliteGeneration` (the chunks created by
`fractureGameObject` have generation 0), every sequence of damage events with
arbitrary impulses and arbitrary answers of the fracture kernel runs to
completion, and afterwards every chunk node in the scene has a generation of at
most `maxSpliteGeneration`, which is 3. -/
theorem generation_bounded (calls : List (px_physics_engine × entity_handle × vec3))
    (s : escene) (hwf : s.chunksWellFormed = true) :
    ∃ t, damageSequence calls s = some t ∧ t.chunksWellFormed = true ∧
      ∀ x ∈ t.entities, ∀ d, t.chunk_nodes x = some d → d.spliteGeneration ≤ 3 := by
  have key : ∀ (l : List (px_physics_engine × entity_handle × vec3)) (s : escene),
      s.chunksWellFormed = true →
      ∃ t, damageSequence l s = some t ∧ t.chunksWellFormed = true := by
    intro l
    induction l with
    | nil => intro s h; exact ⟨s, rfl, h⟩
    | cons call l ih =>
      intro s h
      obtain ⟨u, hu, hwu⟩ := damageEvent_wellFormed s call h
      obtain ⟨t, ht, hwt⟩ := ih u hwu
      refine ⟨t, ?_, hwt⟩
      unfold damageSequence at ht ⊢
      simp only [List.foldlM_cons, Option.bind_eq_bind, hu, Option.some_bind, ht]
  obtain ⟨t, ht, hwt⟩ := key calls s hwf
  refine ⟨t, ht, hwt, ?_⟩
  intro x hx d hd
  exact (((escene.chunksWellFormed_iff t).mp hwt x hx).2 d hd).2.2

/-- C7 (the code at the failing input). In the example world
`fractureGameObject` with the `Left` mask returns; the overlap query of
`anchorChunks` for the left face returns chunk 12; afterwards the rigid body of
chunk 12 is kinematic, but the kinematic flag of its chunk node is false, and
`searchGraph` over the new graph would call `unfreeze()` on it. -/
theorem anchorChunks_leaves_node_flag_unset :
    (fracture.fractureGameObject examplePhysics exampleWorld exampleMesh 10 anchor.Left 0 2 100
      1).isSome = true ∧
    fracturedWorld.2 = 11 ∧
    12 ∈ fracture.getAnchoredColliders examplePhysics anchor.Left {}
      (getCompositeMeshBounds fracturedWorld.1 11) ∧
    (fracturedWorld.1.rigidbodies 12).map (fun rb => rb.isKinematic) = some true ∧
    (fracturedWorld.1.chunk_nodes 12).map (fun c => c.isKinematic) = some false ∧
    (fracturedWorld.1.managers 11).bind
      (fun m => m.searchTargets fracturedWorld.1 m.nodes) = some [12, 13] := by
  refine ⟨by decide, by decide, by decide, by decide, by decide, by decide⟩

/-- Instance of C8: an impulse of magnitude exactly 5 on chunk 12 of the fractured example
world. -/
theorem processDamage_noop_witness :
    chunk_node.processDamage examplePhysics fracturedWorld.1 12 { x := 5 } =
      some fracturedWorld.1 := by
  obtain ⟨c, hc⟩ : ∃ c, fracturedWorld.1.chunk_nodes 12 = some c := ⟨_, rfl⟩
  exact processDamage_noop examplePhysics fracturedWorld.1 12 { x := 5 } c hc
    (Or.inr (by norm_num [examplePhysics]))

/-- Instance of C9: an impulse of magnitude 6 on chunk 12 of the fractured example world. -/
theorem processDamage_children_generation_witness :
    ∃ (t : escene) (chunks : List entity_handle),
      chunk_node.processDamage examplePhysics fracturedWorld.1 12 { x := 6 } = some t ∧
      12 ∉ t.entities ∧ t.chunk_nodes 12 = none ∧
      chunks.length = 2 ∧
      (∀ ch ∈ chunks, ch ∉ fracturedWorld.1.entities ∧ ch ∈ t.entities ∧
        ∃ d, t.chunk_nodes ch = some d ∧ d.spliteGeneration = 0 + 1) ∧
      (∀ x d, t.chunk_nodes x = some d → x ∈ chunks ∨
        ∃ d0, fracturedWorld.1.chunk_nodes x = some d0 ∧
          d.spliteGeneration = d0.spliteGeneration) := by
  obtain ⟨c, hc, hh, hg⟩ : ∃ c, fracturedWorld.1.chunk_nodes 12 = some c ∧ c.handle = 12 ∧
      c.spliteGeneration = 0 := ⟨_, rfl, rfl, rfl⟩
  obtain ⟨mesh, hmesh⟩ : ∃ mesh, fracturedWorld.1.nvmesh_chunks 12 = some mesh := ⟨_, rfl⟩
  have h := processDamage_children_generation examplePhysics fracturedWorld.1 12 { x := 6 } c
    mesh hc hh (by decide) (by decide) hmesh (by rw [hg]; decide)
    (by norm_num [examplePhysics]) (by decide)
  rw [hg] at h
  exact h

/-- Instance of C10: three damage events on the fractured example world. -/
theorem generation_bounded_witness :
    ∃ t, damageSequence [(examplePhysics, 12, { x := 6 }), (examplePhysics, 15, { x := 9 }),
        (examplePhysics, 13, { x := 2 })] fracturedWorld.1 = some t ∧
      t.chunksWellFormed = true ∧
      ∀ x ∈ t.entities, ∀ d, t.chunk_nodes x = some d → d.spliteGeneration ≤ 3 :=
  generation_bounded _ fracturedWorld.1 (by decide)

theorem and_two_pow_eq (x k : Nat) : x &&& 2 ^ k = if x.testBit k then 2 ^ k else 0 := by
  apply Nat.eq_of_testBit_eq
  intro i
  rw [Nat.testBit_and, Nat.testBit_two_pow]
  by_cases h : x.testBit k
  · rw [if_pos h, Nat.testBit_two_pow]
    by_cases hk : k = i
    · subst hk; simp [h]
    · simp [hk]
  · rw [if_neg h, Nat.zero_testBit]
    by_cases hk : k = i
    · subst hk; simp [h]
    · simp [hk]

theorem anchor.and_bit (m k : Nat) (hk : k < 8) : anchor.and m (2 ^ k) = m.testBit k := by
  unfold anchor.and
  rw [and_two_pow_eq]
  have h256 : 2 ^ k < 256 := by
    have : 2 ^ k < 2 ^ 8 := Nat.pow_lt_pow_right (by norm_num) hk
    simpa using this
  have hpos : 0 < 2 ^ k := Nat.pos_pow_of_pos k (by norm_num)
  by_cases h : m.testBit k
  · rw [if_pos h, Nat.mod_eq_of_lt h256, h]
    simp
  · rw [if_neg h]
    simp [h]

theorem anchor.or_bit (m1 m2 k : Nat) (hk : k < 8) :
    (anchor.or m1 m2).testBit k = (m1.testBit k || m2.testBit k) := by
  unfold anchor.or
  have : (256 : Nat) = 2 ^ 8 := by norm_num
  rw [this, Nat.testBit_mod_two_pow, Nat.testBit_or]
  simp [hk]


theorem mem_foldl_set_emplace (x : Nat) (l : List Nat) :
    ∀ acc : List Nat, x ∈ l.foldl set_emplace acc ↔ x ∈ acc ∨ x ∈ l := by
  induction l with
  | nil => intro acc; simp
  | cons y ys ih =>
    intro acc
    rw [List.foldl_cons, ih, mem_set_emplace, List.mem_cons]
    constructor
    · rintro ((h | h) | h)
      · exact Or.inl h
      · exact Or.inr (Or.inl h)
      · exact Or.inr (Or.inr h)
    · rintro (h | h | h)
      · exact Or.inl (Or.inl h)
      · exact Or.inl (Or.inr h)
      · exact Or.inr h

theorem fracture.mem_anchorFaces (px : px_physics_engine) (mask : Nat) (tr : trs) (b : bounds)
    (x : entity_handle) (faces : List Nat) :
    ∀ acc : List entity_handle,
      x ∈ faces.foldl (fracture.anchorFace px mask tr b) acc ↔
        x ∈ acc ∨ ∃ face ∈ faces, anchor.and mask face = true ∧ x ∈ px.overlapBox face tr b := by
  induction faces with
  | nil => intro acc; simp
  | cons f rest ih =>
    intro acc
    rw [List.foldl_cons, ih]
    unfold fracture.anchorFace
    by_cases hf : anchor.and mask f = true
    · rw [if_pos hf, mem_foldl_set_emplace]
      constructor
      · rintro ((h | h) | ⟨face, hface, h1, h2⟩)
        · exact Or.inl h
        · exact Or.inr ⟨f, List.mem_cons_self _ _, hf, h⟩
        · exact Or.inr ⟨face, List.mem_cons_of_mem _ hface, h1, h2⟩
      · rintro (h | ⟨face, hface, h1, h2⟩)
        · exact Or.inl (Or.inl h)
        · rcases List.mem_cons.1 hface with rfl | hface
          · exact Or.inl (Or.inr h2)
          · exact Or.inr ⟨face, hface, h1, h2⟩
    · rw [if_neg hf]
      constructor
      · rintro (h | ⟨face, hface, h1, h2⟩)
        · exact Or.inl h
        · exact Or.inr ⟨face, List.mem_cons_of_mem _ hface, h1, h2⟩
      · rintro (h | ⟨face, hface, h1, h2⟩)
        · exact Or.inl h
        · rcases List.mem_cons.1 hface with rfl | hface
          · exact absurd h1 hf
          · exact Or.inr ⟨face, hface, h1, h2⟩

theorem fracture.mem_getAnchoredColliders (px : px_physics_engine) (mask : Nat) (tr : trs)
    (b : bounds) (x : entity_handle) :
    x ∈ fracture.getAnchoredColliders px mask tr b ↔
      ∃ k < 6, mask.testBit k = true ∧ x ∈ px.overlapBox (2 ^ k) tr b := by
  unfold fracture.getAnchoredColliders
  rw [fracture.mem_anchorFaces]
  have e0 : anchor.Left = 2 ^ 0 := rfl
  have e1 : anchor.Right = 2 ^ 1 := rfl
  have e2 : anchor.Bottom = 2 ^ 2 := rfl
  have e3 : anchor.Top = 2 ^ 3 := rfl
  have e4 : anchor.Front = 2 ^ 4 := rfl
  have e5 : anchor.Back = 2 ^ 5 := rfl
  rw [e0, e1, e2, e3, e4, e5]
  constructor
  · rintro (h | ⟨face, hface, h1, h2⟩)
    · exact absurd h (List.not_mem_nil _)
    · simp only [List.mem_cons, List.mem_singleton, List.not_mem_nil, or_false] at hface
      rcases hface with rfl | rfl | rfl | rfl | rfl | rfl
      · exact ⟨0, by norm_num, by rw [← anchor.and_bit mask 0 (by norm_num)]; exact h1, h2⟩
      · exact ⟨1, by norm_num, by rw [← anchor.and_bit mask 1 (by norm_num)]; exact h1, h2⟩
      · exact ⟨2, by norm_num, by rw [← anchor.and_bit mask 2 (by norm_num)]; exact h1, h2⟩
      · exact ⟨3, by norm_num, by rw [← anchor.and_bit mask 3 (by norm_num)]; exact h1, h2⟩
      · exact ⟨4, by norm_num, by rw [← anchor.and_bit mask 4 (by norm_num)]; exact h1, h2⟩
      · exact ⟨5, by norm_num, by rw [← anchor.and_bit mask 5 (by norm_num)]; exact h1, h2⟩
  · rintro ⟨k, hk, h1, h2⟩
    refine Or.inr ⟨2 ^ k, ?_, ?_, h2⟩
    · interval_cases k <;> simp
    · rw [anchor.and_bit mask k (by omega)]; exact h1

theorem set_emplace_nodup (s : List Nat) (x : Nat) (h : s.Nodup) : (set_emplace s x).Nodup := by
  unfold set_emplace
  split
  · exact h
  · rename_i hx
    exact List.Nodup.append h (List.nodup_singleton x) (by simpa using hx)

theorem set_emplace_fold_nodup (l : List Nat) :
    ∀ s : List Nat, s.Nodup → (l.foldl set_emplace s).Nodup := by
  induction l with
  | nil => intro s h; exact h
  | cons y ys ih => intro s h; exact ih _ (set_emplace_nodup s y h)

theorem fracture.anchorFaces_nodup (px : px_physics_engine) (mask : Nat) (tr : trs) (b : bounds)
    (faces : List Nat) :
    ∀ acc : List entity_handle, acc.Nodup →
      (faces.foldl (fracture.anchorFace px mask tr b) acc).Nodup := by
  induction faces with
  | nil => intro acc h; exact h
  | cons f rest ih =>
    intro acc h
    rw [List.foldl_cons]
    apply ih
    unfold fracture.anchorFace
    split
    · exact set_emplace_fold_nodup _ _ h
    · exact h

/-- C12. Anchor mask union: for all masks `m1` and `m2`, every transform and
bounds and a fixed overlap oracle, `getAnchoredColliders (m1 | m2)` is a set
whose members are exactly the members of `getAnchoredColliders m1` together with
those of `getAnchoredColliders m2`; with `Left | Top` it holds exactly the
results of the overlap queries of the left face and of the top face, so a chunk
that only the queries of the other four faces return is not in it. -/
theorem getAnchoredColliders_mask_union (px : px_physics_engine) (m1 m2 : Nat) (tr : trs)
    (b : bounds) :
    (fracture.getAnchoredColliders px (anchor.or m1 m2) tr b).Nodup ∧
    (fracture.getAnchoredColliders px (anchor.or m1 m2) tr b).toFinset =
      (fracture.getAnchoredColliders px m1 tr b).toFinset ∪
        (fracture.getAnchoredColliders px m2 tr b).toFinset ∧
    (fracture.getAnchoredColliders px (anchor.or anchor.Left anchor.Top) tr b).toFinset =
      (px.overlapBox anchor.Left tr b).toFinset ∪ (px.overlapBox anchor.Top tr b).toFinset := by
  refine ⟨fracture.anchorFaces_nodup px _ tr b _ [] List.nodup_nil, ?_, ?_⟩
  · ext x
    rw [Finset.mem_union, List.mem_toFinset, List.mem_toFinset, List.mem_toFinset,
      fracture.mem_getAnchoredColliders, fracture.mem_getAnchoredColliders,
      fracture.mem_getAnchoredColliders]
    constructor
    · rintro ⟨k, hk, h1, h2⟩
      rw [anchor.or_bit m1 m2 k (by omega), Bool.or_eq_true] at h1
      rcases h1 with h1 | h1
      · exact Or.inl ⟨k, hk, h1, h2⟩
      · exact Or.inr ⟨k, hk, h1, h2⟩
    · rintro (⟨k, hk, h1, h2⟩ | ⟨k, hk, h1, h2⟩)
      · exact ⟨k, hk, by rw [anchor.or_bit m1 m2 k (by omega), h1]; rfl, h2⟩
      · exact ⟨k, hk, by rw [anchor.or_bit m1 m2 k (by omega), h1]; simp, h2⟩
  · ext x
    rw [Finset.mem_union, List.mem_toFinset, List.mem_toFinset, List.mem_toFinset,
      fracture.mem_getAnchoredColliders]
    constructor
    · rintro ⟨k, hk, h1, h2⟩
      interval_cases k
      · exact Or.inl h2
      · exact absurd h1 (by decide)
      · exact absurd h1 (by decide)
      · exact Or.inr h2
      · exact absurd h1 (by decide)
      · exact absurd h1 (by decide)
    · rintro (h | h)
      · exact ⟨0, by norm_num, by decide, h⟩
      · exact ⟨3, by norm_num, by decide, h⟩

/-- C14. Non-positive chunk count: for every `totalChunks <= 0` and every other
argument, `fractureGameObject` returns the null entity and the scene it was
called in, unchanged. -/
theorem fractureGameObject_nonpositive_count (px : px_physics_engine) (s : escene)
    (meshAsset : submesh_asset) (gameObject : entity_handle) (mask : Nat) (seed totalChunks : Int)
    (jointBreakForce density : ℚ) (h : totalChunks ≤ 0) :
    fracture.fractureGameObject px s meshAsset gameObject mask seed totalChunks jointBreakForce
      density = some (s, null_entity) := by
  unfold fracture.fractureGameObject
  rw [if_pos h]

/-- Instance of C14: a chunk count of -3 for the example mesh in the example
world. -/
theorem fractureGameObject_nonpositive_count_witness :
    (-3 : Int) ≤ 0 ∧
    fracture.fractureGameObject examplePhysics exampleWorld exampleMesh 10 anchor.Left 7 (-3) 100
      1 = some (exampleWorld, null_entity) :=
  ⟨by decide,
    fractureGameObject_nonpositive_count examplePhysics exampleWorld exampleMesh 10 anchor.Left 7
      (-3) 100 1 (by decide)⟩

theorem beq_nat_decide (a b : Nat) : (a == b) = decide (a = b) := by
  by_cases h : a = b <;> simp [h]

theorem chunk_node.cut_other (e : entity_handle) (links : List joint_ptr)
    (bodies : List entity_handle) (x : entity_handle) (a : chunk_node) (hx : x ≠ e)
    (hb : x ∉ bodies) : chunk_node.cut e links bodies x a = a := by
  simp [chunk_node.cut, hx, hb]

theorem chunk_node.cleanLink_cut (e : entity_handle) (s t : escene) (link : joint_ptr)
    (c : chunk_node) (hc : s.chunk_nodes e = some c) (hh : c.handle = e)
    (h : chunk_node.cleanLink e s link = some t) :
    t = { s with chunk_nodes := fun x =>
      (s.chunk_nodes x).map (chunk_node.cut e [link] [(c.jointToChunk.lookup link).getD 0] x) } := by
  subst hh
  generalize hbody : (c.jointToChunk.lookup link).getD 0 = body
  unfold chunk_node.cleanLink at h
  simp only [hc, hbody, escene.setNode_nodes] at h
  by_cases hbe : body = c.handle
  · subst hbe
    simp only [if_true, Option.some.injEq] at h
    subst h
    simp only [escene.setNode]
    congr 1
    funext x
    simp only [Function.update_apply]
    by_cases hx : x = c.handle
    · subst hx
      simp only [if_true, hc, Option.map_some', chunk_node.cut, chunk_node.remove, map_erase,
        set_erase, List.filter_filter]
      congr 2 <;> (apply List.filter_congr; intro p _; simp [bne, beq_nat_decide])
    · simp only [hx, if_false]
      cases hs : s.chunk_nodes x with
      | none => rfl
      | some a =>
        rw [Option.map_some', chunk_node.cut_other _ _ _ _ _ hx (by simpa using hx)]
  · have hne : c.handle ≠ body := fun h => hbe h.symm
    simp only [hbe, if_false] at h
    cases ho : s.chunk_nodes body with
    | none => simp [ho] at h
    | some other =>
      simp only [ho, hne, if_false, if_true, Option.some.injEq] at h
      subst h
      simp only [escene.setNode]
      congr 1
      funext x
      simp only [Function.update_apply]
      by_cases hx : x = c.handle
      · subst hx
        simp only [if_true, hc, Option.map_some', chunk_node.cut, map_erase,
          set_erase, List.filter_filter]
        congr 2 <;> (apply List.filter_congr; intro p _; simp [bne, hne, beq_nat_decide])
      · simp only [hx, if_false]
        by_cases hxb : x = body
        · subst hxb
          simp only [if_true, ho, Option.map_some', chunk_node.cut, chunk_node.remove, map_erase,
            set_erase]
          congr 2
          · apply List.filter_congr; intro p _; simp [bne, hx, beq_nat_decide]
          · symm; apply List.filter_eq_self.mpr; intro p _; simp [hx]
          · apply List.filter_congr; intro p _; simp [bne, hx, beq_nat_decide]
        · simp only [hxb, if_false]
          cases hs : s.chunk_nodes x with
          | none => rfl
          | some a =>
            rw [Option.map_some', chunk_node.cut_other _ _ _ _ _ hx (by simpa using hxb)]


theorem chunk_node.cut_cut (e : entity_handle) (l0 : joint_ptr) (ls : List joint_ptr)
    (b : entity_handle) (B1 B : List entity_handle) (x : entity_handle) (a : chunk_node)
    (hB : ∀ z, z ∈ B ↔ z = b ∨ z ∈ B1) :
    chunk_node.cut e ls B1 x (chunk_node.cut e [l0] [b] x a) =
      chunk_node.cut e (l0 :: ls) B x a := by
  simp only [chunk_node.cut, List.filter_filter]
  congr 1 <;> (apply List.filter_congr; intro p _; rw [Bool.eq_iff_iff]; simp only [
    Bool.and_eq_true, Bool.or_eq_true, Bool.not_eq_true', decide_eq_true_eq,
    decide_eq_false_iff_not, Bool.not_eq_true, Bool.or_eq_false_iff, Bool.and_eq_false_imp,
    hB, List.mem_singleton, List.mem_cons]; tauto)


theorem chunk_node.cleanLinks_cut (e : entity_handle) (ls : List joint_ptr) :
    ∀ (s t : escene) (c : chunk_node), s.chunk_nodes e = some c → c.handle = e →
      (c.jointToChunk.map Prod.fst).Nodup → ls.Nodup →
      (∀ l ∈ ls, l ∈ c.jointToChunk.map Prod.fst) →
      ls.foldlM (chunk_node.cleanLink e) s = some t →
      t = { s with
        chunk_nodes := fun x =>
          (s.chunk_nodes x).map (chunk_node.cut e ls
            ((c.jointToChunk.filter (fun p => decide (p.1 ∈ ls))).map Prod.snd) x) } := by
  induction ls with
  | nil =>
    intro s t c _ _ _ _ _ h
    simp only [List.foldlM_nil, Option.pure_def, Option.some.injEq] at h
    subst h
    have : ∀ x, (s.chunk_nodes x).map (chunk_node.cut e []
        ((c.jointToChunk.filter (fun p => decide (p.1 ∈ ([] : List joint_ptr)))).map Prod.snd) x) =
        s.chunk_nodes x := by
      intro x
      cases s.chunk_nodes x with
      | none => rfl
      | some a => simp [chunk_node.cut]
    simp only [this]
  | cons l0 ls ih =>
    intro s t c hc hh hnd hls hkeys h
    obtain ⟨hlink, hls2⟩ := List.nodup_cons.mp hls
    obtain ⟨⟨l1, b⟩, hp, hl1⟩ := List.mem_map.mp (hkeys l0 (List.mem_cons_self _ _))
    simp only at hl1
    subst hl1
    have hlook : c.jointToChunk.lookup l1 = some b := lookup_of_mem _ hnd l1 b hp
    have hbody : (c.jointToChunk.lookup l1).getD 0 = b := by rw [hlook]; rfl
    simp only [List.foldlM_cons, Option.bind_eq_bind, Option.bind_eq_some] at h
    obtain ⟨u, hu, ht⟩ := h
    have hu2 := chunk_node.cleanLink_cut e s u l1 c hc hh hu
    rw [hbody] at hu2
    have hd : u.chunk_nodes e = some (chunk_node.cut e [l1] [b] e c) := by
      rw [hu2]; simp [hc]
    have hdj : (chunk_node.cut e [l1] [b] e c).jointToChunk = map_erase c.jointToChunk l1 := by
      simp only [chunk_node.cut, map_erase]
      apply List.filter_congr
      intro p _
      by_cases hq : p.1 = l1 <;> simp [hq]
    have hmem : ∀ p, p ∈ (chunk_node.cut e [l1] [b] e c).jointToChunk ↔
        p ∈ c.jointToChunk ∧ p.1 ≠ l1 := by
      intro p; rw [hdj, mem_map_erase]
    have ht2 := ih u t _ hd hh (by rw [hdj]; exact nodup_keys_map_erase _ _ hnd) hls2
      (by
        intro l hl
        obtain ⟨p, hp1, hp2⟩ := List.mem_map.mp (hkeys l (List.mem_cons_of_mem _ hl))
        refine List.mem_map.mpr ⟨p, (hmem p).mpr ⟨hp1, ?_⟩, hp2⟩
        rw [hp2]
        rintro rfl
        exact hlink hl) ht
    have huniq : ∀ p ∈ c.jointToChunk, p.1 = l1 → p.2 = b := by
      intro p hp1 hp2
      have h1 := lookup_of_mem _ hnd p.1 p.2 hp1
      rw [hp2, hlook] at h1
      cases h1; rfl
    have hB : ∀ z, z ∈ (c.jointToChunk.filter (fun p => decide (p.1 ∈ l1 :: ls))).map Prod.snd ↔
        z = b ∨ z ∈ ((chunk_node.cut e [l1] [b] e c).jointToChunk.filter
          (fun p => decide (p.1 ∈ ls))).map Prod.snd := by
      intro z
      simp only [List.mem_map, List.mem_filter, decide_eq_true_eq, hmem]
      constructor
      · rintro ⟨p, ⟨hp1, hp2⟩, hp3⟩
        rcases List.mem_cons.mp hp2 with h | h
        · exact Or.inl (hp3 ▸ huniq p hp1 h)
        · refine Or.inr ⟨p, ⟨⟨hp1, ?_⟩, h⟩, hp3⟩
          intro h2
          exact hlink (h2 ▸ h)
      · rintro (h | ⟨p, ⟨⟨hp1, -⟩, hp2⟩, hp3⟩)
        · exact ⟨(l1, b), ⟨hp, List.mem_cons_self _ _⟩, h.symm⟩
        · exact ⟨p, ⟨hp1, List.mem_cons_of_mem _ hp2⟩, hp3⟩
    rw [ht2, hu2]
    simp only
    congr 1
    funext x
    cases s.chunk_nodes x with
    | none => rfl
    | some a =>
      simp only [Option.map_some']
      rw [chunk_node.cut_cut e l1 ls b _ _ x a hB]

theorem mem_brokenBodies (s : escene) (c : chunk_node) (z : entity_handle) :
    z ∈ c.brokenBodies s ↔
      ∃ p ∈ c.jointToChunk, (s.jointHeap p.1).joint = some true ∧ p.2 = z := by
  simp only [chunk_node.brokenBodies, List.mem_map, List.mem_filter, beq_iff_eq]
  constructor
  · rintro ⟨p, ⟨h1, h2⟩, h3⟩; exact ⟨p, h1, h2, h3⟩
  · rintro ⟨p, h1, h2, h3⟩; exact ⟨p, ⟨h1, h2⟩, h3⟩

theorem chunk_node.cut_congr (e : entity_handle) (ls : List joint_ptr)
    (B1 B : List entity_handle) (x : entity_handle) (a : chunk_node)
    (hB : ∀ z, z ∈ B ↔ z ∈ B1) :
    chunk_node.cut e ls B1 x a = chunk_node.cut e ls B x a := by
  simp only [chunk_node.cut, hB]

/-- The scene after `cleanBrokenLinks` of the node at `e`. -/
theorem chunk_node.cleanBrokenLinks_cut (e : entity_handle) (s t : escene) (c : chunk_node)
    (hc : s.chunk_nodes e = some c) (hh : c.handle = e)
    (hnd : (c.jointToChunk.map Prod.fst).Nodup)
    (h : chunk_node.cleanBrokenLinks s e = some t) :
    t = { s with
      chunk_nodes := fun x =>
        (s.chunk_nodes x).map (fun a =>
          let b := chunk_node.cut e (chunk_node.brokenLinks s c) (c.brokenBodies s) x a
          if x = e then { b with hasBrokenLinks := false } else b) } := by
  unfold chunk_node.cleanBrokenLinks at h
  simp only [hc] at h
  cases hf : (chunk_node.brokenLinks s c).foldlM (chunk_node.cleanLink e) s with
  | none => simp [hf] at h
  | some u =>
    simp only [hf] at h
    have hu := chunk_node.cleanLinks_cut e (chunk_node.brokenLinks s c) s u c hc hh hnd
      (List.Nodup.sublist (List.Sublist.map Prod.fst (List.filter_sublist _)) hnd)
      (by
        intro l hl
        unfold chunk_node.brokenLinks at hl
        obtain ⟨p, hp1, hp2⟩ := List.mem_map.mp hl
        exact List.mem_map.mpr ⟨p, (List.mem_filter.mp hp1).1, hp2⟩) hf
    have hB : ∀ x, chunk_node.cut e (chunk_node.brokenLinks s c)
        ((c.jointToChunk.filter (fun p => decide (p.1 ∈ chunk_node.brokenLinks s c))).map
          Prod.snd) x =
        chunk_node.cut e (chunk_node.brokenLinks s c) (c.brokenBodies s) x := by
      intro x
      funext a
      apply chunk_node.cut_congr
      intro z
      rw [mem_brokenBodies]
      simp only [List.mem_map, List.mem_filter, decide_eq_true_eq]
      constructor
      · rintro ⟨p, h1, h2, h3⟩
        exact ⟨p, ⟨h1, (chunk_node.mem_brokenLinks s c p h1).mpr h2⟩, h3⟩
      · rintro ⟨p, ⟨h1, h2⟩, h3⟩
        exact ⟨p, h1, (chunk_node.mem_brokenLinks s c p h1).mp h2, h3⟩
    simp only [hB] at hu
    have hue : u.chunk_nodes e = some (chunk_node.cut e (chunk_node.brokenLinks s c)
        (c.brokenBodies s) e c) := by
      rw [hu]; simp [hc]
    simp only [hue, Option.some.injEq] at h
    subst h
    rw [hu]
    simp only [escene.setNode]
    congr 1
    funext x
    simp only [Function.update_apply]
    by_cases hx : x = e
    · subst hx
      simp [hc]
    · simp only [hx, if_false]

theorem lookup_filter_key {β : Type} (m : List (Nat × β)) (q : Nat → Bool) (k : Nat) :
    (m.filter (fun p => q p.1)).lookup k = if q k then m.lookup k else none := by
  induction m with
  | nil => simp
  | cons p m ih =>
    obtain ⟨a, v⟩ := p
    by_cases hqa : q a = true
    · rw [List.filter_cons_of_pos (by simpa using hqa)]
      by_cases hka : k = a
      · subst hka
        simp [List.lookup, hqa]
      · have : (k == a) = false := by simpa using hka
        simp only [List.lookup, this]
        exact ih
    · rw [List.filter_cons_of_neg (by simpa using hqa)]
      by_cases hka : k = a
      · subst hka
        rw [ih]
        simp [hqa]
      · have : (k == a) = false := by simpa using hka
        simp only [List.lookup, this]
        exact ih

theorem mem_of_lookup {β : Type} (m : List (Nat × β)) (k : Nat) (v : β)
    (h : m.lookup k = some v) : (k, v) ∈ m := by
  induction m with
  | nil => simp at h
  | cons p m ih =>
    obtain ⟨a, w⟩ := p
    by_cases hka : k = a
    · subst hka
      simp [List.lookup] at h
      subst h
      exact List.mem_cons_self _ _
    · have : (k == a) = false := by simpa using hka
      simp only [List.lookup, this] at h
      exact List.mem_cons_of_mem _ (ih h)

/-- C16. Effect of `cleanBrokenLinks`: let `B` be the chunks that `jointToChunk`
of the node `A` (owned by entity `e`) maps from joints reporting the broken
state.  The call returns when every chunk of `B` has a chunk node, and then the
`jointToChunk` of `A` has no broken joint, its `chunkToJoint` has no key in `B`,
its neighbours are the old neighbours that are not in `B`, no chunk of `B` has
`A` among its neighbours, the `hasBrokenLinks` flag of `A` is false, and the
node of every chunk outside `B` other than `A` (so also its neighbours set) is
unchanged. -/
theorem cleanBrokenLinks_effect (s : escene) (e : entity_handle) (c : chunk_node)
    (hc : s.chunk_nodes e = some c) (hh : c.handle = e)
    (hnd : (c.jointToChunk.map Prod.fst).Nodup)
    (hbodies : ∀ b ∈ c.brokenBodies s, (s.chunk_nodes b).isSome) :
    ∃ t d, chunk_node.cleanBrokenLinks s e = some t ∧ t.chunk_nodes e = some d ∧
      (∀ p ∈ d.jointToChunk, (t.jointHeap p.1).joint ≠ some true) ∧
      (∀ p ∈ d.chunkToJoint, p.1 ∉ c.brokenBodies s) ∧
      d.neighbours = c.neighbours.filter (fun y => decide (y ∉ c.brokenBodies s)) ∧
      (∀ b ∈ c.brokenBodies s, ∃ cb, t.chunk_nodes b = some cb ∧ e ∉ cb.neighbours) ∧
      d.hasBrokenLinks = false ∧
      ∀ x, x ≠ e → x ∉ c.brokenBodies s → t.chunk_nodes x = s.chunk_nodes x := by
  obtain ⟨u, d0, -, -, hsome, -, -⟩ := chunk_node.cleanBrokenLinks_spec e s c hc hh hnd (by
    intro p hp hbr
    exact hbodies p.2 ((mem_brokenBodies s c p.2).mpr ⟨p, hp, hbr, rfl⟩))
  have ht := chunk_node.cleanBrokenLinks_cut e s _ c hc hh hnd hsome
  generalize u.setNode e { d0 with hasBrokenLinks := false } = t at hsome ht
  have hnode : ∀ x, t.chunk_nodes x = (s.chunk_nodes x).map (fun a =>
      let b := chunk_node.cut e (chunk_node.brokenLinks s c) (c.brokenBodies s) x a
      if x = e then { b with hasBrokenLinks := false } else b) := by
    intro x; rw [ht]
  have hjh : t.jointHeap = s.jointHeap := by rw [ht]
  have hd : t.chunk_nodes e = some { chunk_node.cut e (chunk_node.brokenLinks s c)
      (c.brokenBodies s) e c with hasBrokenLinks := false } := by
    rw [hnode e, hc]; simp only [Option.map_some', if_true]
  refine ⟨t, _, hsome, hd, ?_, ?_, ?_, ?_, rfl, ?_⟩
  · intro p hp
    simp only [chunk_node.cut, List.mem_filter, decide_True, Bool.true_and, Bool.not_eq_true',
      decide_eq_false_iff_not] at hp
    rw [hjh]
    exact fun hbr => hp.2 ((chunk_node.mem_brokenLinks s c p hp.1).mpr hbr)
  · intro p hp
    simp only [chunk_node.cut, List.mem_filter, decide_True, Bool.true_and, Bool.not_eq_true',
      Bool.or_eq_false_iff, decide_eq_false_iff_not] at hp
    exact hp.2.1
  · simp only [chunk_node.cut]
    apply List.filter_congr
    intro y _
    by_cases hy : y ∈ c.brokenBodies s
    · simp [hy]
    · have : ¬ (e ∈ c.brokenBodies s ∧ y = e) := fun h => hy (h.2 ▸ h.1)
      simp only [hy, decide_True, decide_False, Bool.and_false, Bool.false_or, Bool.not_eq_true',
        Bool.and_eq_false_imp, decide_eq_true_eq, decide_eq_false_iff_not, not_false_eq_true,
        decide_not, Bool.not_not]
      intro h1 h2
      exact this ⟨h1, h2⟩
  · intro b hb
    obtain ⟨cb, hcb⟩ := Option.isSome_iff_exists.mp (hbodies b hb)
    rw [hnode b, hcb]
    refine ⟨_, rfl, ?_⟩
    by_cases hbe : b = e
    · subst hbe
      simp [chunk_node.cut, hb]
    · simp [chunk_node.cut, hbe, hb]
  · intro x hx hxb
    rw [hnode x]
    cases s.chunk_nodes x with
    | none => rfl
    | some a =>
      simp only [Option.map_some', hx, if_false]
      rw [chunk_node.cut_other _ _ _ _ _ hx hxb]


/-- Instance of C16: node 1 of the example chain after the joint between chunks
1 and 2 broke. -/
theorem cleanBrokenLinks_effect_witness :
    ∃ t d, chunk_node.cleanBrokenLinks brokenScene 1 = some t ∧ t.chunk_nodes 1 = some d ∧
      (∀ p ∈ d.jointToChunk, (t.jointHeap p.1).joint ≠ some true) ∧
      (∀ p ∈ d.chunkToJoint, p.1 ∉ [2]) ∧
      d.neighbours = [0, 2].filter (fun y => decide (y ∉ [2])) ∧
      (∀ b ∈ [2], ∃ cb, t.chunk_nodes b = some cb ∧ 1 ∉ cb.neighbours) ∧
      d.hasBrokenLinks = false ∧
      ∀ x, x ≠ 1 → x ∉ [2] → t.chunk_nodes x = brokenScene.chunk_nodes x := by
  obtain ⟨c, hc, hh, hj, hn, hb⟩ : ∃ c, brokenScene.chunk_nodes 1 = some c ∧ c.handle = 1 ∧
      c.jointToChunk = [(1, 2)] ∧ c.neighbours = [0, 2] ∧ c.brokenBodies brokenScene = [2] :=
    ⟨_, rfl, rfl, rfl, rfl, rfl⟩
  have h := cleanBrokenLinks_effect brokenScene 1 c hc hh (by rw [hj]; decide)
    (by rw [hb]; decide)
  rw [hb, hn] at h
  exact h

theorem chunk_node.mapsInverse_iff (c : chunk_node) :
    c.mapsInverse ↔
      (∀ p ∈ c.jointToChunk, c.jointToChunk.lookup p.1 = some p.2 →
        c.chunkToJoint.lookup p.2 = some p.1) ∧
      (∀ p ∈ c.chunkToJoint, c.chunkToJoint.lookup p.1 = some p.2 →
        c.jointToChunk.lookup p.2 = some p.1) := by
  constructor
  · intro h
    exact ⟨fun p _ hp => (h p.1 p.2).mp hp, fun p _ hp => (h p.2 p.1).mpr hp⟩
  · rintro ⟨h1, h2⟩ j b
    constructor
    · intro h
      exact h1 (j, b) (mem_of_lookup _ _ _ h) h
    · intro h
      exact h2 (b, j) (mem_of_lookup _ _ _ h) h

/-- C20 (amended). When the joint maps of the node `A` (owned by entity `e`) are
inverse to each other before `A.cleanBrokenLinks()`, they are inverse to each
other after it.  On every other node `jointToChunk` is left as it was, and
`chunkToJoint` loses the key `e` if the node is one of the chunks `B` whose edge
to `A` was removed and is left as it was otherwise; so the maps of such a
neighbour, inverse before, are inverse afterwards exactly when none of its own
joints leads to `A`. -/
theorem cleanBrokenLinks_joint_maps (s : escene) (e : entity_handle) (c : chunk_node)
    (hc : s.chunk_nodes e = some c) (hh : c.handle = e)
    (hnd : (c.jointToChunk.map Prod.fst).Nodup)
    (hbodies : ∀ b ∈ c.brokenBodies s, (s.chunk_nodes b).isSome)
    (hinv : c.mapsInverse) :
    ∃ t d, chunk_node.cleanBrokenLinks s e = some t ∧ t.chunk_nodes e = some d ∧
      d.mapsInverse ∧
      ∀ x a, x ≠ e → s.chunk_nodes x = some a →
        ∃ b, t.chunk_nodes x = some b ∧ b.jointToChunk = a.jointToChunk ∧
          b.chunkToJoint =
            (if x ∈ c.brokenBodies s then map_erase a.chunkToJoint e else a.chunkToJoint) ∧
          (a.mapsInverse → x ∈ c.brokenBodies s →
            (b.mapsInverse ↔ ∀ j, a.jointToChunk.lookup j ≠ some e)) := by
  obtain ⟨u, d0, -, -, hsome, -, -⟩ := chunk_node.cleanBrokenLinks_spec e s c hc hh hnd (by
    intro p hp hbr
    exact hbodies p.2 ((mem_brokenBodies s c p.2).mpr ⟨p, hp, hbr, rfl⟩))
  have ht := chunk_node.cleanBrokenLinks_cut e s _ c hc hh hnd hsome
  generalize u.setNode e { d0 with hasBrokenLinks := false } = t at hsome ht
  have hnode : ∀ x, t.chunk_nodes x = (s.chunk_nodes x).map (fun a =>
      let b := chunk_node.cut e (chunk_node.brokenLinks s c) (c.brokenBodies s) x a
      if x = e then { b with hasBrokenLinks := false } else b) := by
    intro x; rw [ht]
  have hd : t.chunk_nodes e = some { chunk_node.cut e (chunk_node.brokenLinks s c)
      (c.brokenBodies s) e c with hasBrokenLinks := false } := by
    rw [hnode e, hc]; simp only [Option.map_some', if_true]
  refine ⟨t, _, hsome, hd, ?_, ?_⟩
  · intro j z
    have e1 : (chunk_node.cut e (chunk_node.brokenLinks s c) (c.brokenBodies s) e
        c).jointToChunk = c.jointToChunk.filter
          (fun p => (fun k => !decide (k ∈ chunk_node.brokenLinks s c)) p.1) := by
      simp [chunk_node.cut]
    have e2 : (chunk_node.cut e (chunk_node.brokenLinks s c) (c.brokenBodies s) e
        c).chunkToJoint = c.chunkToJoint.filter
          (fun p => (fun k => !decide (k ∈ c.brokenBodies s)) p.1) := by
      simp only [chunk_node.cut]
      apply List.filter_congr
      intro p _
      by_cases hp : p.1 ∈ c.brokenBodies s
      · simp [hp]
      · have hf : (decide (e ∈ c.brokenBodies s) && decide (p.1 = e)) = false := by
          simp only [Bool.and_eq_false_imp, decide_eq_true_eq, decide_eq_false_iff_not]
          intro h1 h2
          exact hp (h2 ▸ h1)
        simp [hp, hf]
    show List.lookup j (chunk_node.cut e (chunk_node.brokenLinks s c) (c.brokenBodies s) e
        c).jointToChunk = some z ↔
      List.lookup z (chunk_node.cut e (chunk_node.brokenLinks s c) (c.brokenBodies s) e
        c).chunkToJoint = some j
    rw [e1, e2, lookup_filter_key _ (fun k => !decide (k ∈ chunk_node.brokenLinks s c)),
      lookup_filter_key _ (fun k => !decide (k ∈ c.brokenBodies s))]
    by_cases hj : j ∈ chunk_node.brokenLinks s c
    · simp only [hj, decide_True, Bool.not_true, Bool.false_eq_true, if_false, false_iff]
      by_cases hz : z ∈ c.brokenBodies s
      · simp [hz]
      · simp only [hz, decide_False, Bool.not_false, if_true]
        constructor
        · intro hl; cases hl
        intro hl
        exfalso
        have h1 := (hinv j z).mpr hl
        have hp := mem_of_lookup _ _ _ h1
        exact hz ((mem_brokenBodies s c z).mpr
          ⟨(j, z), hp, (chunk_node.mem_brokenLinks s c (j, z) hp).mp hj, rfl⟩)
    · simp only [hj, decide_False, Bool.not_false, if_true]
      by_cases hz : z ∈ c.brokenBodies s
      · simp only [hz, decide_True, Bool.not_true, Bool.false_eq_true, if_false]
        constructor
        swap
        · intro hl; cases hl
        intro hl
        exfalso
        obtain ⟨p, hp, hbr, hpz⟩ := (mem_brokenBodies s c z).mp hz
        have h1 : c.jointToChunk.lookup p.1 = some z := by
          rw [← hpz]; exact lookup_of_mem _ hnd p.1 p.2 hp
        have h2 := (hinv p.1 z).mp h1
        rw [(hinv j z).mp hl] at h2
        cases h2
        exact hj ((chunk_node.mem_brokenLinks s c p hp).mpr hbr)
      · simp only [hz, decide_False, Bool.not_false, if_true]
        exact hinv j z
  · intro x a hx hxa
    rw [hnode x, hxa]
    refine ⟨_, rfl, ?_, ?_, ?_⟩
    · simp [chunk_node.cut, hx]
    · by_cases hxb : x ∈ c.brokenBodies s
      · simp only [Option.map_some', hx, if_false, chunk_node.cut, hxb, if_true, map_erase]
        apply List.filter_congr
        intro p _
        by_cases hp : p.1 = e <;> simp [hp]
      · simp [chunk_node.cut, hx, hxb]
    · intro ha hxb
      have e1 : (chunk_node.cut e (chunk_node.brokenLinks s c) (c.brokenBodies s) x
          a).jointToChunk = a.jointToChunk := by
        simp [chunk_node.cut, hx]
      have e2 : (chunk_node.cut e (chunk_node.brokenLinks s c) (c.brokenBodies s) x
          a).chunkToJoint = a.chunkToJoint.filter (fun p => (fun k => !decide (k = e)) p.1) := by
        simp [chunk_node.cut, hx, hxb]
      have l2 : ∀ z, List.lookup z (chunk_node.cut e (chunk_node.brokenLinks s c)
          (c.brokenBodies s) x a).chunkToJoint =
          if z = e then none else a.chunkToJoint.lookup z := by
        intro z
        rw [e2, lookup_filter_key _ (fun k => !decide (k = e))]
        by_cases hz : z = e <;> simp [hz]
      simp only [hx, if_false]
      unfold chunk_node.mapsInverse
      simp only [e1, l2]
      constructor
      · intro h j hj
        have := (h j e).mp hj
        simp at this
      · intro h j z
        by_cases hz : z = e
        · subst hz
          simp only [if_true]
          exact ⟨fun hl => absurd hl (h j), fun hl => by cases hl⟩
        · simp only [hz, if_false]
          exact ha j z


/-- Instance of the amended C20: node 12 of the fractured example world after
its joint to chunk 13 broke. -/
theorem cleanBrokenLinks_joint_maps_witness :
    ∃ t d, chunk_node.cleanBrokenLinks crackedWorld 12 = some t ∧ t.chunk_nodes 12 = some d ∧
      d.mapsInverse ∧
      ∀ x a, x ≠ 12 → crackedWorld.chunk_nodes x = some a →
        ∃ b, t.chunk_nodes x = some b ∧ b.jointToChunk = a.jointToChunk ∧
          b.chunkToJoint = (if x ∈ [13] then map_erase a.chunkToJoint 12 else a.chunkToJoint) ∧
          (a.mapsInverse → x ∈ [13] →
            (b.mapsInverse ↔ ∀ j, a.jointToChunk.lookup j ≠ some 12)) := by
  obtain ⟨c, hc, hh, hj, hk, hb⟩ : ∃ c, crackedWorld.chunk_nodes 12 = some c ∧ c.handle = 12 ∧
      c.jointToChunk = [(0, 13)] ∧ c.chunkToJoint = [(13, 0)] ∧
      c.brokenBodies crackedWorld = [13] :=
    ⟨_, rfl, rfl, rfl, rfl, rfl⟩
  have h := cleanBrokenLinks_joint_maps crackedWorld 12 c hc hh (by rw [hj]; decide)
    (by rw [hb]; decide)
    (by
      rw [chunk_node.mapsInverse_iff, hj, hk]
      decide)
  rw [hb] at h
  exact h

/-- C20 (counterexample). In the fractured example world the chunks 12 and 13
touch each other, each has its own joint to the other, and on every node the
joint maps are inverse to each other.  After the joint from 12 to 13 broke,
`cleanBrokenLinks` of node 12 leaves node 13 with `jointToChunk` still mapping
its joint 1 to chunk 12 and with an empty `chunkToJoint`: the maps of node 13 are
not inverse to each other any more. -/
theorem cleanBrokenLinks_breaks_neighbour_maps :
    (∀ x ∈ crackedWorld.entities, ∀ c, crackedWorld.chunk_nodes x = some c → c.mapsInverse) ∧
    ∃ t d, chunk_node.cleanBrokenLinks crackedWorld 12 = some t ∧ t.chunk_nodes 13 = some d ∧
      d.jointToChunk = [(1, 12)] ∧ d.chunkToJoint = [] ∧ ¬ d.mapsInverse := by
  constructor
  · intro x hx c hc
    have he : crackedWorld.entities = [10, 11, 12, 13] := by decide
    rw [he] at hx
    simp only [List.mem_cons, List.mem_singleton, List.not_mem_nil, or_false] at hx
    rcases hx with rfl | rfl | rfl | rfl
    · have h0 : crackedWorld.chunk_nodes 10 = none := by decide
      rw [h0] at hc; cases hc
    · have h0 : crackedWorld.chunk_nodes 11 = none := by decide
      rw [h0] at hc; cases hc
    · have h0 : crackedWorld.chunk_nodes 12 = some
          { neighbours := [13], hasBrokenLinks := true, jointToChunk := [(0, 13)],
            chunkToJoint := [(13, 0)], handle := 12 } := by decide
      rw [h0] at hc; cases hc
      rw [chunk_node.mapsInverse_iff]
      decide
    · have h0 : crackedWorld.chunk_nodes 13 = some
          { neighbours := [12], jointToChunk := [(1, 12)],
            chunkToJoint := [(12, 1)], handle := 13 } := by decide
      rw [h0] at hc; cases hc
      rw [chunk_node.mapsInverse_iff]
      decide
  · refine ⟨_, _, rfl, rfl, rfl, rfl, ?_⟩
    intro h
    have := (h 1 12).mp rfl
    cases this

theorem lookup_map_emplace {β : Type} (m : List (Nat × β)) (k : Nat) (v : β) (x : Nat) :
    (map_emplace m k v).lookup x =
      if x = k then some ((m.lookup k).getD v) else m.lookup x := by
  have happ : ∀ (l : List (Nat × β)), (l ++ [(k, v)]).lookup x =
      match l.lookup x with
      | some w => some w
      | none => if x = k then some v else none := by
    intro l
    induction l with
    | nil =>
      by_cases hx : x = k
      · subst hx; simp [List.lookup]
      · have : (x == k) = false := by simpa using hx
        simp [List.lookup, this, hx]
    | cons p l ih =>
      obtain ⟨a, w⟩ := p
      by_cases hxa : x = a
      · subst hxa; simp [List.lookup]
      · have : (x == a) = false := by simpa using hxa
        simp only [List.cons_append, List.lookup, this]
        exact ih
  unfold map_emplace map_contains
  cases hk : m.lookup k with
  | none =>
    simp only [Option.isSome_none, Bool.false_eq_true, if_false, happ, Option.getD_none]
    by_cases hx : x = k
    · subst hx; simp [hk]
    · simp only [hx, if_false]
      cases m.lookup x <;> rfl
  | some w =>
    simp only [Option.isSome_some, if_true, Option.getD_some]
    by_cases hx : x = k
    · subst hx; simp [hk]
    · simp [hx]

theorem chunk_node.addJoint_inverse (s : escene) (js : List joint_ptr)
    (hinj : ∀ j1 ∈ js, ∀ j2 ∈ js, (s.jointHeap j1).second = (s.jointHeap j2).second → j1 = j2)
    (c : chunk_node) (j : joint_ptr) (hj : j ∈ js) (hinv : c.mapsInverse)
    (hsrc : ∀ x b, c.jointToChunk.lookup x = some b → x ∈ js ∧ b = (s.jointHeap x).second) :
    (chunk_node.addJoint s c j).mapsInverse ∧
    (∀ x b, (chunk_node.addJoint s c j).jointToChunk.lookup x = some b →
      x ∈ js ∧ b = (s.jointHeap x).second) ∧
    (∀ x, (chunk_node.addJoint s c j).jointToChunk.lookup x =
      if x = j then some (s.jointHeap j).second else c.jointToChunk.lookup x) := by
  have hJ : ∀ x, (chunk_node.addJoint s c j).jointToChunk.lookup x =
      if x = j then some (s.jointHeap j).second else c.jointToChunk.lookup x := by
    intro x
    simp only [chunk_node.addJoint, lookup_map_emplace]
    by_cases hx : x = j
    · subst hx
      simp only [if_true]
      cases hl : c.jointToChunk.lookup x with
      | none => rfl
      | some b => rw [(hsrc x b hl).2]; rfl
    · simp [hx]
  have hK : ∀ z, (chunk_node.addJoint s c j).chunkToJoint.lookup z =
      if z = (s.jointHeap j).second then some j else c.chunkToJoint.lookup z := by
    intro z
    simp only [chunk_node.addJoint, lookup_map_emplace]
    by_cases hz : z = (s.jointHeap j).second
    · subst hz
      simp only [if_true]
      cases hl : c.chunkToJoint.lookup (s.jointHeap j).second with
      | none => rfl
      | some j1 =>
        have h1 := (hinv j1 _).mpr hl
        have h2 := hsrc j1 _ h1
        rw [hinj j1 h2.1 j hj h2.2.symm]
        rfl
    · simp [hz]
  refine ⟨?_, ?_, hJ⟩
  · intro x z
    rw [hJ, hK]
    by_cases hx : x = j
    · subst hx
      by_cases hz : z = (s.jointHeap x).second
      · subst hz; simp
      · simp only [if_true, hz, if_false]
        constructor
        · intro h; cases h; exact absurd rfl hz
        · intro h
          have h1 := (hinv x z).mpr h
          exact absurd (hsrc x z h1).2 hz
    · simp only [hx, if_false]
      by_cases hz : z = (s.jointHeap j).second
      · subst hz
        simp only [if_true]
        constructor
        · intro h
          have h2 := hsrc x _ h
          exact absurd (hinj x h2.1 j hj h2.2.symm) hx
        · intro h; cases h; exact absurd rfl hx
      · simp only [hz, if_false]
        exact hinv x z
  · intro x b h
    rw [hJ] at h
    by_cases hx : x = j
    · subst hx
      simp only [if_true, Option.some.injEq] at h
      exact ⟨hj, h.symm⟩
    · simp only [hx, if_false] at h
      exact hsrc x b h

theorem chunk_node.addJoints_inverse (s : escene) (js : List joint_ptr)
    (hinj : ∀ j1 ∈ js, ∀ j2 ∈ js, (s.jointHeap j1).second = (s.jointHeap j2).second → j1 = j2)
    (l : List joint_ptr) :
    ∀ (c : chunk_node), (∀ j ∈ l, j ∈ js) → c.mapsInverse →
      (∀ x b, c.jointToChunk.lookup x = some b → x ∈ js ∧ b = (s.jointHeap x).second) →
      (l.foldl (chunk_node.addJoint s) c).mapsInverse ∧
      ∀ x, (l.foldl (chunk_node.addJoint s) c).jointToChunk.lookup x =
        if x ∈ l then some (s.jointHeap x).second else c.jointToChunk.lookup x := by
  induction l with
  | nil => intro c _ hinv _; exact ⟨hinv, fun x => by simp⟩
  | cons j l ih =>
    intro c hl hinv hsrc
    obtain ⟨h1, h2, h3⟩ := chunk_node.addJoint_inverse s js hinj c j
      (hl j (List.mem_cons_self _ _)) hinv hsrc
    obtain ⟨h4, h5⟩ := ih _ (fun x hx => hl x (List.mem_cons_of_mem _ hx)) h1 h2
    refine ⟨h4, fun x => ?_⟩
    rw [List.foldl_cons, h5, h3]
    by_cases hx : x ∈ l
    · simp [hx]
    · by_cases hxj : x = j
      · subst hxj; simp [hx]
      · simp [hx, hxj]

theorem chunk_node.setup_node (m : chunk_graph_manager) (s t : escene) (e : entity_handle)
    (c : chunk_node) (hc : s.chunk_nodes e = some c) (hh : c.handle = e)
    (h : chunk_node.setup m s e = some t) :
    ∃ d, t.chunk_nodes e = some d ∧
      d.jointToChunk = (((m.joints.lookup e).getD []).foldl (chunk_node.addJoint s)
        { c with jointToChunk := [], chunkToJoint := [] }).jointToChunk ∧
      d.chunkToJoint = (((m.joints.lookup e).getD []).foldl (chunk_node.addJoint s)
        { c with jointToChunk := [], chunkToJoint := [] }).chunkToJoint := by
  subst hh
  unfold chunk_node.setup chunk_node.freeze at h
  simp only [hc] at h
  cases hrb : s.rigidbodies c.handle with
  | none => simp [hrb] at h
  | some rb =>
    simp only [hrb, hc] at h
    cases hj : m.joints.lookup c.handle with
    | none =>
      simp only [hj, Option.some.injEq] at h
      subst h
      exact ⟨_, by rw [escene.setNode_nodes, if_pos rfl]; rfl, rfl, rfl⟩
    | some js =>
      simp only [hj] at h
      obtain ⟨k1, -⟩ := chunk_node.addJoints_core s js
        { c with jointToChunk := [], chunkToJoint := [] }
      simp only [Option.getD_some]
      generalize js.foldl (chunk_node.addJoint s) { c with jointToChunk := [], chunkToJoint := [] }
        = c2 at h k1
      obtain ⟨f1, m1, -⟩ := chunk_node.linkNeighbours_spec c.handle c2.chunkToJoint
        (s.setNode c.handle c2) t c2 (by simp [escene.setNode_nodes]) k1.1 h
      obtain ⟨d, hd, -⟩ := (f1.2 c.handle).2 c2 (by simp [escene.setNode_nodes])
      obtain ⟨e1, e2⟩ := m1 c.handle c2 d (by simp [escene.setNode_nodes]) hd
      exact ⟨d, hd, e1, e2⟩

/-- C17 (amended). When the joints recorded for the node in the joint table
lead to pairwise distinct chunks, then after `chunk_node::setup(graph)` the
`jointToChunk` and `chunkToJoint` of the node are inverse to each other, and
`jointToChunk` maps exactly the recorded joints, each to the chunk stored with
its second actor.  The call returns when the entity has a rigid body and every
chunk the recorded joints lead to has a chunk node. -/
theorem setup_joint_maps_inverse (m : chunk_graph_manager) (s : escene) (e : entity_handle)
    (c : chunk_node) (hc : s.chunk_nodes e = some c) (hh : c.handle = e)
    (hrb : (s.rigidbodies e).isSome)
    (ht : ∀ y ∈ m.targets s e, (s.chunk_nodes y).isSome)
    (hinj : ∀ j1 ∈ (m.joints.lookup e).getD [], ∀ j2 ∈ (m.joints.lookup e).getD [],
      (s.jointHeap j1).second = (s.jointHeap j2).second → j1 = j2) :
    ∃ t d, chunk_node.setup m s e = some t ∧ t.chunk_nodes e = some d ∧ d.mapsInverse ∧
      ∀ j b, d.jointToChunk.lookup j = some b ↔
        j ∈ (m.joints.lookup e).getD [] ∧ b = (s.jointHeap j).second := by
  obtain ⟨t, ht1⟩ := Option.isSome_iff_exists.mp (chunk_node.setup_some m s e c hc hh hrb ht)
  obtain ⟨d, hd, e1, e2⟩ := chunk_node.setup_node m s t e c hc hh ht1
  obtain ⟨h1, h2⟩ := chunk_node.addJoints_inverse s _ hinj ((m.joints.lookup e).getD [])
    { c with jointToChunk := [], chunkToJoint := [] } (fun j hj => hj)
    (by intro j b; simp) (by intro x b h; simp at h)
  refine ⟨t, d, ht1, hd, ?_, ?_⟩
  · intro j b
    rw [e1, e2]
    exact h1 j b
  · intro j b
    rw [e1, h2]
    by_cases hj : j ∈ (m.joints.lookup e).getD []
    · simp only [hj, if_true, Option.some.injEq, true_and]
      exact eq_comm
    · simp [hj]

/-- Instance of the amended C17: the node of chunk 1 of the example graph set up
again from the example joint table. -/
theorem setup_joint_maps_inverse_witness :
    ∃ t d, chunk_node.setup exampleManager exampleGraph.2 1 = some t ∧
      t.chunk_nodes 1 = some d ∧ d.mapsInverse ∧
      ∀ j b, d.jointToChunk.lookup j = some b ↔
        j ∈ (exampleManager.joints.lookup 1).getD [] ∧ b = (exampleGraph.2.jointHeap j).second := by
  obtain ⟨c, hc, hh⟩ : ∃ c, exampleGraph.2.chunk_nodes 1 = some c ∧ c.handle = 1 :=
    ⟨_, rfl, rfl⟩
  exact setup_joint_maps_inverse exampleManager exampleGraph.2 1 c hc hh (by decide)
    (by decide) (by decide)

/-- C17 (counterexample). A joint table that records for chunk 0 the two joints
0 and 1, both leading to chunk 1: after `chunk_node::setup` of node 0 its
`jointToChunk` maps both joints to chunk 1, while `chunkToJoint` maps chunk 1 to
joint 0 only, so the maps are not inverse to each other. -/
theorem setup_twin_joints_not_inverse :
    ∃ t d, chunk_node.setup twinJointManager twinJointScene 0 = some t ∧
      t.chunk_nodes 0 = some d ∧
      d.jointToChunk = [(0, 1), (1, 1)] ∧ d.chunkToJoint = [(1, 0)] ∧
      d.jointToChunk.lookup 1 = some 1 ∧ d.chunkToJoint.lookup 1 ≠ some 1 ∧
      ¬ d.mapsInverse := by
  refine ⟨_, _, rfl, rfl, rfl, rfl, rfl, by decide, ?_⟩
  intro h
  have := (h 1 1).mp rfl
  revert this
  decide

theorem chunk_node.linkNeighbour_untouched (e : entity_handle) (s t : escene)
    (p : entity_handle × joint_ptr) (h : chunk_node.linkNeighbour e s p = some t)
    (x : entity_handle) (hx : x ≠ e) (hxp : x ≠ p.1) : t.chunk_nodes x = s.chunk_nodes x := by
  unfold chunk_node.linkNeighbour at h
  cases hc : s.chunk_nodes e with
  | none => simp [hc] at h
  | some c =>
    simp only [hc] at h
    cases hp : (s.setNode e { c with neighbours := set_emplace c.neighbours p.1 }).chunk_nodes p.1 with
    | none => simp [hp] at h
    | some chunk =>
      simp only [hp] at h
      split at h
      · cases h
        simp [escene.setNode_nodes, hx, hxp]
      · cases h
        simp [escene.setNode_nodes, hx]

theorem chunk_node.linkNeighbours_untouched (e : entity_handle)
    (l : List (entity_handle × joint_ptr)) :
    ∀ (s t : escene), l.foldlM (chunk_node.linkNeighbour e) s = some t →
      ∀ x, x ≠ e → x ∉ l.map Prod.fst → t.chunk_nodes x = s.chunk_nodes x := by
  induction l with
  | nil =>
    intro s t h x _ _
    simp only [List.foldlM_nil, Option.pure_def, Option.some.injEq] at h
    rw [h]
  | cons p l ih =>
    intro s t h x hx hxl
    simp only [List.foldlM_cons, Option.bind_eq_bind, Option.bind_eq_some] at h
    obtain ⟨u, hu, ht⟩ := h
    simp only [List.map_cons, List.mem_cons, not_or] at hxl
    rw [ih u t ht x hx hxl.2, chunk_node.linkNeighbour_untouched e s u p hu x hx hxl.1]

theorem chunk_node.setup_untouched (m : chunk_graph_manager) (s t : escene) (e : entity_handle)
    (c : chunk_node) (hc : s.chunk_nodes e = some c) (hh : c.handle = e)
    (h : chunk_node.setup m s e = some t) (x : entity_handle) (hx : x ≠ e)
    (hxt : x ∉ m.targets s e) : t.chunk_nodes x = s.chunk_nodes x := by
  subst hh
  unfold chunk_node.setup chunk_node.freeze at h
  simp only [hc] at h
  cases hrb : s.rigidbodies c.handle with
  | none => simp [hrb] at h
  | some rb =>
    simp only [hrb, hc] at h
    cases hj : m.joints.lookup c.handle with
    | none =>
      simp only [hj, Option.some.injEq] at h
      subst h
      rw [escene.setNode_nodes, if_neg hx]
    | some js =>
      simp only [hj] at h
      have hk := chunk_node.addJoints_keys s js { c with jointToChunk := [], chunkToJoint := [] }
      generalize js.foldl (chunk_node.addJoint s) { c with jointToChunk := [], chunkToJoint := [] }
        = c2 at h hk
      rw [chunk_node.linkNeighbours_untouched c.handle _ _ t h x hx, escene.setNode_nodes,
        if_neg hx]
      intro hmem
      apply hxt
      have := (hk x).mp hmem
      simpa [chunk_graph_manager.targets, hj] using this

theorem chunk_graph_manager.targets_frame (m : chunk_graph_manager) (s t : escene)
    (h : t.jointHeap = s.jointHeap) (b : entity_handle) : m.targets t b = m.targets s b := by
  unfold chunk_graph_manager.targets
  rw [h]

theorem chunk_graph_manager.wire_fold_frame (l : List entity_handle) :
    ∀ (ms : chunk_graph_manager × escene),
      (∀ b ∈ l, ∃ c, ms.2.chunk_nodes b = some c ∧ c.handle = b) →
      (∀ b ∈ l, (ms.2.rigidbodies b).isSome) →
      (∀ b ∈ l, ∀ y ∈ ms.1.targets ms.2 b, (ms.2.chunk_nodes y).isSome) →
      ∃ r, l.foldlM chunk_graph_manager.wire ms = some r ∧ ms.2.sameFrame r.2 ∧
        r.1.joints = ms.1.joints ∧ r.1.nbNodes = ms.1.nbNodes ∧ r.1.nodes = ms.1.nodes ++ l ∧
        ∀ x, x ∉ l → (∀ b ∈ l, x ∉ ms.1.targets ms.2 b) →
          r.2.chunk_nodes x = ms.2.chunk_nodes x := by
  induction l with
  | nil =>
    intro ms _ _ _
    exact ⟨ms, rfl, ms.2.sameFrame_refl, rfl, rfl, by simp, fun _ _ _ => rfl⟩
  | cons b l ih =>
    intro ms hn hrb ht
    have hb := List.mem_cons_self b l
    obtain ⟨c, hc, hh⟩ := hn b hb
    obtain ⟨t, ht1⟩ := Option.isSome_iff_exists.mp
      (chunk_node.setup_some ms.1 ms.2 b c hc hh (hrb b hb) (ht b hb))
    obtain ⟨f1, -, -⟩ := chunk_node.setup_spec ms.1 ms.2 t b c hc hh ht1
    have hu : chunk_graph_manager.wire ms b =
        some ({ ms.1 with nodes := ms.1.nodes ++ [b] }, t) := by
      simp [chunk_graph_manager.wire, ht1]
    have hjh : t.jointHeap = ms.2.jointHeap := escene.sameFrame_jointHeap f1
    have htg : ∀ (m : chunk_graph_manager) z, m.targets t z = m.targets ms.2 z :=
      fun m z => chunk_graph_manager.targets_frame m ms.2 t hjh z
    obtain ⟨r, hr, f2, j2, n2, l2, u2⟩ := ih ({ ms.1 with nodes := ms.1.nodes ++ [b] }, t)
      (by
        intro x hx
        obtain ⟨d, hd, hdh⟩ := hn x (List.mem_cons_of_mem _ hx)
        obtain ⟨d2, hd2, hcore⟩ := (f1.2 x).2 d hd
        exact ⟨d2, hd2, hcore.1.trans hdh⟩)
      (by
        intro x hx
        show (t.rigidbodies x).isSome
        rw [escene.sameFrame_rigidbodies f1]
        exact hrb x (List.mem_cons_of_mem _ hx))
      (by
        intro x hx y hy
        show (t.chunk_nodes y).isSome
        rw [escene.sameFrame_isSome f1]
        apply ht x (List.mem_cons_of_mem _ hx) y
        have : y ∈ chunk_graph_manager.targets ms.1 t x := hy
        rw [htg] at this
        exact this)
    refine ⟨r, by simp only [List.foldlM_cons, Option.bind_eq_bind, hu, Option.some_bind, hr],
      escene.sameFrame_trans f1 f2, j2, n2, ?_, ?_⟩
    · rw [l2]
      simp
    · intro x hx hxt
      simp only [List.mem_cons, not_or] at hx
      rw [u2 x hx.2 (by
        intro z hz
        have := hxt z (List.mem_cons_of_mem _ hz)
        show x ∉ chunk_graph_manager.targets ms.1 t z
        rw [htg]
        exact this)]
      exact chunk_node.setup_untouched ms.1 ms.2 t b c hc hh ht1 x hx.1 (hxt b hb)

/-- C18 (amended). For every list of chunk handles, after
`chunk_graph_manager::setup(bodies)` every listed chunk has a node; the node
of a chunk that carried none before the call is new and has its `frozen` flag
true, while a node that already existed keeps the `frozen` flag it had, since
`freeze()` writes only to the rigid body.  The call returns when every listed
chunk has a rigid body, existing nodes carry the handle of their entity, and the
recorded joints lead to listed chunks or to chunks that have a node. -/
theorem setup_keeps_frozen_flag (m : chunk_graph_manager) (s : escene)
    (bodies : List entity_handle) (generation : Nat)
    (hh : ∀ b ∈ bodies, ∀ c, s.chunk_nodes b = some c → c.handle = b)
    (hrb : ∀ b ∈ bodies, (s.rigidbodies b).isSome)
    (htgt : ∀ b ∈ bodies, ∀ y ∈ m.targets s b, y ∈ bodies ∨ (s.chunk_nodes y).isSome) :
    ∃ r, m.setup s bodies generation = some r ∧
      ∀ b ∈ bodies, ∃ d, r.2.chunk_nodes b = some d ∧
        d.frozen = match s.chunk_nodes b with
          | none => true
          | some c => c.frozen := by
  obtain ⟨e1, n1⟩ := chunk_graph_manager.attach_fold generation bodies s
  generalize hs1 : bodies.foldl (chunk_graph_manager.attach generation) s = s1 at e1 n1
  have hnode : ∀ b ∈ bodies, ∃ c, s1.chunk_nodes b = some c ∧ c.handle = b ∧
      c.frozen = match s.chunk_nodes b with
        | none => true
        | some c => c.frozen := by
    intro b hb
    rw [n1]
    cases hsb : s.chunk_nodes b with
    | none => exact ⟨chunk_node.mk2 b generation, by simp [hb], rfl, rfl⟩
    | some c => exact ⟨c, rfl, hh b hb c hsb, rfl⟩
  have hjh : s1.jointHeap = s.jointHeap := by rw [e1]
  obtain ⟨r, hr, f, -, -, -, -⟩ := chunk_graph_manager.wire_fold_frame bodies
    ({ m with nbNodes := bodies.length }, s1)
    (fun b hb => by
      obtain ⟨c, hc, hch, -⟩ := hnode b hb
      exact ⟨c, hc, hch⟩)
    (fun b hb => by
      show (s1.rigidbodies b).isSome
      rw [e1]
      exact hrb b hb)
    (fun b hb y hy => by
      have hy2 : y ∈ m.targets s b := by
        have : y ∈ chunk_graph_manager.targets m s1 b := hy
        rw [chunk_graph_manager.targets_frame m s s1 hjh] at this
        exact this
      show (s1.chunk_nodes y).isSome
      rcases htgt b hb y hy2 with h | h
      · obtain ⟨c, hc, -⟩ := hnode y h
        simp [hc]
      · rw [n1]
        obtain ⟨c, hc⟩ := Option.isSome_iff_exists.mp h
        simp [hc])
  refine ⟨r, ?_, ?_⟩
  · unfold chunk_graph_manager.setup
    rw [hs1]
    exact hr
  · intro b hb
    obtain ⟨c, hc, -, hfr⟩ := hnode b hb
    obtain ⟨d, hd, hcore⟩ := (f.2 b).2 c hc
    exact ⟨d, hd, hcore.2.1.trans hfr⟩


/-- Instance of the amended C18: `setup` run again on the four chunks of the
example graph after all of them were unfrozen. -/
theorem setup_keeps_frozen_flag_witness :
    ∃ r, exampleManager.setup thawedScene [0, 1, 2, 3] 0 = some r ∧
      ∀ b ∈ [0, 1, 2, 3], ∃ d, r.2.chunk_nodes b = some d ∧
        d.frozen = match thawedScene.chunk_nodes b with
          | none => true
          | some c => c.frozen :=
  setup_keeps_frozen_flag exampleManager thawedScene [0, 1, 2, 3] 0
    (by
      have key : ∀ b ∈ [0, 1, 2, 3],
          (thawedScene.chunk_nodes b).map (fun c => c.handle) = some b := by decide
      intro b hb c hc
      have := key b hb
      rw [hc] at this
      exact Option.some.inj this)
    (by decide) (by decide)

/-- C18 (counterexample). The four chunks of the example graph carry chunk nodes
whose `frozen` flag is false after `searchGraph` unfroze them.  Running
`chunk_graph_manager::setup` on the same four handles returns and leaves the
`frozen` flag of every one of these nodes false, so it is not the case that the
flag of every listed chunk is true after the call. -/
theorem setup_leaves_unfrozen_nodes_unfrozen :
    (∀ b ∈ [0, 1, 2, 3], (thawedScene.chunk_nodes b).map (fun c => c.frozen) = some false) ∧
    ∃ r, exampleManager.setup thawedScene [0, 1, 2, 3] 0 = some r ∧
      (∀ b ∈ [0, 1, 2, 3], (r.2.chunk_nodes b).map (fun c => c.frozen) = some false) ∧
      ¬ ∀ b ∈ [0, 1, 2, 3], ∃ c, r.2.chunk_nodes b = some c ∧ c.frozen = true := by
  refine ⟨by decide, _, rfl, by decide, ?_⟩
  intro h
  obtain ⟨c, hc, hf⟩ := h 2 (by decide)
  have h2 : ((exampleManager.setup thawedScene [0, 1, 2, 3] 0).map
      (fun r => (r.2.chunk_nodes 2).map (fun c => c.frozen))) = some (some false) := by decide
  have h3 : exampleManager.setup thawedScene [0, 1, 2, 3] 0 = some _ := rfl
  rw [h3] at h2
  simp only [Option.map_some'] at h2
  rw [hc] at h2
  simp only [Option.map_some', Option.some.injEq] at h2
  rw [hf] at h2
  cases h2

theorem chunk_graph_manager.setup_frame (m : chunk_graph_manager) (s : escene)
    (bodies : List entity_handle) (generation : Nat)
    (hh : ∀ b ∈ bodies, ∀ c, s.chunk_nodes b = some c → c.handle = b)
    (hrb : ∀ b ∈ bodies, (s.rigidbodies b).isSome)
    (htgt : ∀ b ∈ bodies, ∀ y ∈ m.targets s b, y ∈ bodies ∨ (s.chunk_nodes y).isSome) :
    ∃ r, m.setup s bodies generation = some r ∧
      r.2 = { s with chunk_nodes := r.2.chunk_nodes } ∧
      r.1.joints = m.joints ∧ r.1.nbNodes = bodies.length ∧ r.1.nodes = m.nodes ++ bodies ∧
      (∀ b ∈ bodies, ∃ d, r.2.chunk_nodes b = some d ∧ d.handle = b) ∧
      ∀ x, x ∉ bodies → (∀ b ∈ bodies, x ∉ m.targets s b) →
        r.2.chunk_nodes x = s.chunk_nodes x := by
  obtain ⟨e1, n1⟩ := chunk_graph_manager.attach_fold generation bodies s
  generalize hs1 : bodies.foldl (chunk_graph_manager.attach generation) s = s1 at e1 n1
  have hnode : ∀ b ∈ bodies, ∃ c, s1.chunk_nodes b = some c ∧ c.handle = b := by
    intro b hb
    rw [n1]
    cases hsb : s.chunk_nodes b with
    | none => exact ⟨chunk_node.mk2 b generation, by simp [hb], rfl⟩
    | some c => exact ⟨c, rfl, hh b hb c hsb⟩
  have hjh : s1.jointHeap = s.jointHeap := by rw [e1]
  obtain ⟨r, hr, f, j, n, l, u⟩ := chunk_graph_manager.wire_fold_frame bodies
    ({ m with nbNodes := bodies.length }, s1) hnode
    (fun b hb => by
      show (s1.rigidbodies b).isSome
      rw [e1]
      exact hrb b hb)
    (fun b hb y hy => by
      have hy2 : y ∈ m.targets s b := by
        have : y ∈ chunk_graph_manager.targets m s1 b := hy
        rw [chunk_graph_manager.targets_frame m s s1 hjh] at this
        exact this
      show (s1.chunk_nodes y).isSome
      rcases htgt b hb y hy2 with h | h
      · obtain ⟨c, hc, -⟩ := hnode y h
        simp [hc]
      · rw [n1]
        obtain ⟨c, hc⟩ := Option.isSome_iff_exists.mp h
        simp [hc])
  refine ⟨r, ?_, ?_, j, n, l, ?_, ?_⟩
  · unfold chunk_graph_manager.setup
    rw [hs1]
    exact hr
  · have h1 := f.1
    simp only at h1
    rw [h1, e1]
  · intro b hb
    obtain ⟨c, hc, hch⟩ := hnode b hb
    obtain ⟨d, hd, hcore⟩ := (f.2 b).2 c hc
    exact ⟨d, hd, hcore.1.trans hch⟩
  · intro x hx hxt
    have := u x hx (by
      intro b hb
      show x ∉ chunk_graph_manager.targets m s1 b
      rw [chunk_graph_manager.targets_frame m s s1 hjh]
      exact hxt b hb)
    rw [this]
    show s1.chunk_nodes x = _
    rw [n1]
    cases s.chunk_nodes x <;> simp [hx]

/-- The chunk nodes that `processDamage` leaves alone when it re-fractures. -/
theorem chunk_node.processDamage_untouched (px : px_physics_engine) (s t : escene)
    (e : entity_handle) (impulse : vec3) (c : chunk_node)
    (hc : s.chunk_nodes e = some c) (hh : c.handle = e) (he : e < s.nextEntity)
    (h : chunk_node.processDamage px s e impulse = some t) (x : entity_handle) (hxe : x ≠ e)
    (hx : x < s.nextEntity) : t.chunk_nodes x = s.chunk_nodes x := by
  subst hh
  unfold chunk_node.processDamage at h
  simp only [hc] at h
  split at h
  swap
  · cases h; rfl
  split at h
  swap
  · cases h; rfl
  split at h
  · cases h; rfl
  have hroot : s.createFractureRoot.2 = s.nextEntity := rfl
  generalize hs1 : s.createFractureRoot.1 = s1 at h
  have s1next : s1.nextEntity = s.nextEntity + 1 := by rw [← hs1]; rfl
  have s1node : ∀ y, s1.chunk_nodes y = if y = s.nextEntity then none else s.chunk_nodes y := by
    intro y; rw [← hs1]
    simp [escene.createFractureRoot, escene.createEntity, Function.update_apply]
  cases hm : s1.nvmesh_chunks c.handle with
  | none => simp [hm] at h
  | some mesh =>
    simp only [hm] at h
    obtain ⟨blen, bg⟩ := buildChunks_spec px s1
      ((s1.transforms c.handle).getD trs.identity) (px.fractureMeshesInNvblast 5 mesh false)
      (15 / 2) 0
    generalize hb : buildChunks px s1 ((s1.transforms c.handle).getD trs.identity)
      (px.fractureMeshesInNvblast 5 mesh false) (15 / 2) 0 = b at blen bg h
    obtain ⟨g1, g2, g3, g4, g5, g6, g7, g8⟩ := bg
    rw [s1next, blen] at g1
    have hchunk_gt : ∀ ch ∈ b.2, s.nextEntity < ch := by
      intro ch hch
      rw [g1] at hch
      have := (List.mem_range'_1.mp hch).1
      unfold entity_handle at *
      omega
    have hxc : x ∉ b.2 := by
      intro hmem
      have := hchunk_gt x hmem
      unfold entity_handle at *
      omega
    have hxf : x ≠ s.nextEntity := by
      unfold entity_handle at *
      omega
    have hchunk_ne : ∀ ch ∈ b.2, ch ≠ c.handle := by
      intro ch hch h0
      have := hchunk_gt ch hch
      rw [h0] at this
      unfold entity_handle at *
      omega
    obtain ⟨r, hr, -, -, -, -, -, r6⟩ := chunk_graph_manager.setup_frame {}
      (b.1.setNode c.handle { c with spliteGeneration := c.spliteGeneration + 1 }) b.2
      (c.spliteGeneration + 1)
      (by
        intro ch hch d hd
        rw [escene.setNode_nodes, if_neg (hchunk_ne ch hch), g4] at hd
        simp [hch] at hd)
      (by
        intro ch hch
        exact g6 ch hch)
      (by
        intro ch _ y hy
        simp [chunk_graph_manager.targets] at hy)
    rw [hr] at h
    simp only [Option.some.injEq] at h
    subst h
    simp only [escene.deleteEntity, Function.update_apply, hxe, if_false]
    rw [r6 x hxc (by
      intro b0 _ hy
      simp [chunk_graph_manager.targets] at hy), escene.setNode_nodes, if_neg hxe, g4, if_neg hxc,
      s1node, if_neg hxf]


/-- C19 (amended). When a chunk `C` re-fractures in `processDamage`, its entity
and its chunk node leave the scene, every other entity stays, and the chunk
node of every other entity that existed before the call is left exactly as it
was: `remove` is not called on the neighbours, so a neighbour that had the
handle of `C` in its neighbours set or as a key of its `chunkToJoint` map still
has it after the call. -/
theorem processDamage_leaves_neighbours_untouched (px : px_physics_engine) (s : escene)
    (e : entity_handle) (impulse : vec3) (c : chunk_node) (mesh : nvmesh)
    (hc : s.chunk_nodes e = some c) (hh : c.handle = e) (he : e < s.nextEntity)
    (hmesh : s.nvmesh_chunks e = some mesh)
    (hgen : c.spliteGeneration < maxSpliteGeneration) (himp : px.magnitude impulse > 5)
    (hne : s.registrySize ≠ 0) :
    ∃ t, chunk_node.processDamage px s e impulse = some t ∧
      e ∉ t.entities ∧ t.chunk_nodes e = none ∧
      (∀ x ∈ s.entities, x ≠ e → x ∈ t.entities) ∧
      ∀ x, x ≠ e → x < s.nextEntity → t.chunk_nodes x = s.chunk_nodes x := by
  obtain ⟨t, chunks, ht, -, -, hent, hnode, -, -, -⟩ :=
    chunk_node.processDamage_active px s e impulse c mesh hc hh he hmesh hgen himp hne
  refine ⟨t, ht, ?_, hnode, ?_, ?_⟩
  · rw [hent]
    simp
  · intro x hx hxe
    rw [hent]
    simp [hx, hxe]
  · intro x hxe hx
    exact chunk_node.processDamage_untouched px s t e impulse c hc hh he ht x hxe hx

/-- Instance of the amended C19: an impulse of magnitude 6 on chunk 12 of the
fractured example world. -/
theorem processDamage_leaves_neighbours_untouched_witness :
    ∃ t, chunk_node.processDamage examplePhysics fracturedWorld.1 12 { x := 6 } = some t ∧
      12 ∉ t.entities ∧ t.chunk_nodes 12 = none ∧
      (∀ x ∈ fracturedWorld.1.entities, x ≠ 12 → x ∈ t.entities) ∧
      ∀ x, x ≠ 12 → x < fracturedWorld.1.nextEntity →
        t.chunk_nodes x = fracturedWorld.1.chunk_nodes x := by
  obtain ⟨c, hc, hh, hg⟩ : ∃ c, fracturedWorld.1.chunk_nodes 12 = some c ∧ c.handle = 12 ∧
      c.spliteGeneration = 0 := ⟨_, rfl, rfl, rfl⟩
  obtain ⟨mesh, hmesh⟩ : ∃ mesh, fracturedWorld.1.nvmesh_chunks 12 = some mesh := ⟨_, rfl⟩
  exact processDamage_leaves_neighbours_untouched examplePhysics fracturedWorld.1 12 { x := 6 } c
    mesh hc hh (by decide) hmesh (by rw [hg]; decide) (by norm_num [examplePhysics]) (by decide)

/-- C19 (counterexample). In the fractured example world chunk 12 has the
neighbour 13.  An impulse of magnitude 6 makes chunk 12 re-fracture: it leaves
the scene, chunk 13 survives, and the node of chunk 13 still has the handle 12
in its neighbours set and as a key of its `chunkToJoint` map. -/
theorem processDamage_keeps_stale_neighbour :
    (fracturedWorld.1.chunk_nodes 12).map (fun c => c.neighbours) = some [13] ∧
    ∃ t d, chunk_node.processDamage examplePhysics fracturedWorld.1 12 { x := 6 } = some t ∧
      12 ∉ t.entities ∧ 13 ∈ t.entities ∧ t.chunk_nodes 13 = some d ∧
      12 ∈ d.neighbours ∧ 12 ∈ d.chunkToJoint.map Prod.fst := by
  refine ⟨by decide, ?_⟩
  obtain ⟨c, hc, hh, hg⟩ : ∃ c, fracturedWorld.1.chunk_nodes 12 = some c ∧ c.handle = 12 ∧
      c.spliteGeneration = 0 := ⟨_, rfl, rfl, rfl⟩
  obtain ⟨mesh, hmesh⟩ : ∃ mesh, fracturedWorld.1.nvmesh_chunks 12 = some mesh := ⟨_, rfl⟩
  obtain ⟨t, chunks, ht, -, -, hent, -, -, -, -⟩ :=
    chunk_node.processDamage_active examplePhysics fracturedWorld.1 12 { x := 6 } c mesh hc hh
      (by decide) hmesh (by rw [hg]; decide) (by norm_num [examplePhysics]) (by decide)
  have h13 := chunk_node.processDamage_untouched examplePhysics fracturedWorld.1 t 12 { x := 6 } c
    hc hh (by decide) ht 13 (by decide) (by decide)
  obtain ⟨d, hd, hn, hk⟩ : ∃ d, fracturedWorld.1.chunk_nodes 13 = some d ∧ 12 ∈ d.neighbours ∧
      12 ∈ d.chunkToJoint.map Prod.fst := ⟨_, rfl, by decide, by decide⟩
  have he : fracturedWorld.1.entities = [10, 11, 12, 13] := by decide
  refine ⟨t, d, ht, ?_, ?_, h13.trans hd, hn, hk⟩
  · rw [hent]; simp
  · rw [hent, he]; simp

theorem buildChunks_tables_fold (px : px_physics_engine) (transform : trs) (chunkMass : ℚ)
    (generation : Nat) (meshes : List (submesh_asset × nvmesh)) :
    ∀ (acc : escene × List entity_handle),
      (meshes.foldl
          (fun acc mesh =>
            let r := buildChunk px acc.1 transform mesh chunkMass generation
            (r.1, acc.2 ++ [r.2])) acc).1.jointHeap = acc.1.jointHeap ∧
      (meshes.foldl
          (fun acc mesh =>
            let r := buildChunk px acc.1 transform mesh chunkMass generation
            (r.1, acc.2 ++ [r.2])) acc).1.nbJoints = acc.1.nbJoints ∧
      (∀ x, x < acc.1.nextEntity →
        (meshes.foldl
          (fun acc mesh =>
            let r := buildChunk px acc.1 transform mesh chunkMass generation
            (r.1, acc.2 ++ [r.2])) acc).1.transforms x = acc.1.transforms x ∧
        (meshes.foldl
          (fun acc mesh =>
            let r := buildChunk px acc.1 transform mesh chunkMass generation
            (r.1, acc.2 ++ [r.2])) acc).1.meshes x = acc.1.meshes x) ∧
      ∀ i m, meshes[i]? = some m →
        (meshes.foldl
          (fun acc mesh =>
            let r := buildChunk px acc.1 transform mesh chunkMass generation
            (r.1, acc.2 ++ [r.2])) acc).1.transforms (acc.1.nextEntity + i) = some transform ∧
        (meshes.foldl
          (fun acc mesh =>
            let r := buildChunk px acc.1 transform mesh chunkMass generation
            (r.1, acc.2 ++ [r.2])) acc).1.meshes (acc.1.nextEntity + i) =
          some (m.1, px.aabb m.1) := by
  induction meshes with
  | nil =>
    intro acc
    refine ⟨rfl, rfl, fun x _ => ⟨rfl, rfl⟩, fun i m h => ?_⟩
    simp at h
  | cons mesh rest ih =>
    intro acc
    simp only [List.foldl_cons]
    obtain ⟨h1, h2, h3, h4⟩ := ih ((buildChunk px acc.1 transform mesh chunkMass generation).1,
      acc.2 ++ [(buildChunk px acc.1 transform mesh chunkMass generation).2])
    have hnext : (buildChunk px acc.1 transform mesh chunkMass generation).1.nextEntity =
        acc.1.nextEntity + 1 := rfl
    have htr : ∀ x, (buildChunk px acc.1 transform mesh chunkMass generation).1.transforms x =
        if x = acc.1.nextEntity then some transform else acc.1.transforms x := by
      intro x
      simp [buildChunk, escene.createEntity, Function.update_apply]
    have hms : ∀ x, (buildChunk px acc.1 transform mesh chunkMass generation).1.meshes x =
        if x = acc.1.nextEntity then some (mesh.1, px.aabb mesh.1) else acc.1.meshes x := by
      intro x
      simp [buildChunk, escene.createEntity, Function.update_apply]
    refine ⟨h1.trans rfl, h2.trans rfl, ?_, ?_⟩
    · intro x hx
      have hx1 : x < (buildChunk px acc.1 transform mesh chunkMass generation).1.nextEntity := by
        rw [hnext]; unfold entity_handle at *; omega
      have hx2 : x ≠ acc.1.nextEntity := by unfold entity_handle at *; omega
      obtain ⟨a, b⟩ := h3 x hx1
      exact ⟨by rw [a, htr, if_neg hx2], by rw [b, hms, if_neg hx2]⟩
    · intro i m hi
      cases i with
      | zero =>
        simp only [List.getElem?_cons_zero, Option.some.injEq] at hi
        subst hi
        have hx1 : acc.1.nextEntity <
            (buildChunk px acc.1 transform mesh chunkMass generation).1.nextEntity := by
          rw [hnext]; unfold entity_handle at *; omega
        obtain ⟨a, b⟩ := h3 acc.1.nextEntity hx1
        simp only [Nat.add_zero]
        exact ⟨by rw [a, htr, if_pos rfl], by rw [b, hms, if_pos rfl]⟩
      | succ i =>
        simp only [List.getElem?_cons_succ] at hi
        have := h4 i m hi
        rw [hnext] at this
        have e : acc.1.nextEntity + (i + 1) = acc.1.nextEntity + 1 + i := by
          unfold entity_handle at *; omega
        rw [e]
        exact this

theorem buildChunks_tables (px : px_physics_engine) (s : escene) (transform : trs)
    (meshes : List (submesh_asset × nvmesh)) (chunkMass : ℚ) (generation : Nat) :
    (buildChunks px s transform meshes chunkMass generation).1.jointHeap = s.jointHeap ∧
    (buildChunks px s transform meshes chunkMass generation).1.nbJoints = s.nbJoints ∧
    (∀ x, x < s.nextEntity →
      (buildChunks px s transform meshes chunkMass generation).1.transforms x = s.transforms x ∧
      (buildChunks px s transform meshes chunkMass generation).1.meshes x = s.meshes x) ∧
    ∀ i m, meshes[i]? = some m →
      (buildChunks px s transform meshes chunkMass generation).1.transforms (s.nextEntity + i) =
        some transform ∧
      (buildChunks px s transform meshes chunkMass generation).1.meshes (s.nextEntity + i) =
        some (m.1, px.aabb m.1) :=
  buildChunks_tables_fold px transform chunkMass generation meshes (s, [])

theorem joints_push_perm (js : List (entity_handle × List joint_ptr)) (k : entity_handle)
    (j : joint_ptr) (h : map_contains js k = true) :
    ((joints_push js k j).flatMap Prod.snd).Perm (js.flatMap Prod.snd ++ [j]) := by
  induction js with
  | nil => simp [map_contains] at h
  | cons p rest ih =>
    unfold joints_push
    by_cases hp : p.1 = k
    · have : (p.1 == k) = true := by simpa using hp
      simp only [this, if_true, List.flatMap_cons, List.append_assoc]
      exact List.Perm.append_left _ List.perm_append_comm
    · have : (p.1 == k) = false := by simpa using hp
      simp only [this, Bool.false_eq_true, if_false, List.flatMap_cons, List.append_assoc]
      apply List.Perm.append_left
      apply ih
      have hk : (k == p.1) = false := by
        simpa using (fun h0 : k = p.1 => hp h0.symm)
      obtain ⟨a, v⟩ := p
      simpa [map_contains, List.lookup, hk] using h

theorem fracture.connectOverlap_spec (chunk o : entity_handle) (m : chunk_graph_manager)
    (s : escene) (hrb : o ≠ chunk → (s.rigidbodies o).isSome)
    (hok : ∀ j ∈ m.allJoints, j < s.nbJoints) :
    ∃ r, fracture.connectOverlap chunk (m, s) o = some r ∧
      r.2 = { s with jointHeap := r.2.jointHeap, nbJoints := r.2.nbJoints } ∧
      (∀ j ∈ r.1.allJoints, j < r.2.nbJoints) ∧
      r.1.nodes = m.nodes ∧ r.1.nbNodes = m.nbNodes ∧
      (r.1.jointPairs r.2).Perm
        (m.jointPairs s ++ (if o != chunk then [(chunk, o)] else [])) := by
  unfold fracture.connectOverlap
  by_cases ho : o = chunk
  · subst ho
    simp only [bne_self_eq_false, Bool.false_eq_true, if_false, List.append_nil]
    exact ⟨(m, s), rfl, rfl, hok, rfl, rfl, List.Perm.refl _⟩
  · have hne : (o != chunk) = true := by simpa using ho
    obtain ⟨rb, hrb1⟩ := Option.isSome_iff_exists.mp (hrb ho)
    simp only [hne, if_true, hrb1]
    have hpairs : ∀ (js : List joint_ptr), (∀ j ∈ js, j < s.nbJoints) →
        js.map (fun j =>
          ((Function.update s.jointHeap s.nbJoints
              ({ first := chunk, second := o, desc := (1 / 10, 1 / 10, 2000, 1000),
                 joint := some false } : px_fixed_joint) j).first,
           (Function.update s.jointHeap s.nbJoints
              ({ first := chunk, second := o, desc := (1 / 10, 1 / 10, 2000, 1000),
                 joint := some false } : px_fixed_joint) j).second)) =
        js.map (fun j => ((s.jointHeap j).first, (s.jointHeap j).second)) := by
      intro js hjs
      apply List.map_congr_left
      intro j hj
      have : j ≠ s.nbJoints := Nat.ne_of_lt (hjs j hj)
      rw [Function.update_noteq this]
    have hnew : ∀ (m1 : chunk_graph_manager),
        m1.allJoints.Perm (m.allJoints ++ [s.nbJoints]) →
        (∀ j ∈ m1.allJoints, j < s.nbJoints + 1) ∧
        (m1.jointPairs { s with
            jointHeap := Function.update s.jointHeap s.nbJoints
              { first := chunk, second := o, desc := (1 / 10, 1 / 10, 2000, 1000),
                joint := some false },
            nbJoints := s.nbJoints + 1 }).Perm (m.jointPairs s ++ [(chunk, o)]) := by
      intro m1 hperm
      constructor
      · intro j hj
        have := hperm.mem_iff.mp hj
        rcases List.mem_append.mp this with h | h
        · exact Nat.lt_succ_of_lt (hok j h)
        · simp only [List.mem_singleton] at h
          rw [h]
          exact Nat.lt_succ_self _
      · unfold chunk_graph_manager.jointPairs
        refine (List.Perm.map _ hperm).trans ?_
        rw [List.map_append]
        simp only [List.map_cons, List.map_nil, Function.update_same]
        rw [hpairs m.allJoints hok]
    by_cases hc : map_contains m.joints chunk = true
    · simp only [hc, if_true]
      obtain ⟨h1, h2⟩ := hnew { m with joints := joints_push m.joints chunk s.nbJoints }
        (joints_push_perm m.joints chunk s.nbJoints hc)
      exact ⟨_, rfl, rfl, h1, rfl, rfl, h2⟩
    · simp only [hc, Bool.false_eq_true, if_false]
      obtain ⟨h1, h2⟩ := hnew { m with joints := map_emplace m.joints chunk [s.nbJoints] }
        (by
          simp only [chunk_graph_manager.allJoints, map_emplace, hc, Bool.false_eq_true, if_false,
            List.flatMap_append, List.flatMap_cons, List.flatMap_nil, List.append_nil]
          exact List.Perm.refl _)
      exact ⟨_, rfl, rfl, h1, rfl, rfl, h2⟩

theorem fracture.connectOverlaps_spec (chunk : entity_handle) (ov : List entity_handle) :
    ∀ (m : chunk_graph_manager) (s : escene),
      (∀ o ∈ ov, o ≠ chunk → (s.rigidbodies o).isSome) →
      (∀ j ∈ m.allJoints, j < s.nbJoints) →
      ∃ r, ov.foldlM (fracture.connectOverlap chunk) (m, s) = some r ∧
        r.2 = { s with jointHeap := r.2.jointHeap, nbJoints := r.2.nbJoints } ∧
        (∀ j ∈ r.1.allJoints, j < r.2.nbJoints) ∧
        r.1.nodes = m.nodes ∧ r.1.nbNodes = m.nbNodes ∧
        (r.1.jointPairs r.2).Perm
          (m.jointPairs s ++ (ov.filter (fun o => o != chunk)).map (fun o => (chunk, o))) := by
  induction ov with
  | nil =>
    intro m s _ hok
    exact ⟨(m, s), rfl, rfl, hok, rfl, rfl, by simp⟩
  | cons o ov ih =>
    intro m s hrb hok
    obtain ⟨u, hu, f1, k1, n1, b1, p1⟩ := fracture.connectOverlap_spec chunk o m s
      (hrb o (List.mem_cons_self _ _)) hok
    have hrbu : u.2.rigidbodies = s.rigidbodies := by rw [f1]
    obtain ⟨r, hr, f2, k2, n2, b2, p2⟩ := ih u.1 u.2
      (by
        intro x hx hxc
        rw [hrbu]
        exact hrb x (List.mem_cons_of_mem _ hx) hxc) k1
    refine ⟨r, by simp only [List.foldlM_cons, Option.bind_eq_bind, hu, Option.some_bind, hr],
      ?_, k2, n2.trans n1, b2.trans b1, ?_⟩
    · rw [f2, f1]
    · refine p2.trans ?_
      refine (List.Perm.append_right _ p1).trans ?_
      rw [List.append_assoc]
      apply List.Perm.append_left
      by_cases ho : o = chunk
      · subst ho
        simp
      · have hne : (o != chunk) = true := by simpa using ho
        simp [hne, List.filter_cons]

theorem fracture.mem_overlapsOf (px : px_physics_engine) (transform : trs)
    (asset : submesh_asset) (x : entity_handle) :
    x ∈ fracture.overlapsOf px transform asset ↔
      ∃ v ∈ asset.positions, x ∈ px.overlapSphere transform v := by
  unfold fracture.overlapsOf
  have key : ∀ (ps : List vec3) (acc : List entity_handle),
      x ∈ ps.foldl (fun acc vertex => (px.overlapSphere transform vertex).foldl set_emplace acc)
        acc ↔ x ∈ acc ∨ ∃ v ∈ ps, x ∈ px.overlapSphere transform v := by
    intro ps
    induction ps with
    | nil => intro acc; simp
    | cons p ps ih =>
      intro acc
      rw [List.foldl_cons, ih, mem_foldl_set_emplace]
      constructor
      · rintro ((h | h) | ⟨v, hv, h⟩)
        · exact Or.inl h
        · exact Or.inr ⟨p, List.mem_cons_self _ _, h⟩
        · exact Or.inr ⟨v, List.mem_cons_of_mem _ hv, h⟩
      · rintro (h | ⟨v, hv, h⟩)
        · exact Or.inl (Or.inl h)
        · rcases List.mem_cons.mp hv with rfl | hv
          · exact Or.inl (Or.inr h)
          · exact Or.inr ⟨v, hv, h⟩
  rw [key]
  simp

theorem fracture.connectTouchingChunks_spec (px : px_physics_engine) (m : chunk_graph_manager)
    (s : escene) (asset : submesh_asset) (chunk : entity_handle) (jointBreakForce : ℚ)
    (transform : trs) (hrb : (s.rigidbodies chunk).isSome)
    (htr : s.transforms chunk = some transform) (hm : (s.meshes chunk).isSome)
    (hov : ∀ o ∈ fracture.overlapsOf px transform asset, o ≠ chunk → (s.rigidbodies o).isSome)
    (hok : ∀ j ∈ m.allJoints, j < s.nbJoints) :
    ∃ r, fracture.connectTouchingChunks px m s asset chunk jointBreakForce = some r ∧
      r.2 = { s with jointHeap := r.2.jointHeap, nbJoints := r.2.nbJoints } ∧
      (∀ j ∈ r.1.allJoints, j < r.2.nbJoints) ∧
      r.1.nodes = m.nodes ∧ r.1.nbNodes = m.nbNodes ∧
      (r.1.jointPairs r.2).Perm
        (m.jointPairs s ++ ((fracture.overlapsOf px transform asset).filter
          (fun o => o != chunk)).map (fun o => (chunk, o))) := by
  obtain ⟨rb, hrb1⟩ := Option.isSome_iff_exists.mp hrb
  obtain ⟨ms, hm1⟩ := Option.isSome_iff_exists.mp hm
  unfold fracture.connectTouchingChunks
  simp only [hrb1, htr, hm1]
  exact fracture.connectOverlaps_spec chunk (fracture.overlapsOf px transform asset) m s hov hok

theorem fracture.connectAll_spec (px : px_physics_engine) (jointBreakForce : ℚ) (transform : trs)
    (mcs : List ((submesh_asset × nvmesh) × entity_handle)) :
    ∀ (m : chunk_graph_manager) (s : escene),
      (∀ mc ∈ mcs, (s.rigidbodies mc.2).isSome ∧ s.transforms mc.2 = some transform ∧
        (s.meshes mc.2).isSome ∧
        ∀ o ∈ fracture.overlapsOf px transform mc.1.1, o ≠ mc.2 → (s.rigidbodies o).isSome) →
      (∀ j ∈ m.allJoints, j < s.nbJoints) →
      ∃ r, mcs.foldlM
          (fun acc mc =>
            fracture.connectTouchingChunks px acc.1 acc.2 mc.1.1 mc.2 jointBreakForce)
          (m, s) = some r ∧
        r.2 = { s with jointHeap := r.2.jointHeap, nbJoints := r.2.nbJoints } ∧
        (∀ j ∈ r.1.allJoints, j < r.2.nbJoints) ∧
        r.1.nodes = m.nodes ∧ r.1.nbNodes = m.nbNodes ∧
        (r.1.jointPairs r.2).Perm
          (m.jointPairs s ++ mcs.flatMap (fun mc =>
            ((fracture.overlapsOf px transform mc.1.1).filter (fun o => o != mc.2)).map
              (fun o => (mc.2, o)))) := by
  induction mcs with
  | nil =>
    intro m s _ hok
    exact ⟨(m, s), rfl, rfl, hok, rfl, rfl, by simp⟩
  | cons mc mcs ih =>
    intro m s hall hok
    obtain ⟨h1, h2, h3, h4⟩ := hall mc (List.mem_cons_self _ _)
    obtain ⟨u, hu, f1, k1, n1, b1, p1⟩ := fracture.connectTouchingChunks_spec px m s mc.1.1 mc.2
      jointBreakForce transform h1 h2 h3 h4 hok
    have hrbu : u.2.rigidbodies = s.rigidbodies := by rw [f1]
    have htru : u.2.transforms = s.transforms := by rw [f1]
    have hmsu : u.2.meshes = s.meshes := by rw [f1]
    obtain ⟨r, hr, f2, k2, n2, b2, p2⟩ := ih u.1 u.2
      (by
        intro x hx
        rw [hrbu, htru, hmsu]
        exact hall x (List.mem_cons_of_mem _ hx)) k1
    refine ⟨r, by simp only [List.foldlM_cons, Option.bind_eq_bind, hu, Option.some_bind, hr],
      ?_, k2, n2.trans n1, b2.trans b1, ?_⟩
    · rw [f2, f1]
    · refine p2.trans ?_
      refine (List.Perm.append_right _ p1).trans ?_
      rw [List.append_assoc, List.flatMap_cons]

theorem escene.setParents_frame (root : entity_handle) (chunks : List entity_handle) :
    ∀ s : escene,
      chunks.foldl (fun acc chunk => acc.setParent chunk root) s =
        { s with parent := (chunks.foldl (fun acc chunk => acc.setParent chunk root) s).parent } := by
  induction chunks with
  | nil => intro s; rfl
  | cons c chunks ih =>
    intro s
    rw [List.foldl_cons, ih]
    rfl

theorem fracture.anchorColliders_spec (l : List entity_handle) :
    ∀ s : escene, (∀ o ∈ l, (s.rigidbodies o).isSome) →
      ∃ t, l.foldlM fracture.anchorCollider s = some t ∧
        t = { s with rigidbodies := t.rigidbodies } ∧
        ∀ x, (t.rigidbodies x).isSome = (s.rigidbodies x).isSome := by
  induction l with
  | nil => intro s _; exact ⟨s, rfl, rfl, fun _ => rfl⟩
  | cons o l ih =>
    intro s h
    obtain ⟨rb, hrb⟩ := Option.isSome_iff_exists.mp (h o (List.mem_cons_self _ _))
    have hu : fracture.anchorCollider s o = some { s with
        rigidbodies := Function.update s.rigidbodies o (some (rb.setKinematic true)) } := by
      simp [fracture.anchorCollider, hrb]
    have hsome : ∀ x, ((Function.update s.rigidbodies o (some (rb.setKinematic true))) x).isSome =
        (s.rigidbodies x).isSome := by
      intro x
      rw [Function.update_apply]
      split
      · rename_i hx; subst hx; simp [hrb]
      · rfl
    obtain ⟨t, ht, f, k⟩ := ih { s with
        rigidbodies := Function.update s.rigidbodies o (some (rb.setKinematic true)) }
      (by
        intro x hx
        show ((Function.update s.rigidbodies o (some (rb.setKinematic true))) x).isSome
        rw [hsome]
        exact h x (List.mem_cons_of_mem _ hx))
    refine ⟨t, by simp only [List.foldlM_cons, Option.bind_eq_bind, hu, Option.some_bind, ht],
      ?_, ?_⟩
    · rw [f]
    · intro x
      rw [k]
      exact hsome x

theorem fracture.anchorChunks_spec (px : px_physics_engine) (s : escene)
    (gameObject : entity_handle) (mask : Nat) (htr : (s.transforms gameObject).isSome)
    (hbox : ∀ k < 6, ∀ tr b, ∀ o ∈ px.overlapBox (2 ^ k) tr b, (s.rigidbodies o).isSome) :
    ∃ t, fracture.anchorChunks px s gameObject mask = some t ∧
      t = { s with rigidbodies := t.rigidbodies } ∧
      ∀ x, (t.rigidbodies x).isSome = (s.rigidbodies x).isSome := by
  unfold fracture.anchorChunks
  by_cases hm : mask = anchor.None
  · rw [if_pos hm]
    exact ⟨s, rfl, rfl, fun _ => rfl⟩
  · rw [if_neg hm]
    obtain ⟨tr, htr1⟩ := Option.isSome_iff_exists.mp htr
    simp only [htr1]
    apply fracture.anchorColliders_spec
    intro o ho
    obtain ⟨k, hk, -, h⟩ := (fracture.mem_getAnchoredColliders px mask tr _ o).mp ho
    exact hbox k hk _ _ o h


theorem chunk_graph_manager.targets_pairs (m : chunk_graph_manager) (s : escene)
    (b y : entity_handle) (h : y ∈ m.targets s b) : ∃ a, (a, y) ∈ m.jointPairs s := by
  unfold chunk_graph_manager.targets at h
  cases hl : m.joints.lookup b with
  | none => simp [hl] at h
  | some js =>
    simp only [hl, List.mem_map] at h
    obtain ⟨j, hj, hy⟩ := h
    refine ⟨(s.jointHeap j).first, ?_⟩
    unfold chunk_graph_manager.jointPairs chunk_graph_manager.allJoints
    rw [← hy]
    exact List.mem_map.mpr ⟨j, List.mem_flatMap.mpr ⟨(b, js), mem_of_lookup _ _ _ hl, hj⟩, rfl⟩

theorem fracture.fractureGameObject_spec (px : px_physics_engine) (s : escene)
    (meshAsset : submesh_asset) (gameObject : entity_handle) (mask : Nat) (seed totalChunks : Int)
    (jointBreakForce density : ℚ) (transform : trs) (volume : ℚ)
    (htot : 0 < totalChunks) (hvol : volumeOfMesh meshAsset = some volume)
    (hgo : gameObject < s.nextEntity) (htr : s.transforms gameObject = some transform)
    (hsphere : ∀ mesh ∈ fracture.meshesOf px meshAsset totalChunks,
      ∀ o ∈ fracture.overlapsOf px transform mesh.1,
        o ∈ List.range' (s.nextEntity + 1) (fracture.meshesOf px meshAsset totalChunks).length ∨
          (o < s.nextEntity ∧ (s.rigidbodies o).isSome ∧ (s.chunk_nodes o).isSome))
    (hbox : ∀ k < 6, ∀ tr b, ∀ o ∈ px.overlapBox (2 ^ k) tr b,
      o ∈ List.range' (s.nextEntity + 1) (fracture.meshesOf px meshAsset totalChunks).length ∨
        (o < s.nextEntity ∧ (s.rigidbodies o).isSome)) :
    ∃ t gm, fracture.fractureGameObject px s meshAsset gameObject mask seed totalChunks
        jointBreakForce density = some (t, s.nextEntity) ∧
      t.entities = s.entities ++ s.nextEntity ::
        List.range' (s.nextEntity + 1) (fracture.meshesOf px meshAsset totalChunks).length ∧
      t.managers s.nextEntity = some gm ∧
      gm.nodes = List.range' (s.nextEntity + 1)
        (fracture.meshesOf px meshAsset totalChunks).length ∧
      (∀ i m, (fracture.meshesOf px meshAsset totalChunks)[i]? = some m →
        t.meshes (s.nextEntity + 1 + i) = some (m.1, px.aabb m.1)) ∧
      (gm.jointPairs t).Perm
        (((fracture.meshesOf px meshAsset totalChunks).zip
            (List.range' (s.nextEntity + 1)
              (fracture.meshesOf px meshAsset totalChunks).length)).flatMap
          (fun mc => ((fracture.overlapsOf px transform mc.1.1).filter (fun o => o != mc.2)).map
            (fun o => (mc.2, o)))) := by
  -- the fracture root
  have hroot : s.createFractureRoot.2 = s.nextEntity := rfl
  generalize hs1 : s.createFractureRoot.1 = s1
  have s1next : s1.nextEntity = s.nextEntity + 1 := by rw [← hs1]; rfl
  have s1ent : s1.entities = s.entities ++ [s.nextEntity] := by rw [← hs1]; rfl
  have s1jh : s1.jointHeap = s.jointHeap := by rw [← hs1]; rfl
  have s1node : ∀ x, s1.chunk_nodes x = if x = s.nextEntity then none else s.chunk_nodes x := by
    intro x; rw [← hs1]
    simp [escene.createFractureRoot, escene.createEntity, Function.update_apply]
  have s1rb : ∀ x, s1.rigidbodies x = if x = s.nextEntity then none else s.rigidbodies x := by
    intro x; rw [← hs1]
    simp [escene.createFractureRoot, escene.createEntity, Function.update_apply]
  have s1tr : ∀ x, s1.transforms x = if x = s.nextEntity then some {} else s.transforms x := by
    intro x; rw [← hs1]
    simp [escene.createFractureRoot, escene.createEntity, Function.update_apply]
  have hgo2 : gameObject ≠ s.nextEntity := by unfold entity_handle at *; omega
  have s1go : s1.transforms gameObject = some transform := by rw [s1tr, if_neg hgo2, htr]
  -- the chunks
  generalize hmeshes : fracture.meshesOf px meshAsset totalChunks = meshes at hsphere hbox ⊢
  obtain ⟨blen, bg⟩ := buildChunks_spec px s1 transform meshes
    (volume * density / totalChunks) 0
  obtain ⟨t1, t2, t3, t4⟩ := buildChunks_tables px s1 transform meshes
    (volume * density / totalChunks) 0
  generalize hb : buildChunks px s1 transform meshes (volume * density / totalChunks) 0 = b
    at blen bg t1 t2 t3 t4
  obtain ⟨g1, g2, g3, g4, g5, g6, g7, g8⟩ := bg
  rw [s1next, blen] at g1
  rw [s1next] at t3 t4
  have hold : ∀ o, o < s.nextEntity → o ∉ b.2 := by
    intro o ho hmem
    rw [g1] at hmem
    have := (List.mem_range'_1.mp hmem).1
    unfold entity_handle at *
    omega
  have hrbold : ∀ o, o < s.nextEntity → b.1.rigidbodies o = s.rigidbodies o := by
    intro o ho
    rw [g5 o (hold o ho), s1rb, if_neg (by unfold entity_handle at *; omega)]
  have hnodeold : ∀ o, o < s.nextEntity → b.1.chunk_nodes o = s.chunk_nodes o := by
    intro o ho
    rw [g4, if_neg (hold o ho), s1node, if_neg (by unfold entity_handle at *; omega)]
  have hrball : ∀ o, (o ∈ b.2 ∨ (o < s.nextEntity ∧ (s.rigidbodies o).isSome)) →
      (b.1.rigidbodies o).isSome := by
    rintro o (h | h)
    · exact g6 o h
    · rw [hrbold o h.1]; exact h.2
  -- the joints
  obtain ⟨r2, hr2, f2, -, n2, -, p2⟩ := fracture.connectAll_spec px jointBreakForce transform
    (meshes.zip b.2) {} b.1
    (by
      rintro ⟨mesh, chunk⟩ hmc
      obtain ⟨hm1, hc1⟩ := List.of_mem_zip hmc
      have hc2 := hc1
      rw [g1] at hc2
      obtain ⟨hlo, hhi⟩ := List.mem_range'_1.mp hc2
      have hi : chunk - (s.nextEntity + 1) < meshes.length := by
        unfold entity_handle at *; omega
      obtain ⟨a1, a2⟩ := t4 (chunk - (s.nextEntity + 1)) _ (List.getElem?_eq_getElem hi)
      have e : s.nextEntity + 1 + (chunk - (s.nextEntity + 1)) = chunk := by
        unfold entity_handle at *; omega
      rw [e] at a1 a2
      refine ⟨g6 chunk hc1, a1, by rw [a2]; rfl, ?_⟩
      intro o ho _
      apply hrball
      rcases hsphere mesh hm1 o ho with h | h
      · exact Or.inl (by rw [g1]; exact h)
      · exact Or.inr ⟨h.1, h.2.1⟩)
    (by intro j hj; simp [chunk_graph_manager.allJoints] at hj)
  obtain ⟨gm1, s2⟩ := r2
  simp only at f2 n2 p2
  have s2rb : s2.rigidbodies = b.1.rigidbodies := by rw [f2]
  have s2node : s2.chunk_nodes = b.1.chunk_nodes := by rw [f2]
  -- the parents
  have f3 := escene.setParents_frame s.nextEntity b.2 s2
  generalize hs3 : b.2.foldl (fun acc chunk => acc.setParent chunk s.nextEntity) s2 = s3 at f3
  have s3rb : s3.rigidbodies = b.1.rigidbodies := by rw [f3]; exact s2rb
  -- the anchors
  obtain ⟨s4, hs4, f4, k4⟩ := fracture.anchorChunks_spec px s3 s.nextEntity mask
    (by
      have : s3.transforms = b.1.transforms := by rw [f3, f2]
      rw [this, (t3 s.nextEntity (Nat.lt_succ_self _)).1, s1tr, if_pos rfl]
      rfl)
    (by
      intro k hk tr bb o ho
      rw [s3rb]
      apply hrball
      rcases hbox k hk tr bb o ho with h | h
      · exact Or.inl (by rw [g1]; exact h)
      · exact Or.inr h)
  have s4node : s4.chunk_nodes = b.1.chunk_nodes := by rw [f4, f3]; exact s2node
  have s4jh : s4.jointHeap = s2.jointHeap := by rw [f4, f3]
  -- the graph
  obtain ⟨r5, hr5, f5, j5, -, l5, -, -⟩ := chunk_graph_manager.setup_frame gm1 s4 b.2 0
    (by
      intro ch hch c hc
      rw [s4node, g4, if_pos hch] at hc
      cases hc)
    (by
      intro ch hch
      rw [k4, s3rb]
      exact g6 ch hch)
    (by
      intro ch _ y hy
      obtain ⟨a, ha⟩ := chunk_graph_manager.targets_pairs gm1 s4 ch y hy
      have ha2 : (a, y) ∈ gm1.jointPairs s2 := by
        unfold chunk_graph_manager.jointPairs at ha ⊢
        rw [s4jh] at ha
        exact ha
      have ha3 := p2.mem_iff.mp ha2
      simp only [chunk_graph_manager.jointPairs, chunk_graph_manager.allJoints,
        List.flatMap_nil, List.map_nil, List.nil_append, List.mem_flatMap, List.mem_map,
        List.mem_filter, Prod.mk.injEq] at ha3
      obtain ⟨⟨mesh, chunk⟩, hmc, o, ⟨ho, -⟩, -, hoy⟩ := ha3
      subst hoy
      rcases hsphere mesh (List.of_mem_zip hmc).1 o ho with h | h
      · exact Or.inl (by rw [g1]; exact h)
      · right
        rw [s4node, hnodeold o h.1]
        exact h.2.2)
  obtain ⟨gm2, s5⟩ := r5
  simp only at f5 j5 l5
  refine ⟨{ s5 with managers := Function.update s5.managers s.nextEntity (some gm2) }, gm2,
    ?_, ?_, ?_, ?_, ?_, ?_⟩
  · unfold fracture.fractureGameObject
    rw [if_neg (by omega)]
    simp only [hs1, hroot, hvol, s1go]
    have hm0 : fracture.meshesOf px meshAsset totalChunks = meshes := hmeshes
    unfold fracture.meshesOf at hm0
    simp only at hm0
    simp only [hm0, hb, hr2, hs3, hs4, hr5]
  · show s5.entities = _
    rw [f5, f4, f3, f2, g3, s1ent, g1, List.append_assoc]
    rfl
  · simp
  · rw [l5, n2, g1]
    rfl
  · intro i m hi
    show s5.meshes _ = _
    have : s5.meshes = b.1.meshes := by rw [f5, f4, f3, f2]
    rw [this]
    exact (t4 i m hi).2
  · have e1 : gm2.jointPairs
        { s5 with managers := Function.update s5.managers s.nextEntity (some gm2) } =
        gm1.jointPairs s2 := by
      unfold chunk_graph_manager.jointPairs chunk_graph_manager.allJoints
      rw [j5]
      have : s5.jointHeap = s2.jointHeap := by rw [f5]; exact s4jh
      simp only [this]
    rw [e1, ← g1]
    simpa [chunk_graph_manager.jointPairs, chunk_graph_manager.allJoints] using p2

/-- C11. Single-chunk passthrough: with `totalChunks = 1`, `fractureGameObject`
does not consult the fracture kernel (whatever function stands for
`fractureMeshesInNvblast`, the result is the same), and it builds exactly one
chunk, whose render mesh is the input mesh asset: the scene gains the fracture
root and one chunk entity, the graph of the root has this chunk as its only
node, and the mesh component of the chunk holds the input mesh asset.  The call
returns when the volume of the mesh is defined, the game object has a
transform, and the bodies that the overlap queries report are the new chunk or
bodies of the scene that carry what the code dereferences. -/
theorem fractureGameObject_single_chunk (px : px_physics_engine) (s : escene)
    (meshAsset : submesh_asset) (gameObject : entity_handle) (mask : Nat) (seed : Int)
    (jointBreakForce density : ℚ) (transform : trs) (volume : ℚ)
    (hvol : volumeOfMesh meshAsset = some volume)
    (hgo : gameObject < s.nextEntity) (htr : s.transforms gameObject = some transform)
    (hsphere : ∀ o ∈ fracture.overlapsOf px transform meshAsset,
      o = s.nextEntity + 1 ∨
        (o < s.nextEntity ∧ (s.rigidbodies o).isSome ∧ (s.chunk_nodes o).isSome))
    (hbox : ∀ k < 6, ∀ tr b, ∀ o ∈ px.overlapBox (2 ^ k) tr b,
      o = s.nextEntity + 1 ∨ (o < s.nextEntity ∧ (s.rigidbodies o).isSome)) :
    (∀ kernel : Int → nvmesh → Bool → List (submesh_asset × nvmesh),
      fracture.fractureGameObject { px with fractureMeshesInNvblast := kernel } s meshAsset
          gameObject mask seed 1 jointBreakForce density =
        fracture.fractureGameObject px s meshAsset gameObject mask seed 1 jointBreakForce
          density) ∧
    ∃ t gm, fracture.fractureGameObject px s meshAsset gameObject mask seed 1 jointBreakForce
        density = some (t, s.nextEntity) ∧
      t.entities = s.entities ++ [s.nextEntity, s.nextEntity + 1] ∧
      t.managers s.nextEntity = some gm ∧ gm.nodes = [s.nextEntity + 1] ∧
      t.meshes (s.nextEntity + 1) = some (meshAsset, px.aabb meshAsset) := by
  constructor
  · intro kernel
    rfl
  · have hm : ∃ nv, fracture.meshesOf px meshAsset 1 = [(meshAsset, nv)] := ⟨_, rfl⟩
    obtain ⟨nv, hm⟩ := hm
    obtain ⟨t, gm, h1, h2, h3, h4, h5, -⟩ := fracture.fractureGameObject_spec px s meshAsset
      gameObject mask seed 1 jointBreakForce density transform volume (by decide) hvol hgo htr
      (by
        intro mesh hmesh o ho
        rw [hm] at hmesh ⊢
        simp only [List.mem_singleton] at hmesh
        subst hmesh
        rcases hsphere o ho with h | h
        · left; rw [h]; simp
        · exact Or.inr h)
      (by
        intro k hk tr b o ho
        rw [hm]
        rcases hbox k hk tr b o ho with h | h
        · left; rw [h]; simp
        · exact Or.inr h)
    rw [hm] at h2 h4 h5
    refine ⟨t, gm, h1, ?_, h3, ?_, ?_⟩
    · rw [h2]; rfl
    · rw [h4]; rfl
    · exact h5 0 (meshAsset, nv) rfl


/-- Instance of C11: the example mesh of game object 10 of the example world
with one chunk requested. -/
theorem fractureGameObject_single_chunk_witness :
    (∀ kernel : Int → nvmesh → Bool → List (submesh_asset × nvmesh),
      fracture.fractureGameObject { lonePhysics with fractureMeshesInNvblast := kernel }
          exampleWorld exampleMesh 10 anchor.Left 0 1 100 1 =
        fracture.fractureGameObject lonePhysics exampleWorld exampleMesh 10 anchor.Left 0 1 100
          1) ∧
    ∃ t gm, fracture.fractureGameObject lonePhysics exampleWorld exampleMesh 10 anchor.Left 0 1
        100 1 = some (t, exampleWorld.nextEntity) ∧
      t.entities = exampleWorld.entities ++ [exampleWorld.nextEntity, exampleWorld.nextEntity + 1] ∧
      t.managers exampleWorld.nextEntity = some gm ∧ gm.nodes = [exampleWorld.nextEntity + 1] ∧
      t.meshes (exampleWorld.nextEntity + 1) = some (exampleMesh, lonePhysics.aabb exampleMesh) := by
  obtain ⟨volume, hvol⟩ : ∃ v, volumeOfMesh exampleMesh = some v := ⟨_, rfl⟩
  exact fractureGameObject_single_chunk lonePhysics exampleWorld exampleMesh 10 anchor.Left 0 100
    1 {} volume hvol (by decide) rfl (by decide)
    (by
      intro k hk tr b o ho
      left
      simp only [lonePhysics, examplePhysics] at ho
      split at ho
      · simpa using ho
      · cases ho)

/-- C13 (the code at a mesh that fails validation). `fractureGameObject` never
calls `validateMesh`: for a mesh that `validateMesh` rejects, because its
position data or its texture-coordinate data is empty, and any positive chunk
count, the call does not return the null entity; it returns the handle of a
new fracture root, which it has added to the scene together with one chunk per
fragment and a graph over these chunks.  The call returns under the same
conditions as for a valid mesh. -/
theorem fractureGameObject_ignores_validateMesh (px : px_physics_engine) (s : escene)
    (meshAsset : submesh_asset) (gameObject : entity_handle) (mask : Nat)
    (seed totalChunks : Int) (jointBreakForce density : ℚ) (transform : trs) (volume : ℚ)
    (_hinvalid : fracture.validateMesh meshAsset = false)
    (htot : 0 < totalChunks) (hvol : volumeOfMesh meshAsset = some volume)
    (hnull : s.nextEntity < null_entity)
    (hgo : gameObject < s.nextEntity) (htr : s.transforms gameObject = some transform)
    (hsphere : ∀ mesh ∈ fracture.meshesOf px meshAsset totalChunks,
      ∀ o ∈ fracture.overlapsOf px transform mesh.1,
        o ∈ List.range' (s.nextEntity + 1) (fracture.meshesOf px meshAsset totalChunks).length ∨
          (o < s.nextEntity ∧ (s.rigidbodies o).isSome ∧ (s.chunk_nodes o).isSome))
    (hbox : ∀ k < 6, ∀ tr b, ∀ o ∈ px.overlapBox (2 ^ k) tr b,
      o ∈ List.range' (s.nextEntity + 1) (fracture.meshesOf px meshAsset totalChunks).length ∨
        (o < s.nextEntity ∧ (s.rigidbodies o).isSome)) :
    ∃ t gm, fracture.fractureGameObject px s meshAsset gameObject mask seed totalChunks
        jointBreakForce density = some (t, s.nextEntity) ∧
      s.nextEntity ≠ null_entity ∧
      t.entities = s.entities ++ s.nextEntity ::
        List.range' (s.nextEntity + 1) (fracture.meshesOf px meshAsset totalChunks).length ∧
      t.managers s.nextEntity = some gm ∧
      gm.nodes = List.range' (s.nextEntity + 1)
        (fracture.meshesOf px meshAsset totalChunks).length := by
  obtain ⟨t, gm, h1, h2, h3, h4, -, -⟩ := fracture.fractureGameObject_spec px s meshAsset
    gameObject mask seed totalChunks jointBreakForce density transform volume htot hvol hgo htr
    hsphere hbox
  exact ⟨t, gm, h1, Nat.ne_of_lt hnull, h2, h3, h4⟩

/-- Instance of C13 at the failing input: the example triangle without texture
coordinates, two chunks requested in the example world. -/
theorem fractureGameObject_ignores_validateMesh_witness :
    fracture.validateMesh bareMesh = false ∧
    ∃ t gm, fracture.fractureGameObject examplePhysics exampleWorld bareMesh 10 anchor.Left 0 2
        100 1 = some (t, 11) ∧
      (11 : entity_handle) ≠ null_entity ∧
      t.entities = [10, 11, 12, 13] ∧
      t.managers 11 = some gm ∧ gm.nodes = [12, 13] := by
  refine ⟨by decide, ?_⟩
  obtain ⟨volume, hvol⟩ : ∃ v, volumeOfMesh bareMesh = some v := ⟨_, rfl⟩
  exact fractureGameObject_ignores_validateMesh examplePhysics exampleWorld bareMesh 10
    anchor.Left 0 2 100 1 {} volume (by decide) (by decide) hvol (by decide) (by decide) rfl
    (by decide)
    (by
      intro k hk tr b o ho
      left
      simp only [examplePhysics] at ho
      split at ho
      · simp only [List.mem_singleton] at ho
        rw [ho]
        decide
      · cases ho)

theorem chunk_node.cleanBrokenLinks_adjacent (e : entity_handle) (s t : escene) (c : chunk_node)
    (hc : s.chunk_nodes e = some c) (hh : c.handle = e)
    (hnd : (c.jointToChunk.map Prod.fst).Nodup)
    (h : chunk_node.cleanBrokenLinks s e = some t) (x y : entity_handle) :
    t.adjacent x y ↔ s.adjacent x y ∧
      ¬ ((x = e ∧ y ∈ c.brokenBodies s) ∨ (x ∈ c.brokenBodies s ∧ y = e)) := by
  have ht := chunk_node.cleanBrokenLinks_cut e s t c hc hh hnd h
  have hnode : t.chunk_nodes x = (s.chunk_nodes x).map (fun a =>
      let b := chunk_node.cut e (chunk_node.brokenLinks s c) (c.brokenBodies s) x a
      if x = e then { b with hasBrokenLinks := false } else b) := by
    rw [ht]
  unfold escene.adjacent
  rw [hnode]
  cases hx : s.chunk_nodes x with
  | none => simp
  | some a =>
    simp only [Option.map_some', Option.some.injEq, exists_eq_left']
    by_cases hxe : x = e
    · simp only [hxe, if_true, chunk_node.cut, List.mem_filter, decide_True, Bool.true_and,
        Bool.not_eq_true', Bool.or_eq_false_iff, decide_eq_false_iff_not, Bool.and_eq_false_imp,
        decide_eq_true_eq, true_and]
      constructor
      · rintro ⟨h1, h2, h3⟩
        refine ⟨h1, ?_⟩
        rintro (h4 | h4)
        · exact h2 h4
        · exact h3 h4.1 h4.2
      · rintro ⟨h1, h2⟩
        exact ⟨h1, fun h4 => h2 (Or.inl h4), fun h4 h5 => h2 (Or.inr ⟨h4, h5⟩)⟩
    · simp only [hxe, if_false, chunk_node.cut, List.mem_filter, decide_False, Bool.false_and,
        Bool.false_or, Bool.not_eq_true', Bool.and_eq_false_imp, decide_eq_true_eq,
        decide_eq_false_iff_not, false_and, false_or]
      constructor
      · rintro ⟨h1, h2⟩
        exact ⟨h1, fun h4 => h2 h4.1 h4.2⟩
      · rintro ⟨h1, h2⟩
        exact ⟨h1, fun h4 h5 => h2 ⟨h4, h5⟩⟩

/-- C21. `cleanBrokenLinks` preserves the symmetry of adjacency: when the
neighbours relation is symmetric over all nodes before `A.cleanBrokenLinks()`
(`A` the node owned by entity `e`), the call returns, provided the chunks its
broken joints lead to have chunk nodes, and the neighbours relation is symmetric
over all nodes afterwards.  The joint states are those of the scene `s` and are
arbitrary, so this holds for every choice of broken joints. -/
theorem cleanBrokenLinks_preserves_symmetry (s : escene) (e : entity_handle) (c : chunk_node)
    (hc : s.chunk_nodes e = some c) (hh : c.handle = e)
    (hnd : (c.jointToChunk.map Prod.fst).Nodup)
    (hbodies : ∀ b ∈ c.brokenBodies s, (s.chunk_nodes b).isSome)
    (hsym : ∀ x y, s.adjacent x y → s.adjacent y x) :
    ∃ t, chunk_node.cleanBrokenLinks s e = some t ∧ ∀ x y, t.adjacent x y → t.adjacent y x := by
  obtain ⟨u, d0, -, -, hsome, -, -⟩ := chunk_node.cleanBrokenLinks_spec e s c hc hh hnd (by
    intro p hp hbr
    exact hbodies p.2 ((mem_brokenBodies s c p.2).mpr ⟨p, hp, hbr, rfl⟩))
  refine ⟨_, hsome, ?_⟩
  intro x y hxy
  rw [chunk_node.cleanBrokenLinks_adjacent e s _ c hc hh hnd hsome] at hxy ⊢
  refine ⟨hsym x y hxy.1, ?_⟩
  rintro (h | h)
  · exact hxy.2 (Or.inr ⟨h.2, h.1⟩)
  · exact hxy.2 (Or.inl ⟨h.2, h.1⟩)

/-- Instance of C21: the linked pair, whose only joint is broken. -/
theorem cleanBrokenLinks_preserves_symmetry_witness :
    ∃ t, chunk_node.cleanBrokenLinks linkedPairScene 0 = some t ∧
      ∀ x y, t.adjacent x y → t.adjacent y x :=
  cleanBrokenLinks_preserves_symmetry linkedPairScene 0
    { handle := 0, neighbours := [1], jointToChunk := [(0, 1)], chunkToJoint := [(1, 0)],
      hasBrokenLinks := true }
    rfl rfl (by decide) (by decide)
    (by
      rintro x y ⟨a, ha, hy⟩
      simp only [linkedPairScene] at ha
      split_ifs at ha with h0 h1
      · cases ha
        simp only [List.mem_singleton] at hy
        subst h0 hy
        exact ⟨_, rfl, by decide⟩
      · cases ha
        simp only [List.mem_singleton] at hy
        subst h1 hy
        exact ⟨_, rfl, by decide⟩)

/-- C22. Anchor order does not matter: for a graph of `nbNodes` chunks that all
have a chunk node carrying the handle of its entity, and two orderings of the
list of its chunk handles, both runs of `searchGraph` return, the nodes on which
they call `unfreeze()` are the same set, and the runs leave the same unfreeze
queue and the same chunk nodes. -/
theorem searchGraph_anchor_order (m : chunk_graph_manager) (s : escene)
    (objects1 objects2 : List entity_handle) (hperm : objects1.Perm objects2)
    (hlen : m.nbNodes = objects1.length)
    (hnode : ∀ o ∈ objects1, ∃ c, s.chunk_nodes o = some c ∧ c.handle = o) :
    ∃ targets1 targets2 t1 t2,
      m.searchTargets s objects1 = some targets1 ∧ m.searchTargets s objects2 = some targets2 ∧
      (∀ x, x ∈ targets1 ↔ x ∈ targets2) ∧
      m.searchGraph s objects1 = some t1 ∧ m.searchGraph s objects2 = some t2 ∧
      t1.unfreezeBlastQueue = t2.unfreezeBlastQueue ∧ t1.chunk_nodes = t2.chunk_nodes := by
  have hlen2 : m.nbNodes = objects2.length := by rw [hlen, hperm.length_eq]
  have hmem : ∀ x, x ∈ objects1 ↔ x ∈ objects2 := fun x => hperm.mem_iff
  have htake1 : objects1.take m.nbNodes = objects1 := by rw [hlen, List.take_length]
  have htake2 : objects2.take m.nbNodes = objects2 := by rw [hlen2, List.take_length]
  obtain ⟨T1, hT1, hx1⟩ := chunk_graph_manager.searchTargets_spec m s objects1 (by omega) (by
    intro o ho
    rw [htake1] at ho
    obtain ⟨c, hc, -⟩ := hnode o ho
    simp [hc])
  obtain ⟨T2, hT2, hx2⟩ := chunk_graph_manager.searchTargets_spec m s objects2 (by omega) (by
    intro o ho
    rw [htake2] at ho
    obtain ⟨c, hc, -⟩ := hnode o ((hmem o).mpr ho)
    simp [hc])
  rw [htake1] at hx1
  rw [htake2] at hx2
  have hreach : ∀ a x, s.reach objects1 a x ↔ s.reach objects2 a x := by
    intro a x
    have hedge : s.edge objects1 = s.edge objects2 := by
      funext u v
      simp only [escene.edge, hmem]
    simp only [escene.reach, hmem, hedge]
  have hT : ∀ x, x ∈ T1 ↔ x ∈ T2 := by
    intro x
    rw [hx1, hx2]
    simp only [hmem, hreach]
  obtain ⟨t1, ht1, q1, -, n1⟩ := chunk_node.unfreeze_fold T1 s (by
    intro x hx
    exact hnode x ((hx1 x).mp hx).1)
  obtain ⟨t2, ht2, q2, -, n2⟩ := chunk_node.unfreeze_fold T2 s (by
    intro x hx
    exact hnode x ((hmem x).mpr ((hx2 x).mp hx).1))
  refine ⟨T1, T2, t1, t2, hT1, hT2, hT, ?_, ?_, ?_, ?_⟩
  · simp only [chunk_graph_manager.searchGraph, hT1, ht1]
  · simp only [chunk_graph_manager.searchGraph, hT2, ht2]
  · rw [q1, q2]
    congr 1
    ext x
    simp only [List.mem_toFinset, hT]
  · funext x
    rw [n1, n2]
    simp only [hT]

/-- Instance of C22: the example graph anchored at chunk 0, with its chunks in
increasing and in another order. -/
theorem searchGraph_anchor_order_witness :
    ∃ targets1 targets2 t1 t2,
      exampleGraph.1.searchTargets anchoredScene [0, 1, 2, 3] = some targets1 ∧
      exampleGraph.1.searchTargets anchoredScene [3, 1, 0, 2] = some targets2 ∧
      (∀ x, x ∈ targets1 ↔ x ∈ targets2) ∧
      exampleGraph.1.searchGraph anchoredScene [0, 1, 2, 3] = some t1 ∧
      exampleGraph.1.searchGraph anchoredScene [3, 1, 0, 2] = some t2 ∧
      t1.unfreezeBlastQueue = t2.unfreezeBlastQueue ∧ t1.chunk_nodes = t2.chunk_nodes :=
  searchGraph_anchor_order exampleGraph.1 anchoredScene [0, 1, 2, 3] [3, 1, 0, 2] (by decide)
    (by decide)
    (by
      intro o ho
      simp only [List.mem_cons, List.mem_singleton, List.not_mem_nil, or_false] at ho
      rcases ho with rfl | rfl | rfl | rfl <;> exact ⟨_, rfl, rfl⟩)

theorem foldlM_option_mono {α β : Type} (f g : β → α → Option β)
    (h : ∀ b a r, f b a = some r → g b a = some r) :
    ∀ (l : List α) (b r : β), l.foldlM f b = some r → l.foldlM g b = some r := by
  intro l
  induction l with
  | nil => intro b r hr; exact hr
  | cons a l ih =>
    intro b r hr
    simp only [List.foldlM_cons, Option.bind_eq_bind, Option.bind_eq_some] at hr ⊢
    obtain ⟨b1, h1, h2⟩ := hr
    exact ⟨b1, h b a b1 h1, ih b1 r h2⟩

theorem chunk_graph_manager.traverse_fuel_succ (s : escene) (S : List entity_handle) :
    ∀ (fuel : Nat) (o : entity_handle) (V R : List entity_handle),
      chunk_graph_manager.traverse s fuel o S V = some R →
      chunk_graph_manager.traverse s (fuel + 1) o S V = some R := by
  intro fuel
  induction fuel with
  | zero =>
    intro o V R h
    simp [chunk_graph_manager.traverse] at h
  | succ fuel ih =>
    intro o V R h
    rw [chunk_graph_manager.traverse] at h ⊢
    by_cases hg : o ∈ S ∧ o ∉ V
    · obtain ⟨hoS, hoV⟩ := hg
      simp only [hoS, hoV, decide_True, decide_False, beq_self_eq_true, Bool.and_self,
        if_true] at h ⊢
      cases hc : s.chunk_nodes o with
      | none => simp [hc] at h
      | some c =>
        simp only [hc] at h ⊢
        refine foldlM_option_mono _ _ ?_ _ _ _ h
        intro vis n r hr
        cases hn : s.chunk_nodes n with
        | none => simpa [hn] using hr
        | some d =>
          simp only [hn] at hr ⊢
          exact ih n vis r hr
    · have hcond : (decide (o ∈ S) && (decide (o ∈ V) == false)) = false := by
        by_cases h1 : o ∈ S
        · have h2 : o ∈ V := by
            by_contra h2
            exact hg ⟨h1, h2⟩
          simp [h1, h2]
        · simp [h1]
      simp only [hcond, Bool.false_eq_true, if_false] at h ⊢
      exact h

theorem chunk_graph_manager.traverse_fuel_le (s : escene) (S : List entity_handle)
    (o : entity_handle) (V R : List entity_handle) (fuel : Nat)
    (h : chunk_graph_manager.traverse s fuel o S V = some R) :
    ∀ more : Nat, chunk_graph_manager.traverse s (fuel + more) o S V = some R := by
  intro more
  induction more with
  | zero => exact h
  | succ k ih => exact chunk_graph_manager.traverse_fuel_succ s S (fuel + k) o V R ih

theorem escene.traverse_fold_appends (S : List entity_handle)
    (f : List entity_handle → entity_handle → Option (List entity_handle))
    (hf : ∀ V n V1, f V n = some V1 →
      ∃ added, V1 = V ++ added ∧ added.Nodup ∧ ∀ x ∈ added, x ∈ S ∧ x ∉ V) :
    ∀ (l V R : List entity_handle), l.foldlM f V = some R →
      ∃ added, R = V ++ added ∧ added.Nodup ∧ ∀ x ∈ added, x ∈ S ∧ x ∉ V := by
  intro l
  induction l with
  | nil =>
    intro V R h
    simp only [List.foldlM_nil, Option.pure_def, Option.some.injEq] at h
    subst h
    exact ⟨[], by simp, List.nodup_nil, fun x hx => by cases hx⟩
  | cons n l ih =>
    intro V R h
    simp only [List.foldlM_cons, Option.bind_eq_bind, Option.bind_eq_some] at h
    obtain ⟨V1, h1, h2⟩ := h
    obtain ⟨a1, e1, n1, m1⟩ := hf V n V1 h1
    obtain ⟨a2, e2, n2, m2⟩ := ih V1 R h2
    refine ⟨a1 ++ a2, by rw [e2, e1, List.append_assoc], ?_, ?_⟩
    · rw [List.nodup_append]
      refine ⟨n1, n2, ?_⟩
      intro x hx1 hx2
      apply (m2 x hx2).2
      rw [e1]
      exact List.mem_append_right _ hx1
    · intro x hx
      rcases List.mem_append.mp hx with hx | hx
      · exact m1 x hx
      · refine ⟨(m2 x hx).1, fun hxV => (m2 x hx).2 ?_⟩
        rw [e1]
        exact List.mem_append_left _ hxV

theorem chunk_graph_manager.traverse_appends (s : escene) (S : List entity_handle) :
    ∀ (fuel : Nat) (o : entity_handle) (V R : List entity_handle),
      chunk_graph_manager.traverse s fuel o S V = some R →
      ∃ added, R = V ++ added ∧ added.Nodup ∧ (∀ x ∈ added, x ∈ S ∧ x ∉ V) ∧
        (o ∈ S → o ∉ V → o ∈ added) ∧ (¬ (o ∈ S ∧ o ∉ V) → added = []) := by
  intro fuel
  induction fuel with
  | zero =>
    intro o V R h
    simp [chunk_graph_manager.traverse] at h
  | succ fuel ih =>
    intro o V R h
    rw [chunk_graph_manager.traverse] at h
    by_cases hg : o ∈ S ∧ o ∉ V
    · obtain ⟨hoS, hoV⟩ := hg
      simp only [hoS, hoV, decide_True, decide_False, beq_self_eq_true, Bool.and_self,
        if_true] at h
      cases hc : s.chunk_nodes o with
      | none => simp [hc] at h
      | some c =>
        simp only [hc] at h
        obtain ⟨a, e1, n1, m1⟩ := escene.traverse_fold_appends S _ (by
          intro V0 n V1 hstep
          cases hn : s.chunk_nodes n with
          | none =>
            simp only [hn, Option.some.injEq] at hstep
            subst hstep
            exact ⟨[], by simp, List.nodup_nil, fun x hx => by cases hx⟩
          | some d =>
            simp only [hn] at hstep
            obtain ⟨a, e1, n1, m1, -, -⟩ := ih n V0 V1 hstep
            exact ⟨a, e1, n1, m1⟩) c.neighbours _ R h
        have hem : set_emplace V o = V ++ [o] := by
          unfold set_emplace
          rw [if_neg hoV]
        rw [hem] at e1 m1
        refine ⟨o :: a, by rw [e1, List.append_assoc, List.singleton_append], ?_, ?_, ?_, ?_⟩
        · rw [List.nodup_cons]
          exact ⟨fun hoa => (m1 o hoa).2 (by simp), n1⟩
        · intro x hx
          rcases List.mem_cons.mp hx with rfl | hx
          · exact ⟨hoS, hoV⟩
          · exact ⟨(m1 x hx).1, fun hxV => (m1 x hx).2 (List.mem_append_left _ hxV)⟩
        · intro _ _
          exact List.mem_cons_self _ _
        · intro hn
          exact absurd ⟨hoS, hoV⟩ hn
    · have hcond : (decide (o ∈ S) && (decide (o ∈ V) == false)) = false := by
        by_cases h1 : o ∈ S
        · have h2 : o ∈ V := by
            by_contra h2
            exact hg ⟨h1, h2⟩
          simp [h1, h2]
        · simp [h1]
      simp only [hcond, Bool.false_eq_true, if_false, Option.some.injEq] at h
      subst h
      exact ⟨[], by simp, List.nodup_nil, (fun x hx => by cases hx),
        fun h1 h2 => absurd ⟨h1, h2⟩ hg, fun _ => rfl⟩

/-- C23. Termination of `traverse`: for every scene (so every adjacency, with
cycles and self-edges), every candidate set `search` whose members have chunk
nodes, every visited set and every start node `o`, the recursion returns: a
recursion depth of one more than the number of candidates not yet visited is
enough, and every larger bound gives the same result `R`.  `R` is the visited
set followed by the nodes added, each of them added once and each a candidate
that was not visited.  A call that does work (`o` is a candidate and not
visited) marks `o`, which strictly lowers the number of candidates not yet
visited before any recursive call is made, and its result contains the marked
set; a call that does no work returns the visited set as it was. -/
theorem traverse_terminates (s : escene) (search visited : List entity_handle)
    (o : entity_handle) (hS : ∀ x ∈ search, (s.chunk_nodes x).isSome) :
    ∃ R added,
      (∀ fuel, unvisited search visited < fuel →
        chunk_graph_manager.traverse s fuel o search visited = some R) ∧
      R = visited ++ added ∧ added.Nodup ∧ (∀ x ∈ added, x ∈ search ∧ x ∉ visited) ∧
      (o ∈ search → o ∉ visited →
        unvisited search (set_emplace visited o) < unvisited search visited ∧
        (∀ x ∈ set_emplace visited o, x ∈ R) ∧
        unvisited search R < unvisited search visited) ∧
      (¬ (o ∈ search ∧ o ∉ visited) → R = visited) := by
  obtain ⟨R, hR, -⟩ := chunk_graph_manager.traverse_some s search hS
    (unvisited search visited + 1) o visited (Nat.lt_succ_self _)
  obtain ⟨added, e1, n1, m1, w1, w2⟩ :=
    chunk_graph_manager.traverse_appends s search _ o visited R hR
  refine ⟨R, added, ?_, e1, n1, m1, ?_, ?_⟩
  · intro fuel hfuel
    obtain ⟨k, hk⟩ := Nat.exists_eq_add_of_le (Nat.succ_le_of_lt hfuel)
    rw [hk]
    exact chunk_graph_manager.traverse_fuel_le s search o visited R _ hR k
  · intro hoS hoV
    have hsub : ∀ x ∈ set_emplace visited o, x ∈ R := by
      intro x hx
      rw [e1]
      rcases (mem_set_emplace visited o x).mp hx with hx | hx
      · exact List.mem_append_left _ hx
      · subst hx
        exact List.mem_append_right _ (w1 hoS hoV)
    have hlt := unvisited_emplace search visited o hoS hoV
    exact ⟨hlt, hsub, lt_of_le_of_lt (unvisited_mono search _ R hsub) hlt⟩
  · intro hn
    rw [e1, w2 hn, List.append_nil]

/-- Instance of C23: the ring of three chunks with self-edges, searched from
chunk 0 with nothing visited. -/
theorem traverse_terminates_witness :
    ∃ R added,
      (∀ fuel, unvisited [0, 1, 2] [] < fuel →
        chunk_graph_manager.traverse ringScene fuel 0 [0, 1, 2] [] = some R) ∧
      R = [] ++ added ∧ added.Nodup ∧ (∀ x ∈ added, x ∈ [0, 1, 2] ∧ x ∉ []) ∧
      (0 ∈ [0, 1, 2] → 0 ∉ [] →
        unvisited [0, 1, 2] (set_emplace [] 0) < unvisited [0, 1, 2] [] ∧
        (∀ x ∈ set_emplace [] 0, x ∈ R) ∧
        unvisited [0, 1, 2] R < unvisited [0, 1, 2] []) ∧
      (¬ (0 ∈ [0, 1, 2] ∧ 0 ∉ []) → R = []) :=
  traverse_terminates ringScene [0, 1, 2] [] 0 (by decide)

theorem fracture.connectOverlaps_desc (chunk : entity_handle) (ov : List entity_handle) :
    ∀ (acc r : chunk_graph_manager × escene),
      ov.foldlM (fracture.connectOverlap chunk) acc = some r →
      acc.2.nbJoints ≤ r.2.nbJoints ∧
      (∀ j, j < acc.2.nbJoints → r.2.jointHeap j = acc.2.jointHeap j) ∧
      ∀ j, acc.2.nbJoints ≤ j → j < r.2.nbJoints →
        (r.2.jointHeap j).desc = (1 / 10, 1 / 10, 2000, 1000) := by
  induction ov with
  | nil =>
    intro acc r h
    simp only [List.foldlM_nil, Option.pure_def, Option.some.injEq] at h
    subst h
    exact ⟨le_refl _, fun _ _ => rfl, fun j h1 h2 => absurd h2 (by omega)⟩
  | cons o ov ih =>
    intro acc r h
    simp only [List.foldlM_cons, Option.bind_eq_bind, Option.bind_eq_some] at h
    obtain ⟨u, hu, hr⟩ := h
    obtain ⟨k2, o2, d2⟩ := ih u r hr
    have hstep : acc.2.nbJoints ≤ u.2.nbJoints ∧
        (∀ j, j < acc.2.nbJoints → u.2.jointHeap j = acc.2.jointHeap j) ∧
        ∀ j, acc.2.nbJoints ≤ j → j < u.2.nbJoints →
          (u.2.jointHeap j).desc = (1 / 10, 1 / 10, 2000, 1000) := by
      unfold fracture.connectOverlap at hu
      by_cases ho : (o != chunk) = true
      · simp only [ho, if_true] at hu
        cases hrb : acc.2.rigidbodies o with
        | none => simp [hrb] at hu
        | some rb =>
          simp only [hrb] at hu
          have h2 : u.2.nbJoints = acc.2.nbJoints + 1 ∧
              u.2.jointHeap = Function.update acc.2.jointHeap acc.2.nbJoints
                { first := chunk, second := o, desc := (1 / 10, 1 / 10, 2000, 1000),
                  joint := some false } := by
            split_ifs at hu <;>
              (simp only [Option.some.injEq] at hu; subst hu; exact ⟨rfl, rfl⟩)
          obtain ⟨h3, h4⟩ := h2
          refine ⟨by omega, ?_, ?_⟩
          · intro j hj
            rw [h4, Function.update_noteq (Nat.ne_of_lt hj)]
          · intro j hj1 hj2
            have : j = acc.2.nbJoints := by omega
            rw [h4, this, Function.update_same]
      · simp only [ho, Bool.false_eq_true, if_false, Option.some.injEq] at hu
        subst hu
        exact ⟨le_refl _, fun _ _ => rfl, fun j h1 h2 => absurd h2 (by omega)⟩
    obtain ⟨k1, o1, d1⟩ := hstep
    refine ⟨le_trans k1 k2, ?_, ?_⟩
    · intro j hj
      rw [o2 j (lt_of_lt_of_le hj k1), o1 j hj]
    · intro j hj1 hj2
      by_cases hj : j < u.2.nbJoints
      · rw [o2 j hj]
        exact d1 j hj1 hj
      · exact d2 j (by omega) hj2

/-- C24. The `jointBreakForce` argument has no effect: two runs of
`connectTouchingChunks` that differ only in `jointBreakForce` give the same
outcome, in particular the same joints and the same joint table, and so do two
such runs of `fractureGameObject`; every joint that `connectTouchingChunks`
creates is built from the constant descriptor `{0.1, 0.1, 2000, 1000}`, and the
joints that existed before are left as they were. -/
theorem jointBreakForce_has_no_effect (px : px_physics_engine) (manager : chunk_graph_manager)
    (s : escene) (asset meshAsset : submesh_asset) (chunk gameObject : entity_handle)
    (mask : Nat) (seed totalChunks : Int) (density force1 force2 : ℚ) :
    fracture.connectTouchingChunks px manager s asset chunk force1 =
      fracture.connectTouchingChunks px manager s asset chunk force2 ∧
    fracture.fractureGameObject px s meshAsset gameObject mask seed totalChunks force1 density =
      fracture.fractureGameObject px s meshAsset gameObject mask seed totalChunks force2
        density ∧
    ∀ r, fracture.connectTouchingChunks px manager s asset chunk force1 = some r →
      s.nbJoints ≤ r.2.nbJoints ∧
      (∀ j, j < s.nbJoints → r.2.jointHeap j = s.jointHeap j) ∧
      ∀ j, s.nbJoints ≤ j → j < r.2.nbJoints →
        (r.2.jointHeap j).desc = (1 / 10, 1 / 10, 2000, 1000) := by
  refine ⟨rfl, rfl, ?_⟩
  intro r hr
  unfold fracture.connectTouchingChunks at hr
  cases h1 : s.rigidbodies chunk with
  | none => simp [h1] at hr
  | some rb =>
    cases h2 : s.transforms chunk with
    | none => simp [h1, h2] at hr
    | some tr =>
      cases h3 : s.meshes chunk with
      | none => simp [h1, h2, h3] at hr
      | some ms =>
        simp only [h1, h2, h3] at hr
        exact fracture.connectOverlaps_desc chunk _ (manager, s) r hr

theorem chunkPair.eq_iff_subset (lhs rhs : chunkPair) :
    chunkPair.eq lhs rhs = true ↔ rhs.members ⊆ lhs.members := by
  simp only [chunkPair.eq, chunkPair.members, Bool.and_eq_true, Bool.or_eq_true, beq_iff_eq,
    Finset.subset_iff, Finset.mem_insert, Finset.mem_singleton]
  constructor
  · rintro ⟨a, b⟩ x (rfl | rfl)
    · exact a
    · exact b.symm
  · intro h
    exact ⟨h (Or.inl rfl), (h (Or.inr rfl)).symm⟩

theorem chunkPair.members_subset_of_distinct (lhs rhs : chunkPair)
    (hrhs : rhs.chunk1 ≠ rhs.chunk2) (hsub : rhs.members ⊆ lhs.members) :
    lhs.members ⊆ rhs.members := by
  simp only [chunkPair.members, Finset.subset_iff, Finset.mem_insert,
    Finset.mem_singleton] at hsub ⊢
  have a := hsub (Or.inl rfl)
  have b := hsub (Or.inr rfl)
  intro x hx
  rcases hx with rfl | rfl
  · rcases a with a | a
    · exact Or.inl a.symm
    · rcases b with b | b
      · exact Or.inr b.symm
      · exact absurd (a.trans b.symm) hrhs
  · rcases b with b | b
    · rcases a with a | a
      · exact absurd (a.trans b.symm) hrhs
      · exact Or.inl a.symm
    · exact Or.inr b.symm

/-- C26 (amended). The `operator==` of `chunkPair` on pairs of distinct chunks:
when the two chunks of `rhs` differ, `lhs == rhs` holds exactly when the sets
`{lhs.chunk1, lhs.chunk2}` and `{rhs.chunk1, rhs.chunk2}` are equal, and then
`rhs == lhs` holds as well; when the two chunks of `lhs` differ too, `lhs == rhs`
and `rhs == lhs` have the same value, so `==` is symmetric on pairs of distinct
chunks. -/
theorem chunkPair_eq_on_distinct_chunks (lhs rhs : chunkPair)
    (hrhs : rhs.chunk1 ≠ rhs.chunk2) :
    (chunkPair.eq lhs rhs = true ↔ lhs.members = rhs.members) ∧
    (chunkPair.eq lhs rhs = true → chunkPair.eq rhs lhs = true) ∧
    (lhs.chunk1 ≠ lhs.chunk2 → chunkPair.eq rhs lhs = chunkPair.eq lhs rhs) := by
  have h1 : chunkPair.eq lhs rhs = true ↔ lhs.members = rhs.members := by
    rw [chunkPair.eq_iff_subset]
    constructor
    · intro hsub
      exact Finset.Subset.antisymm (chunkPair.members_subset_of_distinct lhs rhs hrhs hsub) hsub
    · intro h
      rw [h]
  refine ⟨h1, ?_, ?_⟩
  · intro h
    rw [chunkPair.eq_iff_subset, h1.mp h]
  · intro hlhs
    rw [Bool.eq_iff_iff, h1, chunkPair.eq_iff_subset]
    constructor
    · intro hsub
      exact Finset.Subset.antisymm hsub (chunkPair.members_subset_of_distinct rhs lhs hlhs hsub)
    · intro h
      rw [h]

/-- Instance of C26: the pairs `chunkPair(1, 2)` and `chunkPair(2, 1)`. -/
theorem chunkPair_eq_on_distinct_chunks_witness :
    (chunkPair.eq { chunk1 := 1, chunk2 := 2 } { chunk1 := 2, chunk2 := 1 } = true ↔
      chunkPair.members { chunk1 := 1, chunk2 := 2 } =
        chunkPair.members { chunk1 := 2, chunk2 := 1 }) ∧
    (chunkPair.eq { chunk1 := 1, chunk2 := 2 } { chunk1 := 2, chunk2 := 1 } = true →
      chunkPair.eq { chunk1 := 2, chunk2 := 1 } { chunk1 := 1, chunk2 := 2 } = true) ∧
    ((1 : entity_handle) ≠ 2 →
      chunkPair.eq { chunk1 := 2, chunk2 := 1 } { chunk1 := 1, chunk2 := 2 } =
        chunkPair.eq { chunk1 := 1, chunk2 := 2 } { chunk1 := 2, chunk2 := 1 }) :=
  chunkPair_eq_on_distinct_chunks { chunk1 := 1, chunk2 := 2 } { chunk1 := 2, chunk2 := 1 }
    (by decide)

/-- C26, the claim as stated fails: `chunkPair(1, 2) == chunkPair(1, 1)` holds
although the sets `{1, 2}` and `{1}` differ, and `chunkPair(1, 1) ==
chunkPair(1, 2)` does not hold, so `==` is not symmetric on all pairs. -/
theorem chunkPair_eq_accepts_repeated_chunk :
    chunkPair.eq { chunk1 := 1, chunk2 := 2 } { chunk1 := 1, chunk2 := 1 } = true ∧
    chunkPair.members { chunk1 := 1, chunk2 := 2 } ≠
      chunkPair.members { chunk1 := 1, chunk2 := 1 } ∧
    chunkPair.eq { chunk1 := 1, chunk2 := 1 } { chunk1 := 1, chunk2 := 2 } = false := by
  refine ⟨by decide, by decide, by decide⟩

theorem signedVolumeOfTriangle_swap (p1 p2 p3 : vec3) :
    signedVolumeOfTriangle p1 p3 p2 = -signedVolumeOfTriangle p1 p2 p3 ∧
    signedVolumeOfTriangle p3 p2 p1 = -signedVolumeOfTriangle p1 p2 p3 ∧
    signedVolumeOfTriangle p2 p1 p3 = -signedVolumeOfTriangle p1 p2 p3 := by
  simp only [signedVolumeOfTriangle]
  refine ⟨by ring, by ring, by ring⟩

theorem volumeOfMesh_step_reversed (positions : List vec3) (t r : Nat × Nat × Nat)
    (h : windingReversed t r) (volume : ℚ) :
    (match positions.get? r.1, positions.get? r.2.1, positions.get? r.2.2 with
      | some p1, some p2, some p3 => some (-volume + signedVolumeOfTriangle p1 p2 p3)
      | _, _, _ => none) =
    (match positions.get? t.1, positions.get? t.2.1, positions.get? t.2.2 with
      | some p1, some p2, some p3 => some (volume + signedVolumeOfTriangle p1 p2 p3)
      | _, _, _ => none).map (fun v => -v) := by
  obtain ⟨a, b, c⟩ := t
  rcases h with rfl | rfl | rfl <;> dsimp only <;>
    cases positions.get? a <;> cases positions.get? b <;> cases positions.get? c <;>
    simp only [Option.map_none', Option.map_some', Option.some.injEq, neg_add]
  · rw [(signedVolumeOfTriangle_swap _ _ _).1]
  · rw [(signedVolumeOfTriangle_swap _ _ _).2.1]
  · rw [(signedVolumeOfTriangle_swap _ _ _).2.2]

/-- Reversing the winding of the triangles negates the running volume. -/
theorem volumeOfMesh_fold_reversed (positions : List vec3) :
    ∀ (ts rs : List (Nat × Nat × Nat)), List.Forall₂ windingReversed ts rs → ∀ volume : ℚ,
      rs.foldlM
        (fun (volume : ℚ) (t : Nat × Nat × Nat) =>
          match positions.get? t.1, positions.get? t.2.1, positions.get? t.2.2 with
          | some p1, some p2, some p3 => some (volume + signedVolumeOfTriangle p1 p2 p3)
          | _, _, _ => none)
        (-volume) =
      (ts.foldlM
        (fun (volume : ℚ) (t : Nat × Nat × Nat) =>
          match positions.get? t.1, positions.get? t.2.1, positions.get? t.2.2 with
          | some p1, some p2, some p3 => some (volume + signedVolumeOfTriangle p1 p2 p3)
          | _, _, _ => none)
        volume).map (fun v => -v) := by
  intro ts rs h
  induction h with
  | nil => intro volume; rfl
  | @cons t r ts rs htr _ ih =>
    intro volume
    simp only [List.foldlM_cons, Option.bind_eq_bind]
    rw [volumeOfMesh_step_reversed positions t r htr volume]
    cases (match positions.get? t.1, positions.get? t.2.1, positions.get? t.2.2 with
      | some p1, some p2, some p3 => some (volume + signedVolumeOfTriangle p1 p2 p3)
      | _, _, _ => none) with
    | none => rfl
    | some w =>
      simp only [Option.map_some', Option.some_bind]
      exact ih w

/-- C28. The `signedVolumeOfTriangle` is one sixth of the determinant of the
matrix with rows `p1`, `p2`, `p3`, which is one sixth of `p1 . (p2 x p3)`; it
changes sign when two of its arguments are exchanged; and `volumeOfMesh` gives
the same outcome for a mesh and for the mesh with the same positions in which
every triangle has two corners exchanged. -/
theorem signedVolumeOfTriangle_sixth_of_determinant :
    (∀ p1 p2 p3 : vec3,
      signedVolumeOfTriangle p1 p2 p3 = (1 / 6) * (vec3.rows p1 p2 p3).det ∧
      signedVolumeOfTriangle p1 p2 p3 = (1 / 6) * p1.dot (p2.cross p3) ∧
      signedVolumeOfTriangle p2 p1 p3 = -signedVolumeOfTriangle p1 p2 p3 ∧
      signedVolumeOfTriangle p1 p3 p2 = -signedVolumeOfTriangle p1 p2 p3 ∧
      signedVolumeOfTriangle p3 p2 p1 = -signedVolumeOfTriangle p1 p2 p3) ∧
    (∀ mesh reversed : submesh_asset, reversed.positions = mesh.positions →
      List.Forall₂ windingReversed mesh.triangles reversed.triangles →
      volumeOfMesh reversed = volumeOfMesh mesh) ∧
    volumeOfMesh tetraMesh = some (1 / 6) ∧
    volumeOfMesh { tetraMesh with triangles := [(0, 1, 2), (0, 3, 1), (0, 2, 3), (1, 3, 2)] } =
      some (1 / 6) := by
  refine ⟨?_, ?_, ?_, ?_⟩
  · intro p1 p2 p3
    refine ⟨?_, ?_, ?_, ?_, ?_⟩
    · rw [Matrix.det_fin_three]
      simp only [signedVolumeOfTriangle, vec3.rows, Matrix.of_apply, Matrix.cons_val_zero,
        Matrix.cons_val_one, Matrix.cons_val_two, Matrix.head_cons, Matrix.tail_cons]
      ring
    · simp only [signedVolumeOfTriangle, vec3.dot, vec3.cross]
      ring
    · simp only [signedVolumeOfTriangle]
      ring
    · simp only [signedVolumeOfTriangle]
      ring
    · simp only [signedVolumeOfTriangle]
      ring
  · intro mesh reversed hp ht
    have h := volumeOfMesh_fold_reversed mesh.positions mesh.triangles reversed.triangles ht 0
    rw [neg_zero] at h
    unfold volumeOfMesh
    rw [hp]
    refine Eq.trans (congrArg (Option.map (fun volume : ℚ => |volume|)) h) ?_
    rw [Option.map_map]
    congr 1
    funext v
    simp only [Function.comp, abs_neg]
  · simp [volumeOfMesh, tetraMesh, signedVolumeOfTriangle]
  · simp [volumeOfMesh, tetraMesh, signedVolumeOfTriangle]

/-- C29. The `bounds::encapsulate(point)` yields the hull of the old box and the
point: the min corner of the result is the component-wise minimum of the old min
corner and the point, and its max corner the component-wise maximum of the old
max corner and the point.  So the new box contains the point and every point of
the old box, also the corners of the old box when the old extents are not
negative, and encapsulating a point of the box leaves the box unchanged. -/
theorem encapsulate_is_hull (b : bounds) (p : vec3) :
    (b.encapsulate p).minCorner = b.minCorner.min p ∧
    (b.encapsulate p).maxCorner = b.maxCorner.max p ∧
    (b.encapsulate p).contains p ∧
    (∀ q, b.contains q → (b.encapsulate p).contains q) ∧
    ((0 : ℚ) ≤ b.extents.x ∧ 0 ≤ b.extents.y ∧ 0 ≤ b.extents.z →
      (b.encapsulate p).contains b.minCorner ∧ (b.encapsulate p).contains b.maxCorner) ∧
    (b.contains p → b.encapsulate p = b) := by
  have hmin : (b.encapsulate p).minCorner = b.minCorner.min p := by
    simp only [bounds.encapsulate, bounds.setMinMax, bounds.minCorner, vec3.sub, vec3.add,
      vec3.scale, vec3.min, vec3.max, vec3.mk.injEq]
    refine ⟨by ring, by ring, by ring⟩
  have hmax : (b.encapsulate p).maxCorner = b.maxCorner.max p := by
    simp only [bounds.encapsulate, bounds.setMinMax, bounds.maxCorner, vec3.sub, vec3.add,
      vec3.scale, vec3.min, vec3.max, vec3.mk.injEq]
    refine ⟨by ring, by ring, by ring⟩
  have hcont : ∀ q, (b.encapsulate p).contains q ↔
      (b.minCorner.min p).le q ∧ q.le (b.maxCorner.max p) := by
    intro q
    unfold bounds.contains
    rw [hmin, hmax]
  refine ⟨hmin, hmax, ?_, ?_, ?_, ?_⟩
  · rw [hcont]
    simp only [vec3.le, vec3.min, vec3.max, min_le_iff, le_max_iff, le_refl, or_true, and_self]
  · intro q hq
    rw [hcont]
    obtain ⟨⟨a1, a2, a3⟩, b1, b2, b3⟩ := hq
    simp only [vec3.le, vec3.min, vec3.max, min_le_iff, le_max_iff]
    exact ⟨⟨Or.inl a1, Or.inl a2, Or.inl a3⟩, Or.inl b1, Or.inl b2, Or.inl b3⟩
  · rintro ⟨e1, e2, e3⟩
    rw [hcont, hcont]
    simp only [vec3.le, vec3.min, vec3.max, min_le_iff, le_max_iff, le_refl, true_or, and_self,
      true_and, and_true, bounds.minCorner, bounds.maxCorner, vec3.sub, vec3.add]
    refine ⟨⟨Or.inl ?_, Or.inl ?_, Or.inl ?_⟩, Or.inl ?_, Or.inl ?_, Or.inl ?_⟩ <;> linarith
  · rintro ⟨⟨a1, a2, a3⟩, b1, b2, b3⟩
    simp only [bounds.minCorner, bounds.maxCorner, vec3.sub, vec3.add] at a1 a2 a3 b1 b2 b3
    obtain ⟨c, e⟩ := b
    simp only [bounds.encapsulate, bounds.setMinMax, vec3.sub, vec3.add, vec3.scale, vec3.min,
      vec3.max, bounds.mk.injEq] at a1 a2 a3 b1 b2 b3 ⊢
    rw [min_eq_left a1, min_eq_left a2, min_eq_left a3, max_eq_left b1, max_eq_left b2,
      max_eq_left b3]
    obtain ⟨cx, cy, cz⟩ := c
    obtain ⟨ex, ey, ez⟩ := e
    simp only [vec3.mk.injEq]
    refine ⟨⟨by ring, by ring, by ring⟩, by ring, by ring, by ring⟩

/-- C30. The `computeIntegralTerm` computes the complete homogeneous symmetric
polynomials: `f1 = w0 + w1 + w2`, `f2` is the sum of all monomials of degree 2
and `f3` the sum of all monomials of degree 3 in `w0`, `w1`, `w2`, so the three
are the same for every permutation of the inputs, and
`g_i = f2 + w_i * (f1 + w_i)` for `i = 0, 1, 2`. -/
theorem computeIntegralTerm_symmetric_polynomials (w0 w1 w2 : ℚ) :
    (computeIntegralTerm w0 w1 w2).f1 = w0 + w1 + w2 ∧
    (computeIntegralTerm w0 w1 w2).f1 = monomialSum 1 w0 w1 w2 ∧
    (computeIntegralTerm w0 w1 w2).f2 = monomialSum 2 w0 w1 w2 ∧
    (computeIntegralTerm w0 w1 w2).f2 =
      w0 * w0 + w1 * w1 + w2 * w2 + w0 * w1 + w0 * w2 + w1 * w2 ∧
    (computeIntegralTerm w0 w1 w2).f3 = monomialSum 3 w0 w1 w2 ∧
    (computeIntegralTerm w0 w1 w2).f3 =
      w0 * w0 * w0 + w1 * w1 * w1 + w2 * w2 * w2 + w0 * w0 * w1 + w0 * w0 * w2 +
        w1 * w1 * w0 + w1 * w1 * w2 + w2 * w2 * w0 + w2 * w2 * w1 + w0 * w1 * w2 ∧
    (∀ r : integral_term,
      r ∈ [computeIntegralTerm w0 w2 w1, computeIntegralTerm w1 w0 w2,
        computeIntegralTerm w1 w2 w0, computeIntegralTerm w2 w0 w1,
        computeIntegralTerm w2 w1 w0] →
      r.f1 = (computeIntegralTerm w0 w1 w2).f1 ∧ r.f2 = (computeIntegralTerm w0 w1 w2).f2 ∧
        r.f3 = (computeIntegralTerm w0 w1 w2).f3) ∧
    (computeIntegralTerm w0 w1 w2).g0 =
      (computeIntegralTerm w0 w1 w2).f2 + w0 * ((computeIntegralTerm w0 w1 w2).f1 + w0) ∧
    (computeIntegralTerm w0 w1 w2).g1 =
      (computeIntegralTerm w0 w1 w2).f2 + w1 * ((computeIntegralTerm w0 w1 w2).f1 + w1) ∧
    (computeIntegralTerm w0 w1 w2).g2 =
      (computeIntegralTerm w0 w1 w2).f2 + w2 * ((computeIntegralTerm w0 w1 w2).f1 + w2) := by
  refine ⟨?_, ?_, ?_, ?_, ?_, ?_, ?_, rfl, rfl, rfl⟩
  · simp only [computeIntegralTerm]
  · simp only [computeIntegralTerm, monomialSum, Finset.sum_range_succ, Finset.sum_range_zero]
    norm_num
    ring
  · simp only [computeIntegralTerm, monomialSum, Finset.sum_range_succ, Finset.sum_range_zero]
    norm_num
    ring
  · simp only [computeIntegralTerm]
    ring
  · simp only [computeIntegralTerm, monomialSum, Finset.sum_range_succ, Finset.sum_range_zero]
    norm_num
    ring
  · simp only [computeIntegralTerm]
    ring
  · intro r hr
    simp only [List.mem_cons, List.mem_singleton, List.not_mem_nil, or_false] at hr
    rcases hr with rfl | rfl | rfl | rfl | rfl <;>
      (simp only [computeIntegralTerm]; refine ⟨by ring, by ring, by ring⟩)

theorem px_cloth_system.gridCell_length (id : Nat → Nat → Nat → Nat)
    (sqrt2 particleSpacing : ℚ) (numZ i : Nat) (acc : List PxParticleSpring × List Nat)
    (j : Nat) :
    (px_cloth_system.gridCell id sqrt2 particleSpacing numZ i acc j).1.length =
      acc.1.length + (if i > 0 then 1 else 0) + (if j > 0 then 1 else 0) +
        (if i > 0 ∧ j > 0 then 2 else 0) ∧
    (px_cloth_system.gridCell id sqrt2 particleSpacing numZ i acc j).2.length =
      acc.2.length + (if i > 0 ∧ j > 0 then 6 else 0) := by
  unfold px_cloth_system.gridCell
  by_cases hi : i > 0 <;> by_cases hj : j > 0 <;>
    simp [hi, hj]

theorem px_cloth_system.gridCells_length (id : Nat → Nat → Nat → Nat)
    (sqrt2 particleSpacing : ℚ) (numZ i : Nat) (acc : List PxParticleSpring × List Nat) :
    ∀ n : Nat,
      ((List.range n).foldl (px_cloth_system.gridCell id sqrt2 particleSpacing numZ i)
        acc).1.length =
        acc.1.length + (if i > 0 then n + 2 * (n - 1) else 0) + (n - 1) ∧
      ((List.range n).foldl (px_cloth_system.gridCell id sqrt2 particleSpacing numZ i)
        acc).2.length =
        acc.2.length + (if i > 0 then 6 * (n - 1) else 0) := by
  intro n
  induction n with
  | zero => simp
  | succ n ih =>
    rw [List.range_succ, List.foldl_append, List.foldl_cons, List.foldl_nil]
    obtain ⟨h1, h2⟩ := px_cloth_system.gridCell_length id sqrt2 particleSpacing numZ i
      ((List.range n).foldl (px_cloth_system.gridCell id sqrt2 particleSpacing numZ i) acc) n
    obtain ⟨i1, i2⟩ := ih
    rw [h1, h2, i1, i2]
    constructor
    · by_cases hi : i > 0 <;> by_cases hn : n > 0 <;>
        simp only [hi, hn, if_true, if_false, and_self, and_false, false_and] <;> omega
    · by_cases hi : i > 0 <;> by_cases hn : n > 0 <;>
        simp only [hi, hn, if_true, if_false, and_self, and_false, false_and] <;> omega

theorem px_cloth_system.grid_length (id : Nat → Nat → Nat → Nat)
    (sqrt2 particleSpacing : ℚ) (a : Nat) :
    ∀ k : Nat,
      (px_cloth_system.grid id sqrt2 particleSpacing (k + 1) (a + 1)).1.length =
        k * a * 4 + k + a ∧
      (px_cloth_system.grid id sqrt2 particleSpacing (k + 1) (a + 1)).2.length =
        3 * (k * a * 2) := by
  intro k
  unfold px_cloth_system.grid
  induction k with
  | zero =>
    rw [List.range_succ, List.foldl_append, List.foldl_cons, List.foldl_nil]
    obtain ⟨h1, h2⟩ := px_cloth_system.gridCells_length id sqrt2 particleSpacing (a + 1) 0
      ((List.range 0).foldl (px_cloth_system.gridRow id sqrt2 particleSpacing (a + 1)) ([], []))
      (a + 1)
    rw [px_cloth_system.gridRow, h1, h2]
    simp
  | succ k ih =>
    rw [List.range_succ, List.foldl_append, List.foldl_cons, List.foldl_nil]
    obtain ⟨h1, h2⟩ := px_cloth_system.gridCells_length id sqrt2 particleSpacing (a + 1) (k + 1)
      ((List.range (k + 1)).foldl (px_cloth_system.gridRow id sqrt2 particleSpacing (a + 1))
        ([], []))
      (a + 1)
    obtain ⟨i1, i2⟩ := ih
    rw [px_cloth_system.gridRow, h1, h2, i1, i2]
    simp only [gt_iff_lt, Nat.zero_lt_succ, if_true, Nat.add_sub_cancel]
    constructor <;> ring

/-- C25. The spring-count assertions of the `px_cloth_system` constructor are
valid: for `numX >= 1` and `numZ >= 1` that are `PxU32` values, when neither the
number of springs nor the number of triangle indices overflows 32 bits, the grid
loop pushes `numSprings = (numX-1)*(numZ-1)*4 + (numX-1) + (numZ-1)` springs and
`3 * numTriangles = 3 * ((numX-1)*(numZ-1)*2)` triangle indices, and the
conditions of both `PX_ASSERT`s hold. -/
theorem cloth_spring_count (id : Nat → Nat → Nat → Nat) (sqrt2 particleSpacing : ℚ)
    (numX numZ : Nat) (hX : 1 ≤ numX) (hZ : 1 ≤ numZ)
    (hX32 : numX < 4294967296) (hZ32 : numZ < 4294967296)
    (hs : (numX - 1) * (numZ - 1) * 4 + (numX - 1) + (numZ - 1) < 4294967296)
    (ht : 3 * ((numX - 1) * (numZ - 1) * 2) < 4294967296) :
    (px_cloth_system.grid id sqrt2 particleSpacing numX numZ).1.length =
      px_cloth_system.numSprings numX numZ ∧
    px_cloth_system.numSprings numX numZ =
      (numX - 1) * (numZ - 1) * 4 + (numX - 1) + (numZ - 1) ∧
    (px_cloth_system.grid id sqrt2 particleSpacing numX numZ).2.length =
      3 * px_cloth_system.numTriangles numX numZ ∧
    px_cloth_system.numTriangles numX numZ = (numX - 1) * (numZ - 1) * 2 ∧
    px_cloth_system.assertions numX numZ
      (px_cloth_system.grid id sqrt2 particleSpacing numX numZ) = true := by
  obtain ⟨k, rfl⟩ : ∃ k, numX = k + 1 := ⟨numX - 1, by omega⟩
  obtain ⟨a, rfl⟩ : ∃ a, numZ = a + 1 := ⟨numZ - 1, by omega⟩
  simp only [Nat.add_sub_cancel] at hs ht
  obtain ⟨g1, g2⟩ := px_cloth_system.grid_length id sqrt2 particleSpacing a k
  have hk : PxU32.sub (k + 1) 1 = k := by
    unfold PxU32.sub
    omega
  have ha : PxU32.sub (a + 1) 1 = a := by
    unfold PxU32.sub
    omega
  have hka : k * a < 4294967296 := by omega
  have hka4 : k * a * 4 < 4294967296 := by omega
  have hka2 : k * a * 2 < 4294967296 := by omega
  have hns : px_cloth_system.numSprings (k + 1) (a + 1) = k * a * 4 + k + a := by
    simp only [px_cloth_system.numSprings, hk, ha, PxU32.mul, PxU32.add]
    rw [Nat.mod_eq_of_lt hka, Nat.mod_eq_of_lt hka4,
      Nat.mod_eq_of_lt (show k * a * 4 + k < 4294967296 by omega), Nat.mod_eq_of_lt hs]
  have hnt : px_cloth_system.numTriangles (k + 1) (a + 1) = k * a * 2 := by
    simp only [px_cloth_system.numTriangles, hk, ha, PxU32.mul]
    rw [Nat.mod_eq_of_lt hka, Nat.mod_eq_of_lt hka2]
  simp only [Nat.add_sub_cancel]
  refine ⟨by rw [g1, hns], hns, by rw [g2, hnt], hnt, ?_⟩
  simp only [px_cloth_system.assertions, g1, g2, hns, hnt, Nat.mod_eq_of_lt hs,
    Nat.mod_eq_of_lt ht, Bool.and_eq_true, beq_iff_eq, true_and]
  omega

/-- Instance of C25: a cloth of 3 by 4 particles with the row-major numbering. -/
theorem cloth_spring_count_witness :
    (px_cloth_system.grid (fun x y numY => x * numY + y) (7 / 5) (1 / 5) 3 4).1.length =
      px_cloth_system.numSprings 3 4 ∧
    px_cloth_system.numSprings 3 4 = (3 - 1) * (4 - 1) * 4 + (3 - 1) + (4 - 1) ∧
    (px_cloth_system.grid (fun x y numY => x * numY + y) (7 / 5) (1 / 5) 3 4).2.length =
      3 * px_cloth_system.numTriangles 3 4 ∧
    px_cloth_system.numTriangles 3 4 = (3 - 1) * (4 - 1) * 2 ∧
    px_cloth_system.assertions 3 4
      (px_cloth_system.grid (fun x y numY => x * numY + y) (7 / 5) (1 / 5) 3 4) = true :=
  cloth_spring_count (fun x y numY => x * numY + y) (7 / 5) (1 / 5) 3 4 (by decide) (by decide)
    (by decide) (by decide) (by decide) (by decide)

theorem generateIndices.vertex.eq_iff (v w : generateIndices.vertex) :
    v.eq w = true ↔ v = w := by
  obtain ⟨⟨a1, a2, a3⟩, ⟨b1, b2, b3⟩, ⟨c1, c2⟩⟩ := v
  obtain ⟨⟨d1, d2, d3⟩, ⟨e1, e2, e3⟩, ⟨f1, f2⟩⟩ := w
  simp only [generateIndices.vertex.eq, Bool.and_eq_true, beq_iff_eq,
    generateIndices.vertex.mk.injEq, vec3.mk.injEq, vec2.mk.injEq]
  tauto

theorem getElem?_singleton_some {α : Type} (c v : α) (d : Nat) (h : [c][d]? = some v) :
    d = 0 ∧ v = c := by
  cases d with
  | zero =>
    simp only [List.getElem?_cons_zero, Option.some.injEq] at h
    exact ⟨rfl, h.symm⟩
  | succ m => simp at h

theorem getElem?_append_singleton {α : Type} (l : List α) (c v : α) (i : Nat)
    (h : (l ++ [c])[i]? = some v) : (i < l.length ∧ l[i]? = some v) ∨ (i = l.length ∧ v = c) := by
  by_cases hlt : i < l.length
  · rw [List.getElem?_append_left hlt] at h
    exact Or.inl ⟨hlt, h⟩
  · rw [List.getElem?_append_right (Nat.le_of_not_lt hlt)] at h
    obtain ⟨h1, h2⟩ := getElem?_singleton_some c v _ h
    exact Or.inr ⟨by omega, h2⟩

theorem getElem?_lt_of_some {α : Type} (l : List α) (i : Nat) (v : α) (h : l[i]? = some v) :
    i < l.length := by
  obtain ⟨h1, -⟩ := List.getElem?_eq_some.mp h
  exact h1

theorem generateIndices.corner_indexed (cs vs : List generateIndices.vertex) (is : List Nat)
    (c : generateIndices.vertex) (h : generateIndices.indexed cs vs is)
    (h32 : cs.length < 4294967296) :
    generateIndices.indexed (cs ++ [c]) (generateIndices.corner (vs, is) c).1
      (generateIndices.corner (vs, is) c).2 := by
  obtain ⟨i1, i2, i3, i5, i4, i6⟩ := h
  unfold generateIndices.corner
  cases hfind : vs.findIdx? (fun it => it.eq c) with
  | some k0 =>
    obtain ⟨hk0, hp, -⟩ := List.findIdx?_eq_some_iff_getElem.mp hfind
    have hvc : vs[k0] = c := (generateIndices.vertex.eq_iff _ _).mp hp
    have hk0v : vs[k0]? = some c := List.getElem?_eq_some.mpr ⟨hk0, hvc⟩
    have hcvs : c ∈ vs := List.mem_iff_getElem?.mpr ⟨k0, hk0v⟩
    have hmod : k0 % 4294967296 = k0 := Nat.mod_eq_of_lt (by omega)
    simp only [hmod]
    refine ⟨i1, ?_, ?_, ?_, ?_, ?_⟩
    · intro v
      rw [List.mem_append, List.mem_singleton, ← i2]
      constructor
      · exact fun hv => Or.inl hv
      · rintro (hv | rfl)
        · exact hv
        · exact hcvs
    · simp only [List.length_append, List.length_singleton, i3]
    · simp only [List.length_append, List.length_singleton]
      omega
    · intro i v hi
      rcases getElem?_append_singleton cs c v i hi with ⟨hlt, hi2⟩ | ⟨rfl, rfl⟩
      · obtain ⟨k, hk1, hk2⟩ := i4 i v hi2
        refine ⟨k, ?_, hk2⟩
        rw [List.getElem?_append_left (by omega)]
        exact hk1
      · refine ⟨k0, ?_, hk0v⟩
        rw [← i3]
        exact List.getElem?_concat_length _ _
    · intro k v hk
      obtain ⟨i, a, b, d, e⟩ := i6 k v hk
      have hi := getElem?_lt_of_some cs i v a
      refine ⟨i, ?_, ?_, ?_, ?_⟩
      · rw [List.getElem?_append_left hi]
        exact a
      · rw [List.take_append_of_le_length (Nat.le_of_lt hi)]
        exact b
      · intro w
        rw [List.take_append_of_le_length (Nat.le_of_lt hi)]
        exact d w
      · rw [List.getElem?_append_left (by omega)]
        exact e
  | none =>
    have hcvs : c ∉ vs := by
      intro hc
      have := List.findIdx?_eq_none_iff.mp hfind c hc
      rw [(generateIndices.vertex.eq_iff c c).mpr rfl] at this
      cases this
    have hccs : c ∉ cs := fun hc => hcvs ((i2 c).mpr hc)
    have hlen : ((vs ++ [c]).length - 1) % 4294967296 = vs.length := by
      simp only [List.length_append, List.length_singleton, Nat.add_sub_cancel]
      exact Nat.mod_eq_of_lt (by omega)
    simp only [hlen]
    refine ⟨?_, ?_, ?_, ?_, ?_, ?_⟩
    · rw [List.nodup_append]
      refine ⟨i1, List.nodup_singleton c, ?_⟩
      intro x hx hx2
      rw [List.mem_singleton] at hx2
      exact hcvs (hx2 ▸ hx)
    · intro v
      simp only [List.mem_append, List.mem_singleton, i2]
    · simp only [List.length_append, List.length_singleton, i3]
    · simp only [List.length_append, List.length_singleton]
      omega
    · intro i v hi
      rcases getElem?_append_singleton cs c v i hi with ⟨hlt, hi2⟩ | ⟨rfl, rfl⟩
      · obtain ⟨k, hk1, hk2⟩ := i4 i v hi2
        refine ⟨k, ?_, ?_⟩
        · rw [List.getElem?_append_left (by omega)]
          exact hk1
        · rw [List.getElem?_append_left (getElem?_lt_of_some vs k v hk2)]
          exact hk2
      · refine ⟨vs.length, ?_, List.getElem?_concat_length _ _⟩
        rw [← i3]
        exact List.getElem?_concat_length _ _
    · intro k v hk
      rcases getElem?_append_singleton vs c v k hk with ⟨hlt, hk2⟩ | ⟨rfl, rfl⟩
      · obtain ⟨i, a, b, d, e⟩ := i6 k v hk2
        have hi := getElem?_lt_of_some cs i v a
        refine ⟨i, ?_, ?_, ?_, ?_⟩
        · rw [List.getElem?_append_left hi]
          exact a
        · rw [List.take_append_of_le_length (Nat.le_of_lt hi)]
          exact b
        · intro w
          rw [List.take_append_of_le_length (Nat.le_of_lt hi),
            List.take_append_of_le_length (Nat.le_of_lt hlt)]
          exact d w
        · rw [List.getElem?_append_left (by omega)]
          exact e
      · refine ⟨cs.length, List.getElem?_concat_length _ _, ?_, ?_, ?_⟩
        · rw [List.take_left]
          exact hccs
        · intro w
          rw [List.take_left, List.take_left]
          exact i2 w
        · rw [← i3]
          exact List.getElem?_concat_length _ _

theorem generateIndices.fold_indexed :
    ∀ (l cs vs : List generateIndices.vertex) (is : List Nat),
      generateIndices.indexed cs vs is → (cs ++ l).length ≤ 4294967296 →
      generateIndices.indexed (cs ++ l) (l.foldl generateIndices.corner (vs, is)).1
        (l.foldl generateIndices.corner (vs, is)).2 := by
  intro l
  induction l with
  | nil =>
    intro cs vs is h _
    simpa using h
  | cons c l ih =>
    intro cs vs is h h32
    have h1 := generateIndices.corner_indexed cs vs is c h (by
      simp only [List.length_append, List.length_cons] at h32
      omega)
    have h2 := ih (cs ++ [c]) _ _ h1 (by simpa using h32)
    simpa using h2

theorem generateIndices.fold_corners (triangles : List blast_triangle) :
    ∀ acc : List generateIndices.vertex × List Nat,
      triangles.foldl
        (fun acc triangle =>
          generateIndices.corner
            (generateIndices.corner
              (generateIndices.corner acc (generateIndices.vertexOf triangle.a))
              (generateIndices.vertexOf triangle.b))
            (generateIndices.vertexOf triangle.c))
        acc =
      (generateIndices.corners triangles).foldl generateIndices.corner acc := by
  induction triangles with
  | nil => intro acc; rfl
  | cons t ts ih =>
    intro acc
    simp only [List.foldl_cons, generateIndices.corners, List.flatMap_cons, List.foldl_append,
      List.foldl_nil]
    exact ih _

theorem generateIndices.corners_length (triangles : List blast_triangle) :
    (generateIndices.corners triangles).length = 3 * triangles.length := by
  induction triangles with
  | nil => rfl
  | cons t ts ih =>
    simp only [generateIndices.corners, List.flatMap_cons, List.length_append, List.length_cons,
      List.length_nil] at ih ⊢
    omega

theorem generateIndices.indexed_run (triangles : List blast_triangle)
    (h32 : 3 * triangles.length ≤ 4294967296) :
    ∃ vs, generateIndices.indexed (generateIndices.corners triangles) vs
      (generateIndices triangles) := by
  have h := generateIndices.fold_indexed (generateIndices.corners triangles) [] [] []
    ⟨List.nodup_nil, by simp, rfl, le_refl _, by simp, by simp⟩
    (by simpa [generateIndices.corners_length] using h32)
  rw [List.nil_append] at h
  unfold generateIndices
  rw [generateIndices.fold_corners]
  exact ⟨_, h⟩

/-- C27. The `generateIndices` deduplicates vertices: for a triangle list whose
corners number at most `2^32`, the result has `3 * nbTriangles` entries, one for
each corner in the order of the loop; the `operator==` of `vertex` holds exactly
for equal (position, normal, uv) vertices; two corners get the same index
exactly when their vertices are equal; the index of a corner at which a vertex
occurs for the first time is the number of distinct vertices before it, so the
indices are the ranks of first occurrence; and the set of the indices used is
`{0, ..., d-1}` for the number `d` of distinct vertices. -/
theorem generateIndices_deduplicates (triangles : List blast_triangle)
    (h32 : 3 * triangles.length ≤ 4294967296) :
    (generateIndices triangles).length = 3 * triangles.length ∧
    (generateIndices.corners triangles).length = 3 * triangles.length ∧
    (∀ v w : generateIndices.vertex, v.eq w = true ↔ v = w) ∧
    (∀ (i j : Nat) v w k l, (generateIndices.corners triangles)[i]? = some v →
      (generateIndices.corners triangles)[j]? = some w →
      (generateIndices triangles)[i]? = some k → (generateIndices triangles)[j]? = some l →
      (k = l ↔ v = w)) ∧
    (∀ (i : Nat) v, (generateIndices.corners triangles)[i]? = some v →
      v ∉ (generateIndices.corners triangles).take i →
      (generateIndices triangles)[i]? =
        some ((generateIndices.corners triangles).take i).toFinset.card) ∧
    (generateIndices triangles).toFinset =
      Finset.range (generateIndices.corners triangles).toFinset.card := by
  obtain ⟨vs, i1, i2, i3, i5, i4, i6⟩ := generateIndices.indexed_run triangles h32
  have hlen := generateIndices.corners_length triangles
  have hinj : ∀ (k l : Nat) v, vs[k]? = some v → vs[l]? = some v → k = l := by
    intro k l v hk hl
    obtain ⟨hk1, hk2⟩ := List.getElem?_eq_some.mp hk
    obtain ⟨hl1, hl2⟩ := List.getElem?_eq_some.mp hl
    exact (List.Nodup.getElem_inj_iff i1).mp (hk2.trans hl2.symm)
  have hcard : (generateIndices.corners triangles).toFinset.card = vs.length := by
    rw [← List.toFinset_card_of_nodup i1]
    congr 1
    ext v
    simp only [List.mem_toFinset, i2]
  refine ⟨by rw [i3, hlen], hlen, generateIndices.vertex.eq_iff, ?_, ?_, ?_⟩
  · intro i j v w k l hi hj hk hl
    obtain ⟨k2, a1, a2⟩ := i4 i v hi
    obtain ⟨l2, b1, b2⟩ := i4 j w hj
    rw [hk] at a1
    rw [hl] at b1
    cases a1
    cases b1
    constructor
    · intro hkl
      rw [hkl, b2] at a2
      cases a2
      rfl
    · intro hvw
      rw [hvw] at a2
      exact hinj k l w a2 b2
  · intro i v hi hfirst
    obtain ⟨k, a1, a2⟩ := i4 i v hi
    obtain ⟨i0, c1, c2, c3, c4⟩ := i6 k v a2
    have hii : i0 = i := by
      rcases Nat.lt_trichotomy i0 i with hlt | heq | hgt
      · exfalso
        apply hfirst
        rw [List.mem_iff_getElem?]
        exact ⟨i0, by rw [List.getElem?_take_of_lt hlt]; exact c1⟩
      · exact heq
      · exfalso
        apply c2
        rw [List.mem_iff_getElem?]
        exact ⟨i, by rw [List.getElem?_take_of_lt hgt]; exact hi⟩
    subst hii
    rw [a1]
    congr 1
    have hk := getElem?_lt_of_some vs k v a2
    have h1 : ((generateIndices.corners triangles).take i0).toFinset = (vs.take k).toFinset := by
      ext w
      simp only [List.mem_toFinset, c3]
    rw [h1, List.toFinset_card_of_nodup (List.Nodup.sublist (List.take_sublist _ _) i1),
      List.length_take]
    omega
  · rw [hcard]
    ext k
    simp only [List.mem_toFinset, Finset.mem_range]
    constructor
    · intro hk
      obtain ⟨i, hi⟩ := List.mem_iff_getElem?.mp hk
      have hilt := getElem?_lt_of_some _ i k hi
      rw [i3] at hilt
      obtain ⟨k2, a1, a2⟩ := i4 i _ (List.getElem?_eq_some.mpr ⟨hilt, rfl⟩)
      rw [hi] at a1
      cases a1
      exact getElem?_lt_of_some vs k _ a2
    · intro hk
      obtain ⟨i, -, -, -, c4⟩ := i6 k _ (List.getElem?_eq_some.mpr ⟨hk, rfl⟩)
      exact List.mem_iff_getElem?.mpr ⟨i, c4⟩

/-- Instance of C27: the two triangles of the unit square, which share two
vertices, are indexed as `0 1 2` and `0 2 3`. -/
theorem generateIndices_deduplicates_witness :
    (generateIndices squareTriangles).length = 3 * squareTriangles.length ∧
    (generateIndices.corners squareTriangles).length = 3 * squareTriangles.length ∧
    (∀ v w : generateIndices.vertex, v.eq w = true ↔ v = w) ∧
    (∀ (i j : Nat) v w k l, (generateIndices.corners squareTriangles)[i]? = some v →
      (generateIndices.corners squareTriangles)[j]? = some w →
      (generateIndices squareTriangles)[i]? = some k →
      (generateIndices squareTriangles)[j]? = some l →
      (k = l ↔ v = w)) ∧
    (∀ (i : Nat) v, (generateIndices.corners squareTriangles)[i]? = some v →
      v ∉ (generateIndices.corners squareTriangles).take i →
      (generateIndices squareTriangles)[i]? =
        some ((generateIndices.corners squareTriangles).take i).toFinset.card) ∧
    (generateIndices squareTriangles).toFinset =
      Finset.range (generateIndices.corners squareTriangles).toFinset.card :=
  generateIndices_deduplicates squareTriangles (by decide)

end physics
